import Mathlib

/-!
# Verification of the PyEngy 2D scene-graph engine core

Shallow embedding of the PyEngy sources (`pyengy/util/context_utils.py`,
`pyengy/node/node.py`, `pyengy/node/node_2d.py`, `pyengy/math/transform.py`,
`pyengy/math/unit_conversions.py`) together with proofs and refutations of the
specified properties.

Conventions used throughout:
* Python `dict` objects are embedded as insertion-ordered association lists
  (`List (String × _)`); writing an existing key replaces the value in place,
  writing a fresh key appends at the end, exactly as CPython dictionaries
  behave observably.
* Python object identity (`id(self)`) is embedded as an explicit `Nat` id
  carried by each node; the identity ids of distinct live objects are distinct,
  which becomes a well-formedness hypothesis where needed.
* Python `float` arithmetic is embedded as real-number arithmetic (`ℝ`); the
  specification states its numeric invariants "up to floating-point
  tolerance", and every refutation below exhibits a discrepancy that is a
  fixed nonzero real quantity, not a rounding artefact.
* Exceptions are embedded as `Except`/`Option` results; where Python code
  mutates state before raising, the embedded operation returns the mutated
  state alongside the error.
-/

namespace PyEngy

/-! ## Context (`pyengy/util/context_utils.py`)

A context value is either a leaf (any non-dict Python object, parametrised by
`α`) or a nested dict. `Context.data` itself is a dict, i.e. a
`List (String × Val α)`. -/

/-- A Python value stored in a `Context`: either an opaque non-dict object
(`prim`) or a nested string-keyed dict (`map`). -/
inductive Val (α : Type) where
  | prim (a : α)
  | map (entries : List (String × Val α))

/-- Lookup in an insertion-ordered dict: the value bound to `k`, if any. -/
def dictFind {α : Type} (l : List (String × Val α)) (k : String) : Option (Val α) :=
  match l with
  | [] => none
  | (k', v) :: rest => if k' = k then some v else dictFind rest k

/-- `d[k] = v` on a Python dict: replace the binding of an existing key in
place, otherwise append the new binding at the end. -/
def dictSet {α : Type} (l : List (String × Val α)) (k : String) (v : Val α) :
    List (String × Val α) :=
  match l with
  | [] => [(k, v)]
  | (k', v') :: rest => if k' = k then (k', v) :: rest else (k', v') :: dictSet rest k v

/-- `del d[k]` on a Python dict (the key is assumed present by callers). -/
def dictDel {α : Type} (l : List (String × Val α)) (k : String) :
    List (String × Val α) :=
  match l with
  | [] => []
  | (k', v') :: rest => if k' = k then rest else (k', v') :: dictDel rest k

/-- Errors that can escape the private `Context` helpers: Python `KeyError`
(missing key) and `TypeError` (subscripting / membership test on a non-dict). -/
inductive CErr where
  | keyErr
  | typeErr
  deriving DecidableEq

/-- `Context.__retrieve` (`context_utils.py` lines 109–126, without the final
`isinstance` check, performed by `Context.get` below): walk all path segments
but the last through nested dicts, then read the last key. A missing key
raises `KeyError`; subscripting a non-dict raises `TypeError`. The `[]` case
is unreachable from `Context.get` because `str.split` never returns an empty
list. -/
def retrieveV {α : Type} : Val α → List String → Except CErr (Val α)
  | .prim _, _ :: _ => .error .typeErr
  | .map l, [k] =>
    match dictFind l k with
    | some v => .ok v
    | none => .error .keyErr
  | .map l, k :: k' :: rest =>
    match dictFind l k with
    | some v => retrieveV v (k' :: rest)
    | none => .error .keyErr
  | _, [] => .error .keyErr

/-- `Context.__provide` (`context_utils.py` lines 128–143): walk all path
segments but the last, creating missing intermediate dicts (`current[key] =
{}`), then assign the last key. Membership test or assignment on a non-dict
raises `TypeError` (reported as `.error ()`). -/
def provideV {α : Type} : Val α → List String → Val α → Except Unit (Val α)
  | .prim _, _ :: _, _ => .error ()
  | .map l, [k], v => .ok (.map (dictSet l k v))
  | .map l, k :: k' :: rest, v =>
    match provideV ((dictFind l k).getD (.map [])) (k' :: rest) v with
    | .ok sub' => .ok (.map (dictSet l k sub'))
    | .error e => .error e
  | cur, [], _ => .ok cur

/-- `Context.__delete` (`context_utils.py` lines 145–158): walk all path
segments but the last, read the value at the last key, delete it, and return
the value together with the updated data. -/
def deleteV {α : Type} : Val α → List String → Except CErr (Val α × Val α)
  | .prim _, _ :: _ => .error .typeErr
  | .map l, [k] =>
    match dictFind l k with
    | some v => .ok (v, .map (dictDel l k))
    | none => .error .keyErr
  | .map l, k :: k' :: rest =>
    match dictFind l k with
    | some v =>
      match deleteV v (k' :: rest) with
      | .ok (w, v') => .ok (w, .map (dictSet l k v'))
      | .error e => .error e
    | none => .error .keyErr
  | _, [] => .error .keyErr

/-- The engine-level errors `Context` wraps the internal ones into
(`PyEngyError` with the three message kinds of `get`/`set`/`remove`). -/
inductive PErr where
  | missingItem
  | illegalPath
  | badItemType
  deriving DecidableEq

/-- `Context.__parse_path`: a dot-separated path split into segments. -/
def parsePath (path : String) : List String := path.splitOn "."

/-- `Context.get` (`context_utils.py` lines 40–63), over an already-split
path. `check` embeds the optional `item_type` isinstance test (performed by
`__retrieve` after a successful lookup and surfaced as a `PyEngyError`).
A `KeyError` is re-raised as `missingItem` when `raiseIfMissing` is true and
otherwise turned into the absent result `none`; a `TypeError` becomes
`illegalPath`. -/
def Context.get {α : Type} (data : List (String × Val α)) (path : List String)
    (raiseIfMissing : Bool) (check : Option (Val α → Bool)) :
    Except PErr (Option (Val α)) :=
  match retrieveV (.map data) path with
  | .ok v =>
    match check with
    | some c => if c v then .ok (some v) else .error .badItemType
    | none => .ok (some v)
  | .error .keyErr => if raiseIfMissing then .error .missingItem else .ok none
  | .error .typeErr => .error .illegalPath

/-- `Context.set` (`context_utils.py` lines 65–82), over an already-split
path: a `TypeError` from `__provide` becomes `illegalPath`. -/
def Context.set {α : Type} (data : List (String × Val α)) (path : List String)
    (v : Val α) : Except PErr (List (String × Val α)) :=
  match provideV (.map data) path v with
  | .ok (.map data') => .ok data'
  | .ok (.prim _) => .error .illegalPath
  | .error _ => .error .illegalPath

/-- `Context.remove` (`context_utils.py` lines 84–107), over an already-split
path: on success returns the deleted value and the updated data; a missing key
with `raiseIfMissing = false` returns `none` leaving the data unchanged
(Python falls through the handler and returns `None`). -/
def Context.remove {α : Type} (data : List (String × Val α)) (path : List String)
    (raiseIfMissing : Bool) :
    Except PErr (Option (Val α) × List (String × Val α)) :=
  match deleteV (.map data) path with
  | .ok (w, .map data') => .ok (some w, data')
  | .ok (_, .prim _) => .error .illegalPath
  | .error .keyErr =>
    if raiseIfMissing then .error .missingItem else .ok (none, data)
  | .error .typeErr => .error .illegalPath

/-! Dictionary lemmas. -/

theorem dictFind_dictSet_self {α : Type} (l : List (String × Val α)) (k : String)
    (v : Val α) : dictFind (dictSet l k v) k = some v := by
  induction l with
  | nil => simp [dictSet, dictFind]
  | cons hd tl ih =>
    obtain ⟨k', v'⟩ := hd
    by_cases h : k' = k <;> simp [dictSet, dictFind, h, ih]

theorem dictFind_dictSet_ne {α : Type} (l : List (String × Val α)) (k k' : String)
    (v : Val α) (h : k ≠ k') : dictFind (dictSet l k v) k' = dictFind l k' := by
  induction l with
  | nil => simp [dictSet, dictFind, h]
  | cons hd tl ih =>
    obtain ⟨k₀, v₀⟩ := hd
    by_cases h₀ : k₀ = k
    · subst h₀
      simp [dictSet, dictFind, h]
    · simp [dictSet, dictFind, h₀, ih]

theorem dictFind_dictDel_self {α : Type} (l : List (String × Val α)) (k : String)
    (hnd : (l.map Prod.fst).Nodup) : dictFind (dictDel l k) k = none := by
  induction l with
  | nil => simp [dictDel, dictFind]
  | cons hd tl ih =>
    obtain ⟨k₀, v₀⟩ := hd
    simp only [List.map_cons, List.nodup_cons] at hnd
    by_cases h₀ : k₀ = k
    · subst h₀
      simp only [dictDel, if_pos rfl]
      -- `k₀` does not occur in `tl`, so the lookup fails
      clear ih
      induction tl with
      | nil => simp [dictFind]
      | cons hd' tl' ih' =>
        obtain ⟨k₁, v₁⟩ := hd'
        simp only [List.map_cons, List.mem_cons] at hnd
        have hk₁ : k₁ ≠ k₀ := fun h => hnd.1 (Or.inl h.symm)
        simp only [dictFind, if_neg hk₁]
        exact ih' ⟨fun h => hnd.1 (Or.inr h), (List.nodup_cons.mp hnd.2).2⟩
    · simp only [dictDel, if_neg h₀, dictFind, if_neg h₀]
      exact ih hnd.2

theorem dictFind_dictDel_ne {α : Type} (l : List (String × Val α)) (k k' : String)
    (h : k ≠ k') : dictFind (dictDel l k) k' = dictFind l k' := by
  induction l with
  | nil => simp [dictDel]
  | cons hd tl ih =>
    obtain ⟨k₀, v₀⟩ := hd
    by_cases h₀ : k₀ = k
    · subst h₀
      simp [dictDel, dictFind, h]
    · simp [dictDel, dictFind, h₀, ih]

/-- Well-formedness of an embedded Python value: every nested dict has
pairwise-distinct keys. Real CPython dictionaries satisfy this by
construction. -/
inductive ValWF {α : Type} : Val α → Prop
  | prim (a : α) : ValWF (.prim a)
  | map (l : List (String × Val α)) (hnd : (l.map Prod.fst).Nodup)
      (h : ∀ p ∈ l, ValWF p.2) : ValWF (.map l)

theorem retrieveV_provideV {α : Type} (p : List String) :
    ∀ (cur cur' : Val α) (v : Val α),
      provideV cur p v = .ok cur' → p ≠ [] → retrieveV cur' p = .ok v := by
  induction p with
  | nil => intro _ _ _ _ h; exact absurd rfl h
  | cons k rest ih =>
    intro cur cur' v h _
    match cur with
    | .prim a => simp [provideV] at h
    | .map l =>
      match rest with
      | [] =>
        simp only [provideV, Except.ok.injEq] at h
        subst h
        simp [retrieveV, dictFind_dictSet_self]
      | k' :: rest' =>
        simp only [provideV] at h
        cases hsub : provideV ((dictFind l k).getD (.map [])) (k' :: rest') v with
        | error e => rw [hsub] at h; exact absurd h (by simp)
        | ok sub' =>
          rw [hsub] at h
          simp only [Except.ok.injEq] at h
          subst h
          simp only [retrieveV, dictFind_dictSet_self]
          exact ih _ _ _ hsub (by simp)

theorem dictFind_mem {α : Type} {l : List (String × Val α)} {k : String}
    {v : Val α} (h : dictFind l k = some v) : (k, v) ∈ l := by
  induction l with
  | nil => simp [dictFind] at h
  | cons hd tl ih =>
    obtain ⟨k₀, v₀⟩ := hd
    by_cases hk : k₀ = k
    · subst hk
      simp only [dictFind, if_true, eq_self_iff_true, Option.some.injEq] at h
      subst h
      exact List.mem_cons_self _ _
    · simp only [dictFind, if_neg hk] at h
      exact List.mem_cons_of_mem _ (ih h)

theorem deleteV_spec {α : Type} (p : List String) :
    ∀ (cur : Val α) (w cur' : Val α), ValWF cur → deleteV cur p = .ok (w, cur') →
      retrieveV cur p = .ok w ∧ retrieveV cur' p = .error .keyErr := by
  induction p with
  | nil => intro cur w cur' _ h; cases cur <;> simp [deleteV] at h
  | cons k rest ih =>
    intro cur w cur' hwf h
    match cur with
    | .prim a => simp [deleteV] at h
    | .map l =>
      cases hwf with
      | map _ hnd hsub =>
        match rest with
        | [] =>
          simp only [deleteV] at h
          cases hfind : dictFind l k with
          | none => simp [hfind] at h
          | some v₀ =>
            simp only [hfind, Except.ok.injEq, Prod.mk.injEq] at h
            obtain ⟨rfl, rfl⟩ := h
            refine ⟨by simp [retrieveV, hfind], ?_⟩
            simp [retrieveV, dictFind_dictDel_self l k hnd]
        | k' :: rest' =>
          simp only [deleteV] at h
          cases hfind : dictFind l k with
          | none => simp [hfind] at h
          | some v₀ =>
            simp only [hfind] at h
            cases hdel : deleteV v₀ (k' :: rest') with
            | error e => simp [hdel] at h
            | ok pr =>
              obtain ⟨w₀, v₀'⟩ := pr
              simp only [hdel, Except.ok.injEq, Prod.mk.injEq] at h
              obtain ⟨rfl, rfl⟩ := h
              have hv₀ : ValWF v₀ := hsub _ (dictFind_mem hfind)
              obtain ⟨h₁, h₂⟩ := ih v₀ w₀ v₀' hv₀ hdel
              refine ⟨by simp [retrieveV, hfind, h₁], ?_⟩
              simp [retrieveV, dictFind_dictSet_self, h₂]

theorem deleteV_frame {α : Type} (p : List String) :
    ∀ (cur : Val α) (w cur' : Val α) (q : List String),
      deleteV cur p = .ok (w, cur') → ¬ p <+: q → ¬ q <+: p →
      retrieveV cur' q = retrieveV cur q := by
  induction p with
  | nil => intro cur w cur' q h _ _; cases cur <;> simp [deleteV] at h
  | cons k rest ih =>
    intro cur w cur' q h hpq hqp
    match cur with
    | .prim a => simp [deleteV] at h
    | .map l =>
      match q with
      | [] => exact absurd List.nil_prefix hqp
      | k' :: qrest =>
        by_cases hk : k' = k
        · subst hk
          match rest with
          | [] =>
            -- here `p = [k'] <+: k' :: qrest`, contradiction
            exact absurd (List.cons_prefix_cons.mpr ⟨rfl, List.nil_prefix⟩) hpq
          | k₂ :: rest' =>
            simp only [deleteV] at h
            cases hfind : dictFind l k' with
            | none => simp [hfind] at h
            | some v₀ =>
              simp only [hfind] at h
              cases hdel : deleteV v₀ (k₂ :: rest') with
              | error e => simp [hdel] at h
              | ok pr =>
                obtain ⟨w₀, v₀'⟩ := pr
                simp only [hdel, Except.ok.injEq, Prod.mk.injEq] at h
                obtain ⟨rfl, rfl⟩ := h
                match qrest with
                | [] => exact absurd (List.cons_prefix_cons.mpr ⟨rfl, List.nil_prefix⟩) hqp
                | q₂ :: qrest' =>
                  have hpq' : ¬ (k₂ :: rest') <+: (q₂ :: qrest') := by
                    intro hc; exact hpq (List.cons_prefix_cons.mpr ⟨rfl, hc⟩)
                  have hqp' : ¬ (q₂ :: qrest') <+: (k₂ :: rest') := by
                    intro hc; exact hqp (List.cons_prefix_cons.mpr ⟨rfl, hc⟩)
                  simp only [retrieveV, dictFind_dictSet_self, hfind]
                  exact ih v₀ w₀ v₀' (q₂ :: qrest') hdel hpq' hqp'
        · -- the two paths diverge at the first segment: untouched subtree
          match rest with
          | [] =>
            simp only [deleteV] at h
            cases hfind : dictFind l k with
            | none => simp [hfind] at h
            | some v₀ =>
              simp only [hfind, Except.ok.injEq, Prod.mk.injEq] at h
              obtain ⟨rfl, rfl⟩ := h
              have := dictFind_dictDel_ne l k k' (fun hkk => hk hkk.symm)
              match qrest with
              | [] => simp [retrieveV, this]
              | _ :: _ => simp [retrieveV, this]
          | k₂ :: rest' =>
            simp only [deleteV] at h
            cases hfind : dictFind l k with
            | none => simp [hfind] at h
            | some v₀ =>
              simp only [hfind] at h
              cases hdel : deleteV v₀ (k₂ :: rest') with
              | error e => simp [hdel] at h
              | ok pr =>
                obtain ⟨w₀, v₀'⟩ := pr
                simp only [hdel, Except.ok.injEq, Prod.mk.injEq] at h
                obtain ⟨rfl, rfl⟩ := h
                have := dictFind_dictSet_ne l k k' v₀' (fun hkk => hk hkk.symm)
                match qrest with
                | [] => simp [retrieveV, this]
                | _ :: _ => simp [retrieveV, this]

/-- **C8**: for every context and every dot-separated path `p` (split into its
nonempty list of segments) on which `set(p, v)` succeeds, a subsequent `get(p)`
returns `v`; and after a successful `remove(p)`, the value returned by
`remove` is the one that was stored at `p` (the one `get(p)` returned), a
subsequent `get(p, raise_if_missing=False)` returns the absent result `None`,
and every path `q` that does not pass through `p` (neither a prefix nor an
extension of it) reads exactly as before. -/
theorem context_set_get_remove_roundtrip {α : Type}
    (data : List (String × Val α)) (p q : List String) (v : Val α)
    (hwf : ValWF (Val.map data)) (hp : p ≠ []) :
    (∀ data₁, Context.set data p v = .ok data₁ →
      Context.get data₁ p true none = .ok (some v)) ∧
    (∀ w data₂, Context.remove data p true = .ok (some w, data₂) →
      Context.get data p true none = .ok (some w) ∧
      Context.get data₂ p false none = .ok none ∧
      (¬ p <+: q → ¬ q <+: p →
        Context.get data₂ q true none = Context.get data q true none)) := by
  constructor
  · intro data₁ h
    unfold Context.set at h
    cases hpr : provideV (Val.map data) p v with
    | error e => simp [hpr] at h
    | ok res =>
      match res with
      | .prim a => simp [hpr] at h
      | .map d =>
        simp only [hpr, Except.ok.injEq] at h
        subst h
        have := retrieveV_provideV p (.map data) (.map d) v hpr hp
        simp [Context.get, this]
  · intro w data₂ h
    unfold Context.remove at h
    cases hdel : deleteV (Val.map data) p with
    | error e => cases e <;> simp [hdel] at h
    | ok res =>
      obtain ⟨w', d'⟩ := res
      match d' with
      | .prim a => simp [hdel] at h
      | .map d =>
        simp only [hdel, Except.ok.injEq, Prod.mk.injEq, Option.some.injEq] at h
        obtain ⟨rfl, rfl⟩ := h
        obtain ⟨h₁, h₂⟩ := deleteV_spec p (.map data) w' (.map d) hwf hdel
        refine ⟨by simp [Context.get, h₁], by simp [Context.get, h₂], ?_⟩
        intro hpq hqp
        have := deleteV_frame p (.map data) w' (.map d) q hdel hpq hqp
        simp [Context.get, this]

/-- Witness for C8: setting `"a.b.c"` to `5` on the empty context then
reading it back yields `5`; on the resulting context `{"a": {"b": {"c": 5}}}`,
removing `"a.b.c"` returns `5`, the following absent-tolerant `get` returns
`None`, and the unrelated path `"a.x"` reads exactly as before. -/
theorem context_set_get_remove_roundtrip_witness :
    (Context.get (α := Nat) [("a", .map [("b", .map [("c", .prim 5)])])]
      ["a", "b", "c"] true none = .ok (some (.prim 5))) ∧
    (Context.get (α := Nat) [("a", .map [("b", .map [])])]
      ["a", "b", "c"] false none = .ok none) ∧
    (Context.get (α := Nat) [("a", .map [("b", .map [])])] ["a", "x"] true none =
      Context.get (α := Nat) [("a", .map [("b", .map [("c", .prim 5)])])]
        ["a", "x"] true none) := by
  have hwfFull :
      ValWF (Val.map [("a", Val.map [("b", Val.map [("c", Val.prim (5 : Nat))])])]) := by
    refine .map _ (by simp) ?_
    rintro ⟨k, v⟩ hkv
    simp only [List.mem_singleton, Prod.mk.injEq] at hkv
    obtain ⟨rfl, rfl⟩ := hkv
    refine .map _ (by simp) ?_
    rintro ⟨k, v⟩ hkv
    simp only [List.mem_singleton, Prod.mk.injEq] at hkv
    obtain ⟨rfl, rfl⟩ := hkv
    refine .map _ (by simp) ?_
    rintro ⟨k, v⟩ hkv
    simp only [List.mem_singleton, Prod.mk.injEq] at hkv
    obtain ⟨rfl, rfl⟩ := hkv
    exact .prim _
  have hwfEmpty : ValWF (Val.map ([] : List (String × Val Nat))) := by
    refine .map _ (by simp) ?_
    rintro ⟨k, v⟩ hkv
    simp at hkv
  have hEmpty := context_set_get_remove_roundtrip (α := Nat) []
    ["a", "b", "c"] ["a", "x"] (.prim 5) hwfEmpty (by simp)
  have hFull := context_set_get_remove_roundtrip (α := Nat)
    [("a", .map [("b", .map [("c", .prim 5)])])] ["a", "b", "c"] ["a", "x"]
    (.prim 5) hwfFull (by simp)
  have hget := hEmpty.1 [("a", .map [("b", .map [("c", .prim 5)])])] (by rfl)
  have hrem := hFull.2 (.prim 5) [("a", .map [("b", .map [])])] (by rfl)
  refine ⟨hget, hrem.2.1, hrem.2.2 ?_ ?_⟩
  · intro hc
    have := hc.length_le
    simp at this
  · intro hc
    rcases List.cons_prefix_cons.mp hc with ⟨-, hc'⟩
    rcases List.cons_prefix_cons.mp hc' with ⟨hx, -⟩
    exact absurd hx (by decide)

/-! ## Node lookup (`pyengy/node/node.py`, `get_node` and its helpers)

For the lookup claims a node tree only needs its identity id, its name and its
ordered children (`STree`). `Node.get_node` always delegates to the root of
the tree (`if self.parent: return self.parent.get_node(identifier)`), so it is
embedded as a function of the root node; path identifiers are embedded at
character level (`List Char`), matching Python string slicing. -/

/-- A node as seen by the lookup helpers: identity id, name, children. -/
inductive STree where
  | mk (nid : Nat) (name : String) (children : List STree)

/-- The identity id of a node. -/
def STree.nid : STree → Nat
  | .mk i _ _ => i

/-- The name of a node. -/
def STree.name : STree → String
  | .mk _ n _ => n

/-- The ordered children of a node. -/
def STree.children : STree → List STree
  | .mk _ _ cs => cs

/-- `Node.__find_node_by_id` (`node.py` lines 298–310). The Python builds
`catcher = [c.__find_node_by_id(id_value) for c in self.children]` and then
returns `None` if `catcher` is empty and `catcher[0]` otherwise — i.e. the
result of the *first* child, whether or not that result is `None`. -/
def findNodeById : STree → Nat → Option STree
  | .mk nid name children, i =>
    if nid = i then some (.mk nid name children)
    else
      match children with
      | [] => none
      | c :: _ => findNodeById c i

mutual

/-- `Node.__find_node_by_path` (`node.py` lines 312–329): no separator left
means match a direct child by name; otherwise split at the first `/`, match a
direct child against the head segment, and recurse with the remainder. -/
def findNodeByPath : STree → List Char → Option STree
  | .mk _ _ children, path =>
    if '/' ∈ path then
      pathStep children (path.take (path.indexOf '/')) (path.drop (path.indexOf '/' + 1))
    else
      firstNamed children path

/-- The `catcher = [c for c in self.children if c.name == head]` step followed
by recursion into `catcher[0]` (the first child with the given name). -/
def pathStep : List STree → List Char → List Char → Option STree
  | [], _, _ => none
  | c :: cs, seg, rest =>
    if c.name.toList = seg then findNodeByPath c rest else pathStep cs seg rest

/-- The no-separator case of `__find_node_by_path`: the first direct child
with the given name, if any. -/
def firstNamed : List STree → List Char → Option STree
  | [], _ => none
  | c :: cs, seg => if c.name.toList = seg then some c else firstNamed cs seg

end

/-- `Node.get_node` (`node.py` lines 128–145) as evaluated at the root of the
tree (a call on any other node forwards to its parent until the root is
reached). An integer identifier goes to the id search; a string identifier
must start with the root name followed by `/`, and the remainder (character
slice `identifier[len(self.name) + 1:]`) goes to the path search. -/
def getNodeAtRoot (t : STree) (ident : Nat ⊕ List Char) : Option STree :=
  match ident with
  | .inl i => findNodeById t i
  | .inr s =>
    if (t.name.toList ++ ['/']).isPrefixOf s then
      findNodeByPath t (s.drop (t.name.toList.length + 1))
    else none

mutual

/-- All nodes of a subtree (the node itself and its strict descendants). -/
def subNodes : STree → List STree
  | .mk nid name cs => .mk nid name cs :: subNodesF cs

/-- All nodes of a forest of subtrees. -/
def subNodesF : List STree → List STree
  | [] => []
  | c :: cs => subNodes c ++ subNodesF cs

end

mutual

/-- Whether some node of the subtree has the given identity id. -/
def treeHasId : STree → Nat → Bool
  | .mk nid _ cs, i => decide (nid = i) || forestHasId cs i

/-- Whether some node of the forest has the given identity id. -/
def forestHasId : List STree → Nat → Bool
  | [], _ => false
  | c :: cs, i => treeHasId c i || forestHasId cs i

end

/-- The tree `ROOT { A, B }` used to exhibit the id-lookup defect. -/
def demoC1 : STree := .mk 0 "ROOT" [.mk 1 "A" [], .mk 2 "B" []]

/-- **C1** (refuted, code defect): on the tree `ROOT(id 0) { A(id 1), B(id 2) }`
the node `B` with id `2` exists, yet `get_node(2)` — which the spec requires
to find a node anywhere in the tree — returns absent, because
`__find_node_by_id` returns `catcher[0]`, the first child's recursive result,
even when that result is `None`, never examining the remaining children. -/
theorem findNodeById_misses_second_child :
    treeHasId demoC1 2 = true ∧ getNodeAtRoot demoC1 (.inl 2) = none := by
  exact ⟨rfl, rfl⟩

theorem mem_subNodesF_of_mem {c : STree} {cs : List STree} {n : STree}
    (hc : c ∈ cs) (hn : n ∈ subNodes c) : n ∈ subNodesF cs := by
  induction cs with
  | nil => cases hc
  | cons hd tl ih =>
    rcases List.mem_cons.mp hc with rfl | hc'
    · unfold subNodesF
      exact List.mem_append_left _ hn
    · unfold subNodesF
      exact List.mem_append_right _ (ih hc')

theorem firstNamed_mem {cs : List STree} {seg : List Char} {c : STree}
    (h : firstNamed cs seg = some c) : c ∈ cs := by
  induction cs with
  | nil => simp [firstNamed] at h
  | cons hd tl ih =>
    by_cases hname : hd.name.toList = seg
    · simp only [firstNamed, if_pos hname, Option.some.injEq] at h
      subst h
      exact List.mem_cons_self _ _
    · simp only [firstNamed, if_neg hname] at h
      exact List.mem_cons_of_mem _ (ih h)

mutual

theorem findNodeByPath_mem : ∀ (t : STree) (path : List Char) (n : STree),
    findNodeByPath t path = some n → n ∈ subNodesF t.children
  | .mk nid name cs, path, n => by
    intro h
    unfold findNodeByPath at h
    by_cases hsl : '/' ∈ path
    · rw [if_pos hsl] at h
      obtain ⟨c, hc, hn⟩ := pathStep_mem cs _ _ n h
      exact mem_subNodesF_of_mem hc hn
    · rw [if_neg hsl] at h
      have hc := firstNamed_mem h
      refine mem_subNodesF_of_mem hc ?_
      cases n
      exact List.mem_cons_self _ _

theorem pathStep_mem : ∀ (cs : List STree) (seg rest : List Char) (n : STree),
    pathStep cs seg rest = some n → ∃ c ∈ cs, n ∈ subNodes c
  | [], _, _, _ => by intro h; simp [pathStep] at h
  | c :: cs, seg, rest, n => by
    intro h
    by_cases hname : c.name.toList = seg
    · rw [pathStep, if_pos hname] at h
      refine ⟨c, List.mem_cons_self _ _, ?_⟩
      have := findNodeByPath_mem c rest n h
      cases c
      exact List.mem_cons_of_mem _ this
    · rw [pathStep, if_neg hname] at h
      obtain ⟨c', hc', hn⟩ := pathStep_mem cs seg rest n h
      exact ⟨c', List.mem_cons_of_mem _ hc', hn⟩

end

/-- **C10**: a path lookup can only return strict descendants of the root, and
in particular looking up exactly the root's own path (its bare name) returns
absent: `get_node` demands that a string identifier start with the root's name
followed by `"/"`, which the bare name never does. -/
theorem getNode_by_path_only_strict_descendants (t : STree) :
    (∀ ident n, getNodeAtRoot t (.inr ident) = some n → n ∈ subNodesF t.children) ∧
    getNodeAtRoot t (.inr t.name.toList) = none := by
  constructor
  · intro ident n h
    simp only [getNodeAtRoot] at h
    by_cases hpre : (t.name.toList ++ ['/']).isPrefixOf ident = true
    · rw [if_pos hpre] at h
      exact findNodeByPath_mem t _ n h
    · rw [if_neg hpre] at h
      exact absurd h (by simp)
  · have hnp : ¬ (t.name.data ++ ['/'] <+: t.name.data) := by
      intro hc
      have := hc.length_le
      simp at this
    simp [getNodeAtRoot, hnp]

/-- Witness for C10 at the concrete tree `R { A }`: the fully qualified path
`"R/A"` retrieves the strict descendant `A`, and the bare root name `"R"`
retrieves nothing. -/
theorem getNode_by_path_only_strict_descendants_witness :
    STree.mk 1 "A" [] ∈ subNodesF (STree.mk 0 "R" [.mk 1 "A" []]).children ∧
    getNodeAtRoot (.mk 0 "R" [.mk 1 "A" []]) (.inr ("R".toList)) = none := by
  constructor
  · exact (getNode_by_path_only_strict_descendants (.mk 0 "R" [.mk 1 "A" []])).1
      ("R/A".toList) (.mk 1 "A" []) (by rfl)
  · exact (getNode_by_path_only_strict_descendants (.mk 0 "R" [.mk 1 "A" []])).2

/-! ## Traversal passes and error isolation (`pyengy/node/node.py`, lines 196–252)

For the traversal claims a node carries its flags, whether its `_logger` has
been initialized (it is `None` until a successful `_build_self` sets it), and
one outcome tag per hook: the hook returns normally (`ok`), raises a
recognized engine error `PyEngyError` (`engy`), or raises any other exception
(`oth`).  Each pass mirrors the source: a guarded hook call — whose
`except PyEngyError` handler calls `self._logger.error(...)` and therefore
itself raises a (non-engine) `AttributeError` when `_logger` is still `None` —
followed by recursion into all children, gated by `active` (update,
handle_event), `visible` (render) or nothing (build).  A pass returns the list
of nodes whose hook ran and the list of reported errors, or `.error ()` if an
uncaught exception aborted it. -/

/-- Outcome of one hook invocation. -/
inductive HTag where
  | ok
  | engy
  | oth
  deriving DecidableEq

/-- A node as seen by the traversal passes. -/
inductive ETree where
  | mk (nid : Nat) (active visible logger : Bool) (tagB tagU tagR tagH : HTag)
      (children : List ETree)

mutual

/-- `Node.build` (lines 196–207): guarded `_build_self` — a successful run of
the base hook initializes the logger — then recursion into all children
(build is not gated by any flag). -/
def buildT : ETree → Except Unit (ETree × List Nat × List Nat)
  | .mk nid act vis log tB tU tR tH cs =>
    match tB with
    | .ok => do
      let (cs', v, r) ← buildF cs
      pure (.mk nid act vis true tB tU tR tH cs', nid :: v, r)
    | .engy =>
      if log then do
        let (cs', v, r) ← buildF cs
        pure (.mk nid act vis log tB tU tR tH cs', nid :: v, nid :: r)
      else .error ()
    | .oth => .error ()

/-- The `for child in self.children: child.build(context)` loop. -/
def buildF : List ETree → Except Unit (List ETree × List Nat × List Nat)
  | [] => pure ([], [], [])
  | c :: cs => do
    let (c', v₁, r₁) ← buildT c
    let (cs', v₂, r₂) ← buildF cs
    pure (c' :: cs', v₁ ++ v₂, r₁ ++ r₂)

end

mutual

/-- `Node.update` (lines 224–237): nothing happens on an inactive node;
otherwise a guarded `_update_self` followed by recursion into all children. -/
def updateT : ETree → Except Unit (List Nat × List Nat)
  | .mk nid act _ log _ tU _ _ cs =>
    if act then
      match tU with
      | .ok => do
        let (v, r) ← updateF cs
        pure (nid :: v, r)
      | .engy =>
        if log then do
          let (v, r) ← updateF cs
          pure (nid :: v, nid :: r)
        else .error ()
      | .oth => .error ()
    else pure ([], [])

/-- The `for child in self.children: child.update(delta, context)` loop. -/
def updateF : List ETree → Except Unit (List Nat × List Nat)
  | [] => pure ([], [])
  | c :: cs => do
    let (v₁, r₁) ← updateT c
    let (v₂, r₂) ← updateF cs
    pure (v₁ ++ v₂, r₁ ++ r₂)

end

mutual

/-- `Node.render` (lines 209–222): like update but gated by `visible` and
running `_render_self`. -/
def renderT : ETree → Except Unit (List Nat × List Nat)
  | .mk nid _ vis log _ _ tR _ cs =>
    if vis then
      match tR with
      | .ok => do
        let (v, r) ← renderF cs
        pure (nid :: v, r)
      | .engy =>
        if log then do
          let (v, r) ← renderF cs
          pure (nid :: v, nid :: r)
        else .error ()
      | .oth => .error ()
    else pure ([], [])

/-- The render loop over children. -/
def renderF : List ETree → Except Unit (List Nat × List Nat)
  | [] => pure ([], [])
  | c :: cs => do
    let (v₁, r₁) ← renderT c
    let (v₂, r₂) ← renderF cs
    pure (v₁ ++ v₂, r₁ ++ r₂)

end

mutual

/-- `Node.handle_event` (lines 239–252): gated by `active`, running
`_handle_event_self`. -/
def handleT : ETree → Except Unit (List Nat × List Nat)
  | .mk nid act _ log _ _ _ tH cs =>
    if act then
      match tH with
      | .ok => do
        let (v, r) ← handleF cs
        pure (nid :: v, r)
      | .engy =>
        if log then do
          let (v, r) ← handleF cs
          pure (nid :: v, nid :: r)
        else .error ()
      | .oth => .error ()
    else pure ([], [])

/-- The handle_event loop over children. -/
def handleF : List ETree → Except Unit (List Nat × List Nat)
  | [] => pure ([], [])
  | c :: cs => do
    let (v₁, r₁) ← handleT c
    let (v₂, r₂) ← handleF cs
    pure (v₁ ++ v₂, r₁ ++ r₂)

end

mutual

/-- The pre-order id list an error-free build pass visits: every node. -/
def visitAll : ETree → List Nat
  | .mk nid _ _ _ _ _ _ _ cs => nid :: visitAllF cs

/-- Pre-order over a forest. -/
def visitAllF : List ETree → List Nat
  | [] => []
  | c :: cs => visitAll c ++ visitAllF cs

end

mutual

/-- The pre-order id list an error-free update/handle_event pass visits:
every node whose ancestors and self are all `active`. -/
def visitActive : ETree → List Nat
  | .mk nid act _ _ _ _ _ _ cs => if act then nid :: visitActiveF cs else []

/-- Gated pre-order over a forest. -/
def visitActiveF : List ETree → List Nat
  | [] => []
  | c :: cs => visitActive c ++ visitActiveF cs

end

mutual

/-- The pre-order id list an error-free render pass visits: every node whose
ancestors and self are all `visible`. -/
def visitVisible : ETree → List Nat
  | .mk nid _ vis _ _ _ _ _ cs => if vis then nid :: visitVisibleF cs else []

/-- Gated pre-order over a forest. -/
def visitVisibleF : List ETree → List Nat
  | [] => []
  | c :: cs => visitVisible c ++ visitVisibleF cs

end

mutual

/-- Every node of the tree has an initialized logger and no hook that raises
a non-engine error (hooks may still raise engine errors freely). -/
def wellTagged : ETree → Bool
  | .mk _ _ _ log tB tU tR tH cs =>
    log && decide (tB ≠ .oth) && decide (tU ≠ .oth) && decide (tR ≠ .oth)
      && decide (tH ≠ .oth) && wellTaggedF cs

/-- `wellTagged` over a forest. -/
def wellTaggedF : List ETree → Bool
  | [] => true
  | c :: cs => wellTagged c && wellTaggedF cs

end

/-- `pure` on `Except` is `ok` (reduction helper). -/
theorem except_pure_eq {ε α : Type} (a : α) : (pure a : Except ε α) = .ok a := rfl

/-- `bind` on an `ok` value reduces (reduction helper). -/
theorem except_bind_ok {ε α β : Type} (a : α) (f : α → Except ε β) :
    (Except.ok a >>= f : Except ε β) = f a := rfl

mutual

theorem updateT_isolated : ∀ (t : ETree), wellTagged t = true →
    ∃ r, updateT t = .ok (visitActive t, r)
  | .mk nid act vis log tB tU tR tH cs => by
    intro h
    simp only [wellTagged, Bool.and_eq_true, decide_eq_true_eq] at h
    obtain ⟨⟨⟨⟨⟨hlog, _⟩, hU⟩, _⟩, _⟩, hcs⟩ := h
    obtain ⟨r, hr⟩ := updateF_isolated cs hcs
    cases act with
    | false => exact ⟨[], by simp [updateT, visitActive, except_pure_eq]⟩
    | true =>
      cases tU with
      | ok => exact ⟨r, by simp [updateT, visitActive, hr, except_pure_eq, except_bind_ok]⟩
      | engy => exact ⟨nid :: r, by simp [updateT, visitActive, hlog, hr, except_pure_eq, except_bind_ok]⟩
      | oth => exact absurd rfl hU

theorem updateF_isolated : ∀ (cs : List ETree), wellTaggedF cs = true →
    ∃ r, updateF cs = .ok (visitActiveF cs, r)
  | [] => by intro _; exact ⟨[], rfl⟩
  | c :: cs => by
    intro h
    simp only [wellTaggedF, Bool.and_eq_true] at h
    obtain ⟨r₁, hr₁⟩ := updateT_isolated c h.1
    obtain ⟨r₂, hr₂⟩ := updateF_isolated cs h.2
    exact ⟨r₁ ++ r₂, by simp [updateF, visitActiveF, hr₁, hr₂, except_pure_eq, except_bind_ok]⟩

end

mutual

theorem renderT_isolated : ∀ (t : ETree), wellTagged t = true →
    ∃ r, renderT t = .ok (visitVisible t, r)
  | .mk nid act vis log tB tU tR tH cs => by
    intro h
    simp only [wellTagged, Bool.and_eq_true, decide_eq_true_eq] at h
    obtain ⟨⟨⟨⟨⟨hlog, _⟩, _⟩, hR⟩, _⟩, hcs⟩ := h
    obtain ⟨r, hr⟩ := renderF_isolated cs hcs
    cases vis with
    | false => exact ⟨[], by simp [renderT, visitVisible, except_pure_eq]⟩
    | true =>
      cases tR with
      | ok => exact ⟨r, by simp [renderT, visitVisible, hr, except_pure_eq, except_bind_ok]⟩
      | engy =>
        exact ⟨nid :: r, by simp [renderT, visitVisible, hlog, hr, except_pure_eq, except_bind_ok]⟩
      | oth => exact absurd rfl hR

theorem renderF_isolated : ∀ (cs : List ETree), wellTaggedF cs = true →
    ∃ r, renderF cs = .ok (visitVisibleF cs, r)
  | [] => by intro _; exact ⟨[], rfl⟩
  | c :: cs => by
    intro h
    simp only [wellTaggedF, Bool.and_eq_true] at h
    obtain ⟨r₁, hr₁⟩ := renderT_isolated c h.1
    obtain ⟨r₂, hr₂⟩ := renderF_isolated cs h.2
    exact ⟨r₁ ++ r₂, by simp [renderF, visitVisibleF, hr₁, hr₂, except_pure_eq, except_bind_ok]⟩

end

mutual

theorem handleT_isolated : ∀ (t : ETree), wellTagged t = true →
    ∃ r, handleT t = .ok (visitActive t, r)
  | .mk nid act vis log tB tU tR tH cs => by
    intro h
    simp only [wellTagged, Bool.and_eq_true, decide_eq_true_eq] at h
    obtain ⟨⟨⟨⟨⟨hlog, _⟩, _⟩, _⟩, hH⟩, hcs⟩ := h
    obtain ⟨r, hr⟩ := handleF_isolated cs hcs
    cases act with
    | false => exact ⟨[], by simp [handleT, visitActive, except_pure_eq]⟩
    | true =>
      cases tH with
      | ok => exact ⟨r, by simp [handleT, visitActive, hr, except_pure_eq, except_bind_ok]⟩
      | engy =>
        exact ⟨nid :: r, by simp [handleT, visitActive, hlog, hr, except_pure_eq, except_bind_ok]⟩
      | oth => exact absurd rfl hH

theorem handleF_isolated : ∀ (cs : List ETree), wellTaggedF cs = true →
    ∃ r, handleF cs = .ok (visitActiveF cs, r)
  | [] => by intro _; exact ⟨[], rfl⟩
  | c :: cs => by
    intro h
    simp only [wellTaggedF, Bool.and_eq_true] at h
    obtain ⟨r₁, hr₁⟩ := handleT_isolated c h.1
    obtain ⟨r₂, hr₂⟩ := handleF_isolated cs h.2
    exact ⟨r₁ ++ r₂, by simp [handleF, visitActiveF, hr₁, hr₂, except_pure_eq, except_bind_ok]⟩

end

mutual

theorem buildT_isolated : ∀ (t : ETree), wellTagged t = true →
    ∃ t' r, buildT t = .ok (t', visitAll t, r)
  | .mk nid act vis log tB tU tR tH cs => by
    intro h
    simp only [wellTagged, Bool.and_eq_true, decide_eq_true_eq] at h
    obtain ⟨⟨⟨⟨⟨hlog, hB⟩, _⟩, _⟩, _⟩, hcs⟩ := h
    obtain ⟨cs', r, hr⟩ := buildF_isolated cs hcs
    cases tB with
    | ok =>
      exact ⟨.mk nid act vis true .ok tU tR tH cs', r,
        by simp [buildT, visitAll, hr, except_pure_eq, except_bind_ok]⟩
    | engy =>
      exact ⟨.mk nid act vis log .engy tU tR tH cs', nid :: r,
        by simp [buildT, visitAll, hlog, hr, except_pure_eq, except_bind_ok]⟩
    | oth => exact absurd rfl hB

theorem buildF_isolated : ∀ (cs : List ETree), wellTaggedF cs = true →
    ∃ cs' r, buildF cs = .ok (cs', visitAllF cs, r)
  | [] => by intro _; exact ⟨[], [], rfl⟩
  | c :: cs => by
    intro h
    simp only [wellTaggedF, Bool.and_eq_true] at h
    obtain ⟨c', r₁, hr₁⟩ := buildT_isolated c h.1
    obtain ⟨cs', r₂, hr₂⟩ := buildF_isolated cs h.2
    exact ⟨c' :: cs', r₁ ++ r₂,
      by simp [buildF, visitAllF, hr₁, hr₂, except_pure_eq, except_bind_ok]⟩

end

/-- The two-node tree `root(id 0) { child(id 1) }` in which every hook
succeeds except the root's `_build_self`, which raises an engine error before
the root's logger has ever been initialized — exactly the in-source situation
of calling `build` on a fresh `Node` with a context lacking
`"metadata.app_name"` (`Context.get` raises `PyEngyError`, and the
`except PyEngyError` handler then evaluates `self._logger.error(...)` with
`self._logger` still `None`). -/
def demoC4 : ETree :=
  .mk 0 true true false .engy .ok .ok .ok [.mk 1 true true false .ok .ok .ok .ok []]

/-- **C4 counterexample**: in the build pass, a node whose hook raises a
recognized engine error is *not* always contained: if its logger is still
uninitialized the error handler itself raises `AttributeError`
(`None.error(...)`), which propagates and aborts the pass, so the child (id 1,
visited by any error-free pass) is never built. -/
theorem build_engine_error_can_abort_pass :
    buildT demoC4 = .error () ∧ visitAll demoC4 = [0, 1] := by
  exact ⟨rfl, rfl⟩

/-- **C4** (amended): provided every node's logger has been initialized (as a
successful `_build_self` leaves it) and no hook raises a non-engine error,
each of the four passes catches every engine error at the raising node and
still recurses into its children, so the list of visited nodes is exactly the
one of an error-free pass: all nodes for build, the `active`-gated pre-order
for update/handle_event, the `visible`-gated pre-order for render. A hook
raising a non-engine error, by contrast, aborts the pass. -/
theorem traversal_isolates_engine_errors (t : ETree) (h : wellTagged t = true) :
    (∃ t' r, buildT t = .ok (t', visitAll t, r)) ∧
    (∃ r, updateT t = .ok (visitActive t, r)) ∧
    (∃ r, renderT t = .ok (visitVisible t, r)) ∧
    (∃ r, handleT t = .ok (visitActive t, r)) ∧
    (∀ nid vis log tB tR tH cs,
      updateT (.mk nid true vis log tB .oth tR tH cs) = .error ()) :=
  ⟨buildT_isolated t h, updateT_isolated t h, renderT_isolated t h,
    handleT_isolated t h, fun _ _ _ _ _ _ _ => rfl⟩

/-- Witness for C4 on a built tree (loggers initialized) whose root update
hook raises an engine error: the update pass still visits both nodes. -/
theorem traversal_isolates_engine_errors_witness :
    ∃ r, updateT (.mk 0 true true true .ok .engy .ok .ok
      [.mk 1 true true true .ok .ok .ok .ok []]) = .ok ([0, 1], r) := by
  have h := traversal_isolates_engine_errors
    (.mk 0 true true true .ok .engy .ok .ok [.mk 1 true true true .ok .ok .ok .ok []])
    (by rfl)
  exact h.2.1

/-! ## Transform2D (`pyengy/math/transform.py`) and unit conversions

Python `float`/numpy arithmetic is embedded over `ℝ`; `np.arctan2` is the
mathematical two-argument arctangent, Python's `%` on floats with a positive
modulus is `fmod` below, and the 3×3 numpy matrices are `M3`. -/

/-- A 3×3 matrix of reals, row-major (`matrix[i][j]` is `mij`). -/
structure M3 where
  m00 : ℝ
  m01 : ℝ
  m02 : ℝ
  m10 : ℝ
  m11 : ℝ
  m12 : ℝ
  m20 : ℝ
  m21 : ℝ
  m22 : ℝ

/-- `np.dot` on 3×3 matrices: ordinary matrix multiplication. -/
noncomputable def M3.mul (a b : M3) : M3 where
  m00 := a.m00 * b.m00 + a.m01 * b.m10 + a.m02 * b.m20
  m01 := a.m00 * b.m01 + a.m01 * b.m11 + a.m02 * b.m21
  m02 := a.m00 * b.m02 + a.m01 * b.m12 + a.m02 * b.m22
  m10 := a.m10 * b.m00 + a.m11 * b.m10 + a.m12 * b.m20
  m11 := a.m10 * b.m01 + a.m11 * b.m11 + a.m12 * b.m21
  m12 := a.m10 * b.m02 + a.m11 * b.m12 + a.m12 * b.m22
  m20 := a.m20 * b.m00 + a.m21 * b.m10 + a.m22 * b.m20
  m21 := a.m20 * b.m01 + a.m21 * b.m11 + a.m22 * b.m21
  m22 := a.m20 * b.m02 + a.m21 * b.m12 + a.m22 * b.m22

/-- Python's `%` on floats with a positive right operand:
`x % y = x - y * floor(x / y)`, always in `[0, y)`. -/
noncomputable def fmod (x y : ℝ) : ℝ := x - y * ⌊x / y⌋

/-- `Transform2D.__normalize` (`transform.py` lines 150–172): a doubly
negative scale is flipped positive while adding π to the rotation, and the
rotation is reduced modulo 2π. (The source computes the candidate rotation
first and applies the modulus after the `if`; the two branches below inline
that.) -/
noncomputable def tnormalize (theta sx sy : ℝ) : ℝ × ℝ × ℝ :=
  if sx < 0 ∧ sy < 0 then (fmod (theta + Real.pi) (2 * Real.pi), -sx, -sy)
  else (fmod theta (2 * Real.pi), sx, sy)

/-- `Transform2D.__build_matrix` (lines 110–128). -/
noncomputable def buildMatrix (p : ℝ × ℝ) (theta : ℝ) (s : ℝ × ℝ) : M3 where
  m00 := s.1 * Real.cos theta
  m01 := s.2 * -Real.sin theta
  m02 := p.1
  m10 := s.1 * Real.sin theta
  m11 := s.2 * Real.cos theta
  m12 := p.2
  m20 := 0
  m21 := 0
  m22 := 1

/-- `np.arctan2 y x`: the angle of the point `(x, y)`, in `(-π, π]`. -/
noncomputable def atan2 (y x : ℝ) : ℝ :=
  if 0 < x then Real.arctan (y / x)
  else if x < 0 then
    if 0 ≤ y then Real.arctan (y / x) + Real.pi else Real.arctan (y / x) - Real.pi
  else if 0 < y then Real.pi / 2
  else if y < 0 then -(Real.pi / 2)
  else 0

/-- `Transform2D.__resolve_components` (lines 130–148): translation read off
the last column, rotation `arctan2(-m01, m00)`, scale recovered by dividing by
`sin` when the angle is near ±π/2 (the two open quarter-turn bands) and by
`cos` otherwise, and the result normalized. -/
noncomputable def resolveComponents (m : M3) : (ℝ × ℝ) × ℝ × (ℝ × ℝ) :=
  let theta := atan2 (-m.m01) m.m00
  let s :=
    if (-(3 / 4) * Real.pi < theta ∧ theta < -(1 / 4) * Real.pi) ∨
        ((1 / 4) * Real.pi < theta ∧ theta < (3 / 4) * Real.pi) then
      (m.m10 / Real.sin theta, m.m01 / -Real.sin theta)
    else
      (m.m00 / Real.cos theta, m.m11 / Real.cos theta)
  let n := tnormalize theta s.1 s.2
  ((m.m02, m.m12), n.1, (n.2.1, n.2.2))

/-- The state of a `Transform2D`: decomposed components plus backing matrix. -/
structure T2 where
  position : ℝ × ℝ
  rotation : ℝ
  size : ℝ × ℝ
  matrix : M3

/-- `Transform2D.__init__` (lines 20–36): normalize the rotation/scale, store
the components, and build the matrix from the stored components. -/
noncomputable def T2.mkT (p : ℝ × ℝ) (theta : ℝ) (s : ℝ × ℝ) : T2 :=
  let n := tnormalize theta s.1 s.2
  { position := p, rotation := n.1, size := (n.2.1, n.2.2),
    matrix := buildMatrix p n.1 (n.2.1, n.2.2) }

/-- The common tail of `move`/`rotate`/`scale`/`apply`: a fresh transform
whose matrix is the composed one and whose components are resolved from it. -/
noncomputable def T2.ofMatrix (m : M3) : T2 :=
  let c := resolveComponents m
  { position := c.1, rotation := c.2.1, size := c.2.2, matrix := m }

/-- The translation matrix of `Transform2D.move`. -/
noncomputable def tMatrix (tx ty : ℝ) : M3 :=
  ⟨1, 0, tx, 0, 1, ty, 0, 0, 1⟩

/-- The rotation matrix of `Transform2D.rotate`. -/
noncomputable def rMatrix (theta : ℝ) : M3 :=
  ⟨Real.cos theta, -Real.sin theta, 0, Real.sin theta, Real.cos theta, 0, 0, 0, 1⟩

/-- The scale matrix of `Transform2D.scale`. -/
noncomputable def sMatrix (sx sy : ℝ) : M3 :=
  ⟨sx, 0, 0, 0, sy, 0, 0, 0, 1⟩

/-- `Transform2D.move` (lines 38–56). -/
noncomputable def T2.move (t : T2) (tx ty : ℝ) (before : Bool) : T2 :=
  T2.ofMatrix (if before then (tMatrix tx ty).mul t.matrix else t.matrix.mul (tMatrix tx ty))

/-- `Transform2D.rotate` (lines 58–75). -/
noncomputable def T2.rotate (t : T2) (theta : ℝ) (before : Bool) : T2 :=
  T2.ofMatrix (if before then (rMatrix theta).mul t.matrix else t.matrix.mul (rMatrix theta))

/-- `Transform2D.scale` (lines 77–95). -/
noncomputable def T2.scale (t : T2) (sx sy : ℝ) (before : Bool) : T2 :=
  T2.ofMatrix (if before then (sMatrix sx sy).mul t.matrix else t.matrix.mul (sMatrix sx sy))

/-- `Transform2D.apply` (lines 97–108): `self.matrix × other.matrix`,
re-decomposed. -/
noncomputable def T2.apply (t other : T2) : T2 :=
  T2.ofMatrix (t.matrix.mul other.matrix)

/-- `Transform2D.identity` (lines 174–181). -/
noncomputable def T2.identity : T2 := T2.mkT (0, 0) 0 (1, 1)

/-- Modelled from the spec: `Transform2D.update` is called by
`Node2D._on_transform_changed` (`node_2d.py` line 92) but its definition is
missing from the sources in this snapshot; per the spec's data model the
backing matrix is the build of the stored position/rotation/scale components
("`build_matrix(position, rotation, scale) == matrix` … at all times"), so
`update` re-establishes that equation after a component was assigned
directly. -/
noncomputable def T2.update (t : T2) : T2 :=
  { t with matrix := buildMatrix t.position t.rotation t.size }

/-- `degrees_to_radians` (`unit_conversions.py` lines 9–16). -/
noncomputable def degreesToRadians (d : ℝ) : ℝ := d * (Real.pi / 180)

theorem fmod_mem_Ico (x : ℝ) {y : ℝ} (hy : 0 < y) : fmod x y ∈ Set.Ico 0 y := by
  unfold fmod
  have h3 : y * (x / y) = x := by field_simp
  constructor
  · have h1 := Int.floor_le (x / y)
    have h4 := mul_le_mul_of_nonneg_left h1 hy.le
    rw [h3] at h4
    linarith
  · have h2 := Int.lt_floor_add_one (x / y)
    have h4 := (mul_lt_mul_left hy).mpr h2
    rw [h3] at h4
    nlinarith

theorem fmod_eq_self {x y : ℝ} (hy : 0 < y) (h0 : 0 ≤ x) (h1 : x < y) :
    fmod x y = x := by
  unfold fmod
  have hfl : ⌊x / y⌋ = 0 := by
    rw [Int.floor_eq_zero_iff]
    exact ⟨div_nonneg h0 hy.le, by rwa [div_lt_one hy]⟩
  simp [hfl]

theorem cos_fmod_two_pi (x : ℝ) :
    Real.cos (fmod x (2 * Real.pi)) = Real.cos x := by
  unfold fmod
  have h : x - 2 * Real.pi * (⌊x / (2 * Real.pi)⌋ : ℝ) =
      x - (⌊x / (2 * Real.pi)⌋ : ℝ) * (2 * Real.pi) := by ring
  rw [h]
  exact Real.cos_sub_int_mul_two_pi x _

theorem sin_fmod_two_pi (x : ℝ) :
    Real.sin (fmod x (2 * Real.pi)) = Real.sin x := by
  unfold fmod
  have h : x - 2 * Real.pi * (⌊x / (2 * Real.pi)⌋ : ℝ) =
      x - (⌊x / (2 * Real.pi)⌋ : ℝ) * (2 * Real.pi) := by ring
  rw [h]
  exact Real.sin_sub_int_mul_two_pi x _

theorem fmod_neg_pi : fmod (-Real.pi) (2 * Real.pi) = Real.pi := by
  unfold fmod
  have hpi := Real.pi_pos
  have h : -Real.pi / (2 * Real.pi) = -(1 / 2 : ℝ) := by
    rw [div_eq_iff (by positivity)]
    ring
  have hfl : ⌊(-(1 / 2) : ℝ)⌋ = -1 := by norm_num
  rw [h, hfl]
  push_cast
  ring

theorem fmod_five_pi : fmod (5 * Real.pi) (2 * Real.pi) = Real.pi := by
  unfold fmod
  have hpi := Real.pi_pos
  have h : 5 * Real.pi / (2 * Real.pi) = (5 / 2 : ℝ) := by
    rw [div_eq_iff (by positivity)]
    ring
  have hfl : ⌊(5 / 2 : ℝ)⌋ = 2 := by norm_num
  rw [h, hfl]
  push_cast
  ring

/-- **C9**: the constructor normalizes: a doubly negative scale flips both
components positive and adds π before the 2π-reduction, any other scale is
stored as given with the rotation reduced modulo 2π; the stored rotation
always lies in `[0, 2π)`; and the inputs θ = -π and θ = 5π both store the
rotation π. -/
theorem transform_init_normalization (p : ℝ × ℝ) (theta sx sy : ℝ) :
    (sx < 0 ∧ sy < 0 →
      (T2.mkT p theta (sx, sy)).rotation = fmod (theta + Real.pi) (2 * Real.pi) ∧
      (T2.mkT p theta (sx, sy)).size = (-sx, -sy)) ∧
    (¬ (sx < 0 ∧ sy < 0) →
      (T2.mkT p theta (sx, sy)).rotation = fmod theta (2 * Real.pi) ∧
      (T2.mkT p theta (sx, sy)).size = (sx, sy)) ∧
    (T2.mkT p theta (sx, sy)).rotation ∈ Set.Ico 0 (2 * Real.pi) ∧
    (T2.mkT p (-Real.pi) (1, 1)).rotation = Real.pi ∧
    (T2.mkT p (5 * Real.pi) (1, 1)).rotation = Real.pi := by
  have hpi := Real.pi_pos
  have hone : ¬ ((1 : ℝ) < 0 ∧ (1 : ℝ) < 0) := by norm_num
  refine ⟨fun hneg => ?_, fun hpos => ?_, ?_, ?_, ?_⟩
  · simp [T2.mkT, tnormalize, hneg]
  · simp [T2.mkT, tnormalize, hpos]
  · by_cases hneg : sx < 0 ∧ sy < 0 <;>
      simp [T2.mkT, tnormalize, hneg] <;>
      exact fmod_mem_Ico _ (by positivity)
  · simp [T2.mkT, tnormalize, hone, fmod_neg_pi, show ¬ ((1 : ℝ) < 0) by norm_num]
  · simp [T2.mkT, tnormalize, hone, fmod_five_pi, show ¬ ((1 : ℝ) < 0) by norm_num]

/-- Witness for C9: θ = -π and θ = 5π with unit scale both store rotation π,
and the doubly negative scale (-1, -2) is stored as (1, 2). -/
theorem transform_init_normalization_witness :
    (T2.mkT (0, 0) (-Real.pi) (1, 1)).rotation = Real.pi ∧
    (T2.mkT (0, 0) (5 * Real.pi) (1, 1)).rotation = Real.pi ∧
    (T2.mkT (0, 0) ((3 / 2) * Real.pi) (-1, -2)).size = (1, 2) := by
  have h := transform_init_normalization (0, 0) ((3 / 2) * Real.pi) (-1) (-2)
  have h2 := transform_init_normalization (0, 0) 0 1 1
  refine ⟨h2.2.2.2.1, h2.2.2.2.2, ?_⟩
  have := (h.1 (by norm_num)).2
  simpa using this

/-- `atan2` applied to a point `k * (cos, sin)` with `k > 0` recovers the
angle's cosine and sine exactly, and lands in `(-π, π]`. -/
theorem atan2_unit {k c s : ℝ} (hk : 0 < k) (h1 : c ^ 2 + s ^ 2 = 1) :
    Real.cos (atan2 (k * s) (k * c)) = c ∧
    Real.sin (atan2 (k * s) (k * c)) = s ∧
    -Real.pi < atan2 (k * s) (k * c) ∧ atan2 (k * s) (k * c) ≤ Real.pi := by
  have hpi := Real.pi_pos
  by_cases hc : 0 < c
  · have hx : 0 < k * c := mul_pos hk hc
    have hdiv : k * s / (k * c) = s / c := mul_div_mul_left s c hk.ne'
    have hone : 1 + (s / c) ^ 2 = 1 / c ^ 2 := by
      field_simp
      linarith
    have hsq : Real.sqrt (1 + (s / c) ^ 2) = 1 / c := by
      rw [hone, one_div, Real.sqrt_inv, Real.sqrt_sq hc.le, one_div]
    unfold atan2
    rw [if_pos hx, hdiv]
    refine ⟨?_, ?_, ?_, ?_⟩
    · rw [Real.cos_arctan, hsq]
      field_simp
    · rw [Real.sin_arctan, hsq]
      field_simp
    · linarith [Real.neg_pi_div_two_lt_arctan (s / c)]
    · linarith [Real.arctan_lt_pi_div_two (s / c)]
  · by_cases hc' : c < 0
    · have hx : k * c < 0 := mul_neg_of_pos_of_neg hk hc'
      have hcne : c ≠ 0 := hc'.ne
      have hdiv : k * s / (k * c) = s / c := mul_div_mul_left s c hk.ne'
      have hone : 1 + (s / c) ^ 2 = 1 / c ^ 2 := by
        field_simp
        linarith
      have hsq : Real.sqrt (1 + (s / c) ^ 2) = -(1 / c) := by
        rw [hone, one_div, Real.sqrt_inv, Real.sqrt_sq_eq_abs, abs_of_neg hc',
          inv_neg, one_div]
      have hcosr : Real.cos (Real.arctan (s / c)) = -c := by
        rw [Real.cos_arctan, hsq]
        field_simp
      have hsinr : Real.sin (Real.arctan (s / c)) = -s := by
        rw [Real.sin_arctan, hsq]
        field_simp
      by_cases hs : 0 ≤ k * s
      · have hs' : 0 ≤ s := by nlinarith
        have harc : Real.arctan (s / c) ≤ 0 := by
          rw [← Real.arctan_zero]
          exact Real.arctan_strictMono.monotone (div_nonpos_of_nonneg_of_nonpos hs' hc'.le)
        unfold atan2
        rw [if_neg (not_lt.mpr hx.le), if_pos hx, if_pos hs, hdiv]
        have hcos : Real.cos (Real.arctan (s / c) + Real.pi) =
            -Real.cos (Real.arctan (s / c)) := by
          rw [Real.cos_add]
          simp
        have hsin : Real.sin (Real.arctan (s / c) + Real.pi) =
            -Real.sin (Real.arctan (s / c)) := by
          rw [Real.sin_add]
          simp
        refine ⟨?_, ?_, ?_, ?_⟩
        · rw [hcos, hcosr, neg_neg]
        · rw [hsin, hsinr, neg_neg]
        · linarith [Real.neg_pi_div_two_lt_arctan (s / c)]
        · linarith
      · have hs' : s < 0 := by nlinarith
        have harc : 0 < Real.arctan (s / c) := by
          rw [← Real.arctan_zero]
          exact Real.arctan_strictMono (div_pos_of_neg_of_neg hs' hc')
        unfold atan2
        rw [if_neg (not_lt.mpr hx.le), if_pos hx, if_neg hs, hdiv]
        have hcos : Real.cos (Real.arctan (s / c) - Real.pi) =
            -Real.cos (Real.arctan (s / c)) := by
          rw [Real.cos_sub]
          simp
        have hsin : Real.sin (Real.arctan (s / c) - Real.pi) =
            -Real.sin (Real.arctan (s / c)) := by
          rw [Real.sin_sub]
          simp
        refine ⟨?_, ?_, ?_, ?_⟩
        · rw [hcos, hcosr, neg_neg]
        · rw [hsin, hsinr, neg_neg]
        · linarith
        · linarith [Real.arctan_lt_pi_div_two (s / c)]
    · have hc0 : c = 0 := le_antisymm (not_lt.mp hc) (not_lt.mp hc')
      have hs2 : (s - 1) * (s + 1) = 0 := by nlinarith
      rcases mul_eq_zero.mp hs2 with hs1 | hs1
      · have hs : s = 1 := by linarith
        subst hc0
        subst hs
        unfold atan2
        rw [mul_zero, mul_one]
        rw [if_neg (lt_irrefl 0), if_neg (lt_irrefl 0), if_pos hk]
        refine ⟨Real.cos_pi_div_two, Real.sin_pi_div_two, by linarith, by linarith⟩
      · have hs : s = -1 := by linarith
        subst hc0
        subst hs
        unfold atan2
        rw [mul_zero, mul_neg_one]
        rw [if_neg (lt_irrefl 0), if_neg (lt_irrefl 0),
          if_neg (not_lt.mpr (neg_nonpos_of_nonneg hk.le)), if_pos (neg_neg_iff_pos.mpr hk)]
        refine ⟨?_, ?_, by linarith, by linarith⟩
        · rw [Real.cos_neg, Real.cos_pi_div_two]
        · rw [Real.sin_neg, Real.sin_pi_div_two]

/-- Decomposing the matrix of a translated rotation with uniform positive
scale `k` recovers exactly translation, the angle reduced to `[0, 2π)`, and
the pair `(k, k)`, in both branches of the quadrant test. -/
theorem resolveComponents_uniform (tx ty k c s : ℝ) (hk : 0 < k)
    (h1 : c ^ 2 + s ^ 2 = 1) :
    resolveComponents ⟨k * c, -(k * s), tx, k * s, k * c, ty, 0, 0, 1⟩ =
      ((tx, ty), fmod (atan2 (k * s) (k * c)) (2 * Real.pi), (k, k)) := by
  obtain ⟨hcos, hsin, hlow, hhigh⟩ := atan2_unit hk h1
  have hpi := Real.pi_pos
  have hknorm : ¬ (k < 0 ∧ k < 0) := fun h => absurd h.1 (not_lt.mpr hk.le)
  unfold resolveComponents
  simp only [neg_neg]
  by_cases hband :
      (-(3 / 4) * Real.pi < atan2 (k * s) (k * c) ∧
        atan2 (k * s) (k * c) < -(1 / 4) * Real.pi) ∨
      ((1 / 4) * Real.pi < atan2 (k * s) (k * c) ∧
        atan2 (k * s) (k * c) < (3 / 4) * Real.pi)
  · have hsne : Real.sin (atan2 (k * s) (k * c)) ≠ 0 := by
      rcases hband with ⟨hb1, hb2⟩ | ⟨hb1, hb2⟩
      · have : Real.sin (atan2 (k * s) (k * c)) < 0 := by
          apply Real.sin_neg_of_neg_of_neg_pi_lt
          · linarith
          · linarith
        exact this.ne
      · have : 0 < Real.sin (atan2 (k * s) (k * c)) := by
          apply Real.sin_pos_of_pos_of_lt_pi
          · linarith
          · linarith
        exact this.ne'
    have hsne' : s ≠ 0 := by
      rw [← hsin]
      exact hsne
    rw [if_pos hband, hsin]
    have e1 : k * s / s = k := mul_div_cancel_right₀ k hsne'
    have e2 : -(k * s) / -s = k := by
      rw [neg_div_neg_eq]
      exact e1
    rw [e1, e2]
    unfold tnormalize
    rw [if_neg hknorm]
  · have hcne : Real.cos (atan2 (k * s) (k * c)) ≠ 0 := by
      push_neg at hband
      by_cases h₁ : atan2 (k * s) (k * c) ≤ -(3 / 4) * Real.pi
      · have : Real.cos (-atan2 (k * s) (k * c)) < 0 := by
          apply Real.cos_neg_of_pi_div_two_lt_of_lt
          · linarith
          · linarith
        rw [Real.cos_neg] at this
        exact this.ne
      · by_cases h₂ : (3 / 4) * Real.pi ≤ atan2 (k * s) (k * c)
        · have : Real.cos (atan2 (k * s) (k * c)) < 0 := by
            apply Real.cos_neg_of_pi_div_two_lt_of_lt
            · linarith
            · linarith
          exact this.ne
        · push_neg at h₁ h₂
          have hb1 := hband.1
          have hb2 := hband.2
          have : 0 < Real.cos (atan2 (k * s) (k * c)) := by
            apply Real.cos_pos_of_mem_Ioo
            constructor
            · by_cases h₃ : -(1 / 4) * Real.pi ≤ atan2 (k * s) (k * c)
              · linarith
              · push_neg at h₃
                have := hb1 (by linarith)
                linarith
            · by_cases h₄ : atan2 (k * s) (k * c) ≤ (1 / 4) * Real.pi
              · linarith
              · push_neg at h₄
                have := hb2 (by linarith)
                linarith
          exact this.ne'
    have hcne' : c ≠ 0 := by
      rw [← hcos]
      exact hcne
    rw [if_neg hband, hcos]
    have e1 : k * c / c = k := mul_div_cancel_right₀ k hcne'
    rw [e1]
    unfold tnormalize
    rw [if_neg hknorm]

/-- **C3** (amended): the invariant `build_matrix(position, rotation, size) ==
matrix` holds after construction for all inputs, and it is re-established by
`__resolve_components` after any compositional operation — every operation
being `ofMatrix` of a matrix product — whenever the resulting matrix is that
of a translated rotation with uniform positive scale `k` (an
orientation-preserving similarity). It does *not* extend to non-uniform scale
with oblique rotation (see the counterexample). -/
theorem transform_components_match_matrix :
    (∀ (p : ℝ × ℝ) (theta : ℝ) (sc : ℝ × ℝ),
      (T2.mkT p theta sc).matrix =
        buildMatrix (T2.mkT p theta sc).position (T2.mkT p theta sc).rotation
          (T2.mkT p theta sc).size) ∧
    (∀ (tx ty k c s : ℝ), 0 < k → c ^ 2 + s ^ 2 = 1 →
      buildMatrix (T2.ofMatrix ⟨k * c, -(k * s), tx, k * s, k * c, ty, 0, 0, 1⟩).position
          (T2.ofMatrix ⟨k * c, -(k * s), tx, k * s, k * c, ty, 0, 0, 1⟩).rotation
          (T2.ofMatrix ⟨k * c, -(k * s), tx, k * s, k * c, ty, 0, 0, 1⟩).size =
        (T2.ofMatrix ⟨k * c, -(k * s), tx, k * s, k * c, ty, 0, 0, 1⟩).matrix) ∧
    (∀ (t other : T2) (tx ty theta sx sy : ℝ) (before : Bool),
      t.apply other = T2.ofMatrix (t.matrix.mul other.matrix) ∧
      t.move tx ty before =
        T2.ofMatrix (if before then (tMatrix tx ty).mul t.matrix
          else t.matrix.mul (tMatrix tx ty)) ∧
      t.rotate theta before =
        T2.ofMatrix (if before then (rMatrix theta).mul t.matrix
          else t.matrix.mul (rMatrix theta)) ∧
      t.scale sx sy before =
        T2.ofMatrix (if before then (sMatrix sx sy).mul t.matrix
          else t.matrix.mul (sMatrix sx sy))) := by
  refine ⟨fun p theta sc => rfl, ?_, fun t other tx ty theta sx sy before =>
    ⟨rfl, rfl, rfl, rfl⟩⟩
  intro tx ty k c s hk h1
  obtain ⟨hcos, hsin, -, -⟩ := atan2_unit hk h1
  have hres := resolveComponents_uniform tx ty k c s hk h1
  show buildMatrix (resolveComponents _).1 (resolveComponents _).2.1
      (resolveComponents _).2.2 = _
  rw [hres]
  show buildMatrix (tx, ty) (fmod (atan2 (k * s) (k * c)) (2 * Real.pi)) (k, k) = _
  unfold buildMatrix
  simp only [cos_fmod_two_pi, sin_fmod_two_pi, hcos, hsin]
  have hneg : k * -s = -(k * s) := by ring
  rw [hneg]
  rfl

/-- Multiplying by the identity matrix on the right changes nothing. -/
theorem M3.mul_ident (a : M3) : a.mul ⟨1, 0, 0, 0, 1, 0, 0, 0, 1⟩ = a := by
  cases a
  unfold M3.mul
  simp

/-- The constructed transform with position (0,0), rotation π/4 and
non-uniform scale (1, 4), composed (via `apply`) with the identity — the
operation the specification demands preserve the decomposition invariant. -/
noncomputable def badT : T2 := (T2.mkT (0, 0) (Real.pi / 4) (1, 4)).apply T2.identity

/-- **C3 counterexample**: after `apply`-ing the identity to the transform
with rotation π/4 and scale (1, 4), rebuilding the matrix from the decomposed
components does *not* reproduce the backing matrix: the decomposition takes
`theta = arctan 4` (≈ 76°, not 45°) and the rebuilt `m00` is √2/8 where the
matrix holds √2/2 — a fixed discrepancy of 3√2/8, far beyond floating-point
tolerance. -/
theorem resolve_roundtrip_fails_for_nonuniform_scale :
    buildMatrix badT.position badT.rotation badT.size ≠ badT.matrix := by
  have hpi := Real.pi_pos
  have hs2 : (0 : ℝ) < Real.sqrt 2 := Real.sqrt_pos.mpr (by norm_num)
  have hs17 : (0 : ℝ) < Real.sqrt 17 := Real.sqrt_pos.mpr (by norm_num)
  -- the constructor stores the components unchanged
  have hnorm : tnormalize (Real.pi / 4) 1 4 = (Real.pi / 4, 1, 4) := by
    unfold tnormalize
    rw [if_neg (by norm_num), fmod_eq_self (by positivity) (by positivity) (by linarith)]
  have hnorm0 : tnormalize 0 1 1 = (0, 1, 1) := by
    unfold tnormalize
    rw [if_neg (by norm_num), fmod_eq_self (by positivity) le_rfl (by positivity)]
  have hmt : (T2.mkT (0, 0) (Real.pi / 4) (1, 4)).matrix =
      buildMatrix (0, 0) (Real.pi / 4) (1, 4) := by
    show buildMatrix (0, 0) (tnormalize (Real.pi / 4) 1 4).1
        ((tnormalize (Real.pi / 4) 1 4).2.1, (tnormalize (Real.pi / 4) 1 4).2.2) = _
    rw [hnorm]
  have hid : T2.identity.matrix = ⟨1, 0, 0, 0, 1, 0, 0, 0, 1⟩ := by
    show buildMatrix (0, 0) (tnormalize 0 1 1).1
        ((tnormalize 0 1 1).2.1, (tnormalize 0 1 1).2.2) = _
    rw [hnorm0]
    unfold buildMatrix
    simp
  have hbm : buildMatrix (0, 0) (Real.pi / 4) (1, 4) =
      ⟨Real.sqrt 2 / 2, -(2 * Real.sqrt 2), 0,
        Real.sqrt 2 / 2, 2 * Real.sqrt 2, 0, 0, 0, 1⟩ := by
    unfold buildMatrix
    rw [Real.cos_pi_div_four, Real.sin_pi_div_four]
    congr 1 <;> ring
  have hum : badT.matrix =
      ⟨Real.sqrt 2 / 2, -(2 * Real.sqrt 2), 0,
        Real.sqrt 2 / 2, 2 * Real.sqrt 2, 0, 0, 0, 1⟩ := by
    show (T2.mkT (0, 0) (Real.pi / 4) (1, 4)).matrix.mul T2.identity.matrix = _
    rw [hid, M3.mul_ident, hmt, hbm]
  -- the decomposition angle is arctan 4
  have hdiv4 : 2 * Real.sqrt 2 / (Real.sqrt 2 / 2) = 4 := by
    field_simp
    ring
  have ha : atan2 (2 * Real.sqrt 2) (Real.sqrt 2 / 2) = Real.arctan 4 := by
    unfold atan2
    rw [if_pos (by positivity), hdiv4]
  have harc1 : Real.pi / 4 < Real.arctan 4 := by
    rw [← Real.arctan_one]
    exact Real.arctan_strictMono (by norm_num)
  have harcp : 0 < Real.arctan 4 := by
    rw [← Real.arctan_zero]
    exact Real.arctan_strictMono (by norm_num)
  have harc2 : Real.arctan 4 < Real.pi / 2 := Real.arctan_lt_pi_div_two 4
  have h17 : Real.sqrt (1 + (4 : ℝ) ^ 2) = Real.sqrt 17 := by norm_num
  have hsin4 : Real.sin (Real.arctan 4) = 4 / Real.sqrt 17 := by
    rw [Real.sin_arctan, h17]
  have hcos4 : Real.cos (Real.arctan 4) = 1 / Real.sqrt 17 := by
    rw [Real.cos_arctan, h17]
  have hsx : (0 : ℝ) < Real.sqrt 2 / 2 / (4 / Real.sqrt 17) := by positivity
  have hres : resolveComponents
      ⟨Real.sqrt 2 / 2, -(2 * Real.sqrt 2), 0,
        Real.sqrt 2 / 2, 2 * Real.sqrt 2, 0, 0, 0, 1⟩ =
      ((0, 0), Real.arctan 4,
        (Real.sqrt 2 / 2 / (4 / Real.sqrt 17), 2 * Real.sqrt 2 / (4 / Real.sqrt 17))) := by
    unfold resolveComponents
    simp only [neg_neg, ha]
    rw [if_pos (Or.inr ⟨by linarith, by linarith⟩), hsin4]
    rw [show -(2 * Real.sqrt 2) / -(4 / Real.sqrt 17) = 2 * Real.sqrt 2 / (4 / Real.sqrt 17)
      from neg_div_neg_eq _ _]
    unfold tnormalize
    rw [if_neg (fun h => absurd h.1 (not_lt.mpr hsx.le))]
    rw [fmod_eq_self (by positivity) harcp.le (by linarith)]
  have hrebuild : (Real.sqrt 2 / 2 / (4 / Real.sqrt 17)) * Real.cos (Real.arctan 4) =
      Real.sqrt 2 / 8 := by
    rw [hcos4]
    field_simp
    ring
  intro hcontra
  have h00 := congrArg M3.m00 hcontra
  have hbu : (buildMatrix badT.position badT.rotation badT.size).m00 =
      Real.sqrt 2 / 8 := by
    have hpos : badT.position = (0, 0) := by
      show (resolveComponents ((T2.mkT (0, 0) (Real.pi / 4) (1, 4)).matrix.mul
        T2.identity.matrix)).1 = _
      rw [hid, M3.mul_ident, hmt, hbm, hres]
    have hrot : badT.rotation = Real.arctan 4 := by
      show (resolveComponents ((T2.mkT (0, 0) (Real.pi / 4) (1, 4)).matrix.mul
        T2.identity.matrix)).2.1 = _
      rw [hid, M3.mul_ident, hmt, hbm, hres]
    have hsize : badT.size =
        (Real.sqrt 2 / 2 / (4 / Real.sqrt 17), 2 * Real.sqrt 2 / (4 / Real.sqrt 17)) := by
      show (resolveComponents ((T2.mkT (0, 0) (Real.pi / 4) (1, 4)).matrix.mul
        T2.identity.matrix)).2.2 = _
      rw [hid, M3.mul_ident, hmt, hbm, hres]
    rw [hpos, hrot, hsize]
    show (Real.sqrt 2 / 2 / (4 / Real.sqrt 17)) * Real.cos (Real.arctan 4) = _
    exact hrebuild
  rw [hbu, hum] at h00
  have : Real.sqrt 2 / 8 = Real.sqrt 2 / 2 := h00
  linarith

/-- Witness for C3: at the identity-rotation similarity matrix with
translation (5, 7) (k = 1, c = 1, s = 0) the decomposition round-trips, and
the invariant holds after construction at position (2, 3), rotation 1,
scale (1, 4). -/
theorem transform_components_match_matrix_witness :
    buildMatrix (T2.ofMatrix ⟨1 * 1, -(1 * 0), 5, 1 * 0, 1 * 1, 7, 0, 0, 1⟩).position
        (T2.ofMatrix ⟨1 * 1, -(1 * 0), 5, 1 * 0, 1 * 1, 7, 0, 0, 1⟩).rotation
        (T2.ofMatrix ⟨1 * 1, -(1 * 0), 5, 1 * 0, 1 * 1, 7, 0, 0, 1⟩).size =
      (T2.ofMatrix ⟨1 * 1, -(1 * 0), 5, 1 * 0, 1 * 1, 7, 0, 0, 1⟩).matrix ∧
    (T2.mkT (2, 3) 1 (1, 4)).matrix =
      buildMatrix (T2.mkT (2, 3) 1 (1, 4)).position (T2.mkT (2, 3) 1 (1, 4)).rotation
        (T2.mkT (2, 3) 1 (1, 4)).size :=
  ⟨transform_components_match_matrix.2.1 5 7 1 1 0 (by norm_num) (by norm_num),
    transform_components_match_matrix.1 (2, 3) 1 (1, 4)⟩

/-! ## Node2D (`pyengy/node/node_2d.py`)

For the spatial claims a node carries its identity id, whether it is a
`Node2D` (`isinstance` is embedded as the flag `is2d` — plain `Node`s carry a
dummy transform that is never read), its local `transform` and its
`global_transform`, plus children.  `_on_transform_changed` receives
`some g` when `isinstance(self.parent, Node2D)` holds with `g` the parent's
current global transform, and `none` otherwise. -/

/-- A node as seen by the 2D-propagation logic. -/
inductive N2 where
  | mk (nid : Nat) (is2d : Bool) (tf : T2) (gtf : T2) (children : List N2)

/-- The identity id. -/
def N2.nid : N2 → Nat
  | .mk i _ _ _ _ => i

/-- Whether the node is a `Node2D`. -/
def N2.is2d : N2 → Bool
  | .mk _ b _ _ _ => b

/-- The local transform. -/
noncomputable def N2.tf : N2 → T2
  | .mk _ _ t _ _ => t

/-- The global transform. -/
noncomputable def N2.gtf : N2 → T2
  | .mk _ _ _ g _ => g

mutual

/-- `Node2D._on_transform_changed` (`node_2d.py` lines 87–101): refresh the
backing matrix (`self.transform.update()`), recompute the global transform
from the parent when the parent is a `Node2D` and from the local transform
alone otherwise, then recurse — only into children that are themselves
`Node2D`s — passing the freshly computed global transform.  Returns the
updated subtree and the ids of the nodes on which the method ran. -/
noncomputable def onTransformChanged : N2 → Option T2 → N2 × List Nat
  | .mk nid is2d tf _gtf cs, pg =>
    let tf' := tf.update
    let g' := match pg with
      | some g => g.apply tf'
      | none => tf'
    let rc := otcChildren cs g'
    (.mk nid is2d tf' g' rc.1, nid :: rc.2)

/-- The `for child in self.children: if isinstance(child, Node2D):
child._on_transform_changed()` loop, `g` being the parent's new global. -/
noncomputable def otcChildren : List N2 → T2 → List N2 × List Nat
  | [], _ => ([], [])
  | c :: cs, g =>
    let r1 := if c.is2d then onTransformChanged c (some g) else (c, [])
    let r2 := otcChildren cs g
    (r1.1 :: r2.1, r1.2 ++ r2.2)

end

mutual

/-- `_on_parent_changed` as dynamically dispatched (`node.py` lines 287–296,
`node_2d.py` lines 83–85): the base method recurses into *all* children (path
bookkeeping is modelled in the tree-surgery section); the `Node2D` override
then additionally runs `_on_transform_changed` on itself.  The children run
before the node's own recomputation, so they read the still-stale global
transform, exactly as in the source; `pg` is the parent's global when the
parent is a `Node2D`. -/
noncomputable def onParentChanged : N2 → Option T2 → N2 × List Nat
  | .mk nid is2d tf gtf cs, pg =>
    let rc := opcChildren cs (if is2d then some gtf else none)
    if is2d then
      let rt := onTransformChanged (.mk nid is2d tf gtf rc.1) pg
      (rt.1, rc.2 ++ rt.2)
    else
      (.mk nid is2d tf gtf rc.1, rc.2)

/-- The `for child in self.children: child._on_parent_changed()` loop. -/
noncomputable def opcChildren : List N2 → Option T2 → List N2 × List Nat
  | [], _ => ([], [])
  | c :: cs, pg =>
    let r1 := onParentChanged c pg
    let r2 := opcChildren cs pg
    (r1.1 :: r2.1, r1.2 ++ r2.2)

end

/-- The `position` setter (`node_2d.py` lines 68–71): assign
`self.transform.position` and run `_on_transform_changed`. -/
noncomputable def setPosition : N2 → ℝ × ℝ → Option T2 → N2 × List Nat
  | .mk nid is2d tf gtf cs, p, pg =>
    onTransformChanged (.mk nid is2d { tf with position := p } gtf cs) pg

/-- The `rotation` setter (lines 73–76): degrees are converted to radians and
assigned to `self.transform.rotation`. -/
noncomputable def setRotation : N2 → ℝ → Option T2 → N2 × List Nat
  | .mk nid is2d tf gtf cs, r, pg =>
    onTransformChanged
      (.mk nid is2d { tf with rotation := degreesToRadians r } gtf cs) pg

/-- The `scale` setter (lines 78–81): assign `self.transform.size`. -/
noncomputable def setScale : N2 → ℝ × ℝ → Option T2 → N2 × List Nat
  | .mk nid is2d tf gtf cs, sc, pg =>
    onTransformChanged (.mk nid is2d { tf with size := sc } gtf cs) pg

/-- The shape of an `N2` tree: ids, 2D capability, child structure — the data
the propagation pattern depends on. -/
inductive NSk where
  | mk (nid : Nat) (is2d : Bool) (children : List NSk)

/-- Whether a skeleton node is 2D. -/
def NSk.is2d : NSk → Bool
  | .mk _ b _ => b

mutual

/-- The skeleton of a node. -/
def skelOf : N2 → NSk
  | .mk nid is2d _ _ cs => .mk nid is2d (skelOfF cs)

/-- The skeletons of a forest. -/
def skelOfF : List N2 → List NSk
  | [] => []
  | c :: cs => skelOf c :: skelOfF cs

end

mutual

/-- The ids `_on_transform_changed` runs on when invoked at a node: the node
itself, then recursively its children — but only through `Node2D` children
(the contiguous 2D chain). -/
def chainIds : NSk → List Nat
  | .mk nid _ cs => nid :: chainIdsF cs

/-- `chainIds` over children: non-2D children contribute nothing (their whole
subtree is skipped). -/
def chainIdsF : List NSk → List Nat
  | [] => []
  | c :: cs => (if c.is2d then chainIds c else []) ++ chainIdsF cs

end

mutual

/-- All ids of 2D nodes in a subtree, wherever they sit. -/
def all2dIds : NSk → List Nat
  | .mk nid is2d cs => (if is2d then [nid] else []) ++ all2dIdsF cs

/-- `all2dIds` over a forest. -/
def all2dIdsF : List NSk → List Nat
  | [] => []
  | c :: cs => all2dIds c ++ all2dIdsF cs

end

/-- The skeleton ignores the transforms, so it sees through updates. -/
theorem skelOf_is2d (c : N2) : (skelOf c).is2d = c.is2d := by
  cases c
  rfl

mutual

theorem skel_otc : ∀ (t : N2) (pg : Option T2),
    skelOf (onTransformChanged t pg).1 = skelOf t
  | .mk nid is2d tf gtf cs, pg => by
    simp only [onTransformChanged, skelOf]
    rw [skel_otcF]

theorem skel_otcF : ∀ (cs : List N2) (g : T2),
    skelOfF (otcChildren cs g).1 = skelOfF cs
  | [], _ => rfl
  | c :: cs, g => by
    by_cases hc : c.is2d = true <;>
      simp [otcChildren, skelOfF, hc, skel_otc c, skel_otcF cs]

end

mutual

theorem otc_visits : ∀ (t : N2) (pg : Option T2),
    (onTransformChanged t pg).2 = chainIds (skelOf t)
  | .mk nid is2d tf gtf cs, pg => by
    simp only [onTransformChanged, skelOf, chainIds]
    rw [otcF_visits]

theorem otcF_visits : ∀ (cs : List N2) (g : T2),
    (otcChildren cs g).2 = chainIdsF (skelOfF cs)
  | [], _ => rfl
  | c :: cs, g => by
    simp only [otcChildren, skelOfF, chainIdsF, skelOf_is2d]
    by_cases hc : c.is2d = true
    · rw [if_pos hc, if_pos hc, otc_visits c, otcF_visits cs]
    · rw [if_neg hc, if_neg hc, otcF_visits cs]

end

mutual

theorem skel_opc : ∀ (t : N2) (pg : Option T2),
    skelOf (onParentChanged t pg).1 = skelOf t
  | .mk nid is2d tf gtf cs, pg => by
    simp only [onParentChanged]
    by_cases h2 : is2d = true
    · rw [if_pos h2, skel_otc]
      simp only [skelOf]
      rw [skel_opcF]
    · rw [if_neg h2]
      simp only [skelOf]
      rw [skel_opcF]

theorem skel_opcF : ∀ (cs : List N2) (pg : Option T2),
    skelOfF (opcChildren cs pg).1 = skelOfF cs
  | [], _ => rfl
  | c :: cs, pg => by
    simp only [opcChildren, skelOfF]
    rw [skel_opc c, skel_opcF cs]

end

mutual

theorem chainIds_subset_all2d : ∀ (sk : NSk), sk.is2d = true →
    ∀ i ∈ chainIds sk, i ∈ all2dIds sk
  | .mk nid is2d cs, h2, i, hi => by
    simp only [NSk.is2d] at h2
    subst h2
    simp only [chainIds, List.mem_cons] at hi
    simp only [all2dIds, if_true, List.mem_append, List.mem_singleton]
    rcases hi with rfl | hi
    · exact Or.inl rfl
    · exact Or.inr (chainIdsF_subset_all2d cs i hi)

theorem chainIdsF_subset_all2d : ∀ (sks : List NSk) (i : Nat),
    i ∈ chainIdsF sks → i ∈ all2dIdsF sks
  | c :: cs, i, hi => by
    simp only [chainIdsF, List.mem_append] at hi
    simp only [all2dIdsF, List.mem_append]
    rcases hi with hi | hi
    · by_cases hc : c.is2d = true
      · rw [if_pos hc] at hi
        exact Or.inl (chainIds_subset_all2d c hc i hi)
      · rw [if_neg hc] at hi
        cases hi
    · exact Or.inr (chainIdsF_subset_all2d cs i hi)

end

mutual

theorem opc_visits_mem : ∀ (t : N2) (pg : Option T2) (i : Nat),
    i ∈ (onParentChanged t pg).2 ↔ i ∈ all2dIds (skelOf t)
  | .mk nid is2d tf gtf cs, pg, i => by
    simp only [onParentChanged, skelOf]
    by_cases h2 : is2d = true
    · subst h2
      rw [if_pos rfl]
      simp only [otc_visits, skelOf, chainIds, skel_opcF, all2dIds, if_true,
        List.mem_append, List.mem_cons, List.mem_singleton]
      constructor
      · rintro (hm | rfl | hm)
        · exact Or.inr ((opcF_visits_mem cs _ i).mp hm)
        · exact Or.inl (Or.inl rfl)
        · have := chainIdsF_subset_all2d _ i hm
          simp only [all2dIdsF] at this ⊢
          exact Or.inr this
      · rintro ((rfl | h0) | hm)
        · exact Or.inr (Or.inl rfl)
        · cases h0
        · exact Or.inl ((opcF_visits_mem cs _ i).mpr hm)
    · rw [if_neg h2]
      have h2' : is2d = false := by
        cases is2d
        · rfl
        · exact absurd rfl h2
      subst h2'
      simp only [all2dIds, if_neg (by simp : ¬ (false = true)), List.nil_append]
      exact opcF_visits_mem cs _ i

theorem opcF_visits_mem : ∀ (cs : List N2) (pg : Option T2) (i : Nat),
    i ∈ (opcChildren cs pg).2 ↔ i ∈ all2dIdsF (skelOfF cs)
  | [], _, i => by simp [opcChildren, skelOfF, all2dIdsF]
  | c :: cs, pg, i => by
    simp only [opcChildren, skelOfF, all2dIdsF, List.mem_append]
    constructor
    · rintro (hm | hm)
      · exact Or.inl ((opc_visits_mem c pg i).mp hm)
      · exact Or.inr ((opcF_visits_mem cs pg i).mp hm)
    · rintro (hm | hm)
      · exact Or.inl ((opc_visits_mem c pg i).mpr hm)
      · exact Or.inr ((opcF_visits_mem cs pg i).mpr hm)

end

theorem tnormalize_of_nonneg {theta sx sy : ℝ} (h : ¬ (sx < 0 ∧ sy < 0))
    (h0 : 0 ≤ theta) (h1 : theta < 2 * Real.pi) :
    tnormalize theta sx sy = (theta, sx, sy) := by
  unfold tnormalize
  rw [if_neg h, fmod_eq_self (by positivity) h0 h1]

/-- A freshly constructed transform already satisfies
`matrix = build(components)`, so `update` is the identity on it. -/
theorem T2.update_mkT (p : ℝ × ℝ) (theta : ℝ) (s : ℝ × ℝ) :
    (T2.mkT p theta s).update = T2.mkT p theta s := rfl

/-- **C2**: whenever a `Node2D`'s local transform is mutated through the
position/rotation/scale setters, or whenever its parent link changes, the
global transform is recomputed as `parent.globalTransform.apply(transform)`
when the parent carries the 2D capability and as the (refreshed) local
transform otherwise; in particular for a parent at position (1,5), rotation 0,
scale (1/2, 1/2) and a child at local position (2,4), rotation 0, scale (1,1),
the child's global position is (2,7) and its global scale (1/2, 1/2). -/
theorem node2d_global_transform_rule :
    (∀ (nid : Nat) (is2d : Bool) (tf gtf : T2) (cs : List N2) (pg : Option T2)
        (p sc : ℝ × ℝ) (r : ℝ),
      ((setPosition (.mk nid is2d tf gtf cs) p pg).1).gtf =
        (match pg with
          | some g => g.apply ({ tf with position := p }.update)
          | none => { tf with position := p }.update) ∧
      ((setRotation (.mk nid is2d tf gtf cs) r pg).1).gtf =
        (match pg with
          | some g => g.apply ({ tf with rotation := degreesToRadians r }.update)
          | none => { tf with rotation := degreesToRadians r }.update) ∧
      ((setScale (.mk nid is2d tf gtf cs) sc pg).1).gtf =
        (match pg with
          | some g => g.apply ({ tf with size := sc }.update)
          | none => { tf with size := sc }.update) ∧
      ((onParentChanged (.mk nid true tf gtf cs) pg).1).gtf =
        (match pg with
          | some g => g.apply tf.update
          | none => tf.update)) ∧
    (((onParentChanged
        (.mk 1 true (T2.mkT (2, 4) (degreesToRadians 0) (1, 1))
          (T2.mkT (2, 4) (degreesToRadians 0) (1, 1)) [])
        (some (T2.mkT (1, 5) (degreesToRadians 0) (1 / 2, 1 / 2)))).1).gtf.position =
        (2, 7) ∧
      ((onParentChanged
        (.mk 1 true (T2.mkT (2, 4) (degreesToRadians 0) (1, 1))
          (T2.mkT (2, 4) (degreesToRadians 0) (1, 1)) [])
        (some (T2.mkT (1, 5) (degreesToRadians 0) (1 / 2, 1 / 2)))).1).gtf.size =
        (1 / 2, 1 / 2)) := by
  have hdeg : degreesToRadians 0 = 0 := by
    unfold degreesToRadians
    ring
  constructor
  · intro nid is2d tf gtf cs pg p sc r
    refine ⟨?_, ?_, ?_, ?_⟩ <;> cases pg <;> rfl
  · have hgtf : ((onParentChanged
        (.mk 1 true (T2.mkT (2, 4) (degreesToRadians 0) (1, 1))
          (T2.mkT (2, 4) (degreesToRadians 0) (1, 1)) [])
        (some (T2.mkT (1, 5) (degreesToRadians 0) (1 / 2, 1 / 2)))).1).gtf =
        (T2.mkT (1, 5) (degreesToRadians 0) (1 / 2, 1 / 2)).apply
          ((T2.mkT (2, 4) (degreesToRadians 0) (1, 1)).update) := rfl
    rw [hgtf, T2.update_mkT, hdeg]
    have hnormC : tnormalize 0 1 1 = (0, 1, 1) :=
      tnormalize_of_nonneg (by norm_num) le_rfl (by positivity)
    have hnormP : tnormalize 0 (1 / 2) (1 / 2) = (0, 1 / 2, 1 / 2) :=
      tnormalize_of_nonneg (by norm_num) le_rfl (by positivity)
    have hPm : (T2.mkT (1, 5) 0 (1 / 2, 1 / 2)).matrix =
        ⟨1 / 2, 0, 1, 0, 1 / 2, 5, 0, 0, 1⟩ := by
      show buildMatrix (1, 5) (tnormalize 0 (1 / 2) (1 / 2)).1
          ((tnormalize 0 (1 / 2) (1 / 2)).2.1, (tnormalize 0 (1 / 2) (1 / 2)).2.2) = _
      rw [hnormP]
      unfold buildMatrix
      rw [Real.cos_zero, Real.sin_zero]
      congr 1 <;> ring
    have hCm : (T2.mkT (2, 4) 0 (1, 1)).matrix = ⟨1, 0, 2, 0, 1, 4, 0, 0, 1⟩ := by
      show buildMatrix (2, 4) (tnormalize 0 1 1).1
          ((tnormalize 0 1 1).2.1, (tnormalize 0 1 1).2.2) = _
      rw [hnormC]
      unfold buildMatrix
      rw [Real.cos_zero, Real.sin_zero]
      congr 1 <;> ring
    have hmulPC : M3.mul ⟨1 / 2, 0, 1, 0, 1 / 2, 5, 0, 0, 1⟩ ⟨1, 0, 2, 0, 1, 4, 0, 0, 1⟩ =
        ⟨1 / 2 * 1, -(1 / 2 * 0), 2, 1 / 2 * 0, 1 / 2 * 1, 7, 0, 0, 1⟩ := by
      unfold M3.mul
      congr 1 <;> ring
    have hres := resolveComponents_uniform 2 7 (1 / 2) 1 0 (by norm_num) (by norm_num)
    constructor
    · show (resolveComponents ((T2.mkT (1, 5) 0 (1 / 2, 1 / 2)).matrix.mul
        (T2.mkT (2, 4) 0 (1, 1)).matrix)).1 = _
      rw [hPm, hCm, hmulPC, hres]
    · show (resolveComponents ((T2.mkT (1, 5) 0 (1 / 2, 1 / 2)).matrix.mul
        (T2.mkT (2, 4) 0 (1, 1)).matrix)).2.2 = _
      rw [hPm, hCm, hmulPC, hres]

/-- The three-node tree `n(id 0, Node2D) → m(id 1, plain Node) → d(id 2,
Node2D)`: a 2D grandchild separated from the mutated 2D root by a plain
node. -/
noncomputable def demoC5 : N2 :=
  .mk 0 true T2.identity T2.identity
    [.mk 1 false T2.identity T2.identity
      [.mk 2 true T2.identity T2.identity []]]

/-- **C5 counterexample**: mutating the root's position recomputes only node
0 — the recursion `if isinstance(child, Node2D)` stops at the plain node 1, so
the 2D descendant 2 behind it is *not* recomputed, although it is a 2D node
of the subtree. -/
theorem mutation_skips_2d_descendant_behind_plain_node :
    (setPosition demoC5 (1, 2) none).2 = [0] ∧
    all2dIds (skelOf demoC5) = [0, 2] := by
  constructor
  · show (onTransformChanged
      (.mk 0 true { T2.identity with position := (1, 2) } T2.identity
        [.mk 1 false T2.identity T2.identity
          [.mk 2 true T2.identity T2.identity []]]) none).2 = [0]
    rw [otc_visits]
    rfl
  · rfl

/-- **C5** (amended): recomputation triggered by a transform setter reaches
exactly the nodes connected to the mutated node through a contiguous chain of
`Node2D` children — a 2D descendant behind a plain `Node` is skipped; a
parent-link change, by contrast, reaches every 2D node of the subtree
(each runs `_on_transform_changed` from its own `_on_parent_changed`
override). -/
theorem transform_propagation_capability_gated :
    (∀ (t : N2) (pg : Option T2) (p sc : ℝ × ℝ) (r : ℝ),
      (setPosition t p pg).2 = chainIds (skelOf t) ∧
      (setRotation t r pg).2 = chainIds (skelOf t) ∧
      (setScale t sc pg).2 = chainIds (skelOf t)) ∧
    (∀ (t : N2) (pg : Option T2) (i : Nat),
      i ∈ (onParentChanged t pg).2 ↔ i ∈ all2dIds (skelOf t)) := by
  constructor
  · intro t pg p sc r
    cases t with
    | mk nid is2d tf gtf cs =>
      refine ⟨?_, ?_, ?_⟩
      · show (onTransformChanged
          (.mk nid is2d { tf with position := p } gtf cs) pg).2 = _
        rw [otc_visits]
        rfl
      · show (onTransformChanged
          (.mk nid is2d { tf with rotation := degreesToRadians r } gtf cs) pg).2 = _
        rw [otc_visits]
        rfl
      · show (onTransformChanged
          (.mk nid is2d { tf with size := sc } gtf cs) pg).2 = _
        rw [otc_visits]
        rfl
  · exact opc_visits_mem

/-- Witness for C5 on the single 2D node with id 5: the setter path visits
exactly `[5]`, and the parent-change path visits `5` as well. -/
theorem transform_propagation_capability_gated_witness :
    (setPosition (.mk 5 true T2.identity T2.identity []) (3, 4) none).2 =
      chainIds (skelOf (.mk 5 true T2.identity T2.identity [])) ∧
    (5 ∈ (onParentChanged (.mk 5 true T2.identity T2.identity []) none).2 ↔
      5 ∈ all2dIds (skelOf (.mk 5 true T2.identity T2.identity []))) :=
  ⟨(transform_propagation_capability_gated.1
      (.mk 5 true T2.identity T2.identity []) none (3, 4) (0, 0) 0).1,
    transform_propagation_capability_gated.2
      (.mk 5 true T2.identity T2.identity []) none 5⟩

/-! ## Tree surgery: `add_child`, `remove_child`, the `children` setter
(`pyengy/node/node.py` lines 82–194, 331–343)

The world of live node objects is a forest (`List FTree`): Python's parent
references are the inverse of the child lists, node identity is the stored id,
and the stored `_path` is kept as its list of `/`-separated segments.
Mutation is modelled as surgery returning the new forest; operations that
raise before mutating return the unchanged forest alongside the error. -/

/-- A node as seen by the tree-mutation operations: identity, name, the
stored `_path` (as its segment list) and the ordered children. -/
inductive FTree where
  | mk (nid : Nat) (name : String) (path : List String) (children : List FTree)

/-- A forest of root nodes. -/
def Forest := List FTree

/-- The identity id of a node. -/
def FTree.nid : FTree → Nat
  | .mk i _ _ _ => i

/-- The name of a node. -/
def FTree.name : FTree → String
  | .mk _ n _ _ => n

/-- The stored `_path` of a node. -/
def FTree.path : FTree → List String
  | .mk _ _ p _ => p

/-- The children of a node. -/
def FTree.children : FTree → List FTree
  | .mk _ _ _ cs => cs

/-- All node ids of a forest, in pre-order. -/
def allIdsC : List FTree → List Nat
  | [] => []
  | .mk nid _ _ cs :: ts => nid :: (allIdsC cs ++ allIdsC ts)

/-- The name and the (id, name) pairs of the direct children of the node
with id `q`, looked up by depth-first search (unique under `NodupIds`). -/
def infoC : List FTree → Nat → Option (String × List (Nat × String))
  | [], _ => none
  | .mk nid nm _ cs :: ts, q =>
    if nid = q then some (nm, cs.map fun c => (c.nid, c.name))
    else
      match infoC cs q with
      | some r => some r
      | none => infoC ts q

/-- The ids of the strict ancestors of the node with id `q`, top-down —
the reverse of the chain `__cyclic_node_dependency` walks upward. -/
def ancC : List FTree → Nat → Option (List Nat)
  | [], _ => none
  | .mk nid _ _ cs :: ts, q =>
    if nid = q then some []
    else
      match ancC cs q with
      | some l => some (nid :: l)
      | none => ancC ts q

/-- Well-formed world: every live node has a distinct identity id (Python
object identities are distinct; `id(self)` collisions cannot occur between
live objects). -/
def NodupIds (F : List FTree) : Prop := (allIdsC F).Nodup

/-- `Node.__cyclic_node_dependency` (`node.py` lines 331–343), denotationally:
the walk starts at the attach-target `pid` with `seen = [cid]` and climbs the
parent links, so in a forest-shaped world it returns true exactly when `cid`
is `pid` itself or one of `pid`'s ancestors (the second-visit clause cannot
fire on a tree). -/
def cyclicDep (F : List FTree) (pid cid : Nat) : Bool :=
  decide (cid = pid) || decide (cid ∈ (ancC F pid).getD [])

/-- Remove the subtree rooted at the node with id `i` (the first match in
depth-first order), returning it and the remaining forest — the model of
clearing the parent/child link that detaches a subtree. -/
def extractC : List FTree → Nat → Option (FTree × List FTree)
  | [], _ => none
  | .mk nid nm p cs :: ts, i =>
    if nid = i then some (.mk nid nm p cs, ts)
    else
      match extractC cs i with
      | some (sub, cs') => some (sub, .mk nid nm p cs' :: ts)
      | none =>
        match extractC ts i with
        | some (sub, ts') => some (sub, .mk nid nm p cs :: ts')
        | none => none

mutual

/-- The path bookkeeping of `Node._on_parent_changed` (`node.py` lines
287–296): `self._path = parent._path + "/" + self.name`, propagated to every
descendant (`ppath` is the new parent's stored path, `[]` for a detached
root, making the path just the node's own name). -/
def refreshT : FTree → List String → FTree
  | .mk nid nm _ cs, ppath => .mk nid nm (ppath ++ [nm]) (refreshC cs (ppath ++ [nm]))

/-- `refreshT` over the children. -/
def refreshC : List FTree → List String → List FTree
  | [], _ => []
  | c :: cs, ppath => refreshT c ppath :: refreshC cs ppath

end

/-- Append `sub` as the last child of the node with id `pid`, refreshing the
grafted subtree's paths from the new parent's stored path (the
`self._children.append(child); child._on_parent_changed()` step). -/
def graftC : List FTree → Nat → FTree → List FTree
  | [], _, _ => []
  | .mk nid nm p cs :: ts, pid, sub =>
    if nid = pid then .mk nid nm p (cs ++ [refreshT sub p]) :: ts
    else .mk nid nm p (graftC cs pid sub) :: graftC ts pid sub

/-- The errors `Node.add_child` / `Node.remove_child` raise (all are
`NodeError`s; the kind records which message). -/
inductive ChErr where
  | cyclic
  | nameCollision
  | notFound
  deriving DecidableEq

/-- `Node.add_child` (`node.py` lines 147–163): cyclic-dependency check, then
sibling-name check against the existing children, then detach the child from
its previous parent (if any) and append it, recomputing its subtree's paths.
The `notFound` branches are unreachable when `cid` names a live node. -/
def addChild (F : List FTree) (pid cid : Nat) : Except ChErr (List FTree) :=
  if cyclicDep F pid cid then .error .cyclic
  else
    match infoC F cid, infoC F pid with
    | some (cname, _), some (_, pkids) =>
      if decide (cname ∈ pkids.map Prod.snd) then .error .nameCollision
      else
        match extractC F cid with
        | some (sub, F₂) => .ok (graftC F₂ pid sub)
        | none => .error .notFound
    | _, _ => .error .notFound

/-- `Node.remove_child` (`node.py` lines 165–194) for an instance reference:
the child must be a direct child of `pid`; it is detached, becomes a root of
the forest, and its subtree's paths are reset from its bare name. -/
def removeChild (F : List FTree) (pid cid : Nat) : Except ChErr (List FTree) :=
  match infoC F pid with
  | some (_, pkids) =>
    if decide (cid ∈ pkids.map Prod.fst) then
      match extractC F cid with
      | some (sub, F₂) => .ok (F₂ ++ [refreshT sub []])
      | none => .error .notFound
    else .error .notFound
  | none => .error .notFound

/-- The `for child in previous_children: self.remove_child(child)` loop of
the `children` setter.  Each element is a current child, so the removal
cannot fail; the error branch is unreachable and keeps the state. -/
def removeAll : List FTree → Nat → List Nat → List FTree
  | F, _, [] => F
  | F, pid, c :: cs =>
    match removeChild F pid c with
    | .ok F' => removeAll F' pid cs
    | .error _ => removeAll F pid cs

/-- The `for child in children: self.add_child(child)` loop of the
`children` setter: stops at the first failure, returning the error together
with the state produced by the successful prefix (`add_child` itself mutates
nothing when it raises). -/
def addAllPartial : List FTree → Nat → List Nat → Option ChErr × List FTree
  | F, _, [] => (none, F)
  | F, pid, c :: cs =>
    match addChild F pid c with
    | .ok F' => addAllPartial F' pid cs
    | .error e => (some e, F)

/-- The ids of the direct children of `pid`. -/
def childIds (F : List FTree) (pid : Nat) : List Nat :=
  ((infoC F pid).map fun r => r.2.map Prod.fst).getD []

/-- The `children` setter (`node.py` lines 94–110): snapshot the current
children, detach them all, attach the new ones in order; on failure run
`self.children = previous_children` (the recursive rollback) and re-raise.
The recursion depth is bounded by the fuel; fuel 2 suffices because the
rollback itself cannot fail (proved below), and the fuel-0 case is
unreachable. -/
def setChildrenFuel : Nat → List FTree → Nat → Option (List Nat) →
    Option ChErr × List FTree
  | 0, F, _, _ => (none, F)
  | fuel + 1, F, pid, newIds =>
    let prev := childIds F pid
    let F₁ := removeAll F pid prev
    match addAllPartial F₁ pid (newIds.getD []) with
    | (none, F₂) => (none, F₂)
    | (some e, F₂) => (some e, (setChildrenFuel fuel F₂ pid (some prev)).2)

/-- `Node.children = ...` with the real rollback budget. -/
def setChildren (F : List FTree) (pid : Nat) (newIds : Option (List Nat)) :
    Option ChErr × List FTree :=
  setChildrenFuel 2 F pid newIds

theorem refreshT_nid (t : FTree) (pp : List String) : (refreshT t pp).nid = t.nid := by
  cases t
  rfl

theorem refreshT_name (t : FTree) (pp : List String) :
    (refreshT t pp).name = t.name := by
  cases t
  rfl

mutual

theorem allIds_refreshT : ∀ (t : FTree) (pp : List String),
    allIdsC [refreshT t pp] = allIdsC [t]
  | .mk nid nm p cs, pp => by
    simp only [refreshT, allIdsC]
    rw [allIds_refreshC cs]

theorem allIds_refreshC : ∀ (cs : List FTree) (pp : List String),
    allIdsC (refreshC cs pp) = allIdsC cs
  | [], _ => rfl
  | .mk nid nm p cs :: ts, pp => by
    simp only [refreshC, refreshT, allIdsC]
    rw [allIds_refreshC cs, allIds_refreshC ts]

end

theorem infoC_isSome_iff : ∀ (F : List FTree) (q : Nat),
    (infoC F q).isSome ↔ q ∈ allIdsC F
  | [], q => by simp [infoC, allIdsC]
  | .mk nid nm p cs :: ts, q => by
    simp only [infoC, allIdsC, List.mem_cons, List.mem_append]
    by_cases hq : nid = q
    · subst hq
      simp
    · rw [if_neg hq]
      cases hcs : infoC cs q with
      | some r =>
        have h1 : q ∈ allIdsC cs := (infoC_isSome_iff cs q).mp (by rw [hcs]; rfl)
        have h2 : ¬ (q = nid) := fun h => hq h.symm
        simp [hcs, h1, h2]
      | none =>
        have h1 : q ∉ allIdsC cs := by
          intro hmem
          have := (infoC_isSome_iff cs q).mpr hmem
          rw [hcs] at this
          exact absurd this (by simp)
        show (infoC ts q).isSome = true ↔ _
        rw [infoC_isSome_iff ts q]
        constructor
        · intro h
          exact Or.inr (Or.inr h)
        · rintro (h | h | h)
          · exact absurd (Eq.symm h) hq
          · exact absurd h h1
          · exact h

theorem ancC_isSome_iff : ∀ (F : List FTree) (q : Nat),
    (ancC F q).isSome ↔ q ∈ allIdsC F
  | [], q => by simp [ancC, allIdsC]
  | .mk nid nm p cs :: ts, q => by
    simp only [ancC, allIdsC, List.mem_cons, List.mem_append]
    by_cases hq : nid = q
    · subst hq
      simp
    · rw [if_neg hq]
      cases hcs : ancC cs q with
      | some r =>
        have h1 : q ∈ allIdsC cs := (ancC_isSome_iff cs q).mp (by rw [hcs]; rfl)
        have h2 : ¬ (q = nid) := fun h => hq h.symm
        simp [hcs, h1, h2]
      | none =>
        have h1 : q ∉ allIdsC cs := by
          intro hmem
          have := (ancC_isSome_iff cs q).mpr hmem
          rw [hcs] at this
          exact absurd this (by simp)
        show (ancC ts q).isSome = true ↔ _
        rw [ancC_isSome_iff ts q]
        constructor
        · intro h
          exact Or.inr (Or.inr h)
        · rintro (h | h | h)
          · exact absurd (Eq.symm h) hq
          · exact absurd h h1
          · exact h

theorem extractC_nid : ∀ (F : List FTree) (i : Nat) (sub : FTree) (F₂ : List FTree),
    extractC F i = some (sub, F₂) → sub.nid = i
  | [], i, sub, F₂ => by simp [extractC]
  | .mk nid nm p cs :: ts, i, sub, F₂ => by
    intro h
    simp only [extractC] at h
    by_cases hni : nid = i
    · rw [if_pos hni] at h
      simp only [Option.some.injEq, Prod.mk.injEq] at h
      rw [← h.1, FTree.nid]
      exact hni
    · rw [if_neg hni] at h
      cases hcs : extractC cs i with
      | some r =>
        obtain ⟨sub', cs'⟩ := r
        rw [hcs] at h
        simp only [Option.some.injEq, Prod.mk.injEq] at h
        rw [← h.1]
        exact extractC_nid cs i sub' cs' hcs
      | none =>
        rw [hcs] at h
        cases hts : extractC ts i with
        | some r =>
          obtain ⟨sub', ts'⟩ := r
          rw [hts] at h
          simp only [Option.some.injEq, Prod.mk.injEq] at h
          rw [← h.1]
          exact extractC_nid ts i sub' ts' hts
        | none => rw [hts] at h; exact absurd h (by simp)

/-- Extraction splits the id population: the ids of the original forest are
exactly those of the extracted subtree plus those of the remainder. -/
theorem extractC_ids : ∀ (F : List FTree) (i : Nat) (sub : FTree) (F₂ : List FTree),
    extractC F i = some (sub, F₂) →
    (allIdsC F : Multiset Nat) = (allIdsC [sub] : Multiset Nat) + allIdsC F₂
  | [], i, sub, F₂ => by simp [extractC]
  | .mk nid nm p cs :: ts, i, sub, F₂ => by
    intro h
    simp only [extractC] at h
    by_cases hni : nid = i
    · rw [if_pos hni] at h
      simp only [Option.some.injEq, Prod.mk.injEq] at h
      obtain ⟨rfl, rfl⟩ := h
      simp only [allIdsC, List.append_nil, ← Multiset.cons_coe, ← Multiset.coe_add,
        ← Multiset.singleton_add]
      abel
    · rw [if_neg hni] at h
      cases hcs : extractC cs i with
      | some r =>
        obtain ⟨sub', cs'⟩ := r
        rw [hcs] at h
        simp only [Option.some.injEq, Prod.mk.injEq] at h
        obtain ⟨rfl, rfl⟩ := h
        have ih := extractC_ids cs i sub' cs' hcs
        simp only [allIdsC, List.append_nil, ← Multiset.cons_coe, ← Multiset.coe_add,
          ← Multiset.singleton_add] at ih ⊢
        rw [ih]
        abel
      | none =>
        rw [hcs] at h
        cases hts : extractC ts i with
        | some r =>
          obtain ⟨sub', ts'⟩ := r
          rw [hts] at h
          simp only [Option.some.injEq, Prod.mk.injEq] at h
          obtain ⟨rfl, rfl⟩ := h
          have ih := extractC_ids ts i sub' ts' hts
          simp only [allIdsC, List.append_nil, ← Multiset.cons_coe, ← Multiset.coe_add,
            ← Multiset.singleton_add] at ih ⊢
          rw [ih]
          abel
        | none => rw [hts] at h; exact absurd h (by simp)

/-- `allIdsC` distributes over forest concatenation. -/
theorem allIdsC_append : ∀ (xs ys : List FTree),
    allIdsC (xs ++ ys) = allIdsC xs ++ allIdsC ys
  | [], ys => by simp [allIdsC]
  | .mk nid nm p cs :: xs, ys => by
    simp only [List.cons_append, allIdsC, allIdsC_append xs ys, List.append_assoc]

/-- Grafting under an id that does not occur leaves the forest unchanged. -/
theorem graftC_not_mem : ∀ (F : List FTree) (pid : Nat) (sub : FTree),
    pid ∉ allIdsC F → graftC F pid sub = F
  | [], _, _ => fun _ => rfl
  | .mk nid nm p cs :: ts, pid, sub => by
    intro h
    simp only [allIdsC, List.mem_cons, List.mem_append] at h
    push_neg at h
    obtain ⟨h1, h2, h3⟩ := h
    have hne : ¬ (nid = pid) := fun he => h1 (Eq.symm he)
    simp only [graftC, if_neg hne]
    rw [graftC_not_mem cs pid sub h2, graftC_not_mem ts pid sub h3]

/-- Grafting adds exactly the subtree's ids to the population. -/
theorem graftC_ids : ∀ (F : List FTree) (pid : Nat) (sub : FTree),
    (allIdsC F).Nodup → pid ∈ allIdsC F →
    (allIdsC (graftC F pid sub) : Multiset Nat) =
      (allIdsC F : Multiset Nat) + allIdsC [sub]
  | [], pid, sub => by simp [allIdsC]
  | .mk nid nm p cs :: ts, pid, sub => by
    intro hnd hmem
    simp only [allIdsC, List.nodup_cons, List.nodup_append] at hnd
    obtain ⟨hnid, hndcs, hndts, hdisj⟩ := hnd
    simp only [allIdsC, List.mem_cons, List.mem_append] at hmem
    by_cases hp : nid = pid
    · simp only [graftC, if_pos hp, allIdsC, List.map_append]
      have hrf := allIds_refreshT sub p
      simp only [allIdsC, List.append_nil] at hrf
      rw [allIdsC_append cs [refreshT sub p]]
      simp only [allIdsC, List.append_nil, hrf, ← Multiset.cons_coe, ← Multiset.coe_add,
        ← Multiset.singleton_add]
      abel
    · rcases hmem with hmem | hmem | hmem
      · exact absurd hmem.symm hp
      · -- pid sits inside the head's children; it cannot also be in ts
        have hts : pid ∉ allIdsC ts := fun hc => hdisj hmem hc
        simp only [graftC, if_neg hp, allIdsC, graftC_not_mem ts pid sub hts]
        rw [show allIdsC (graftC cs pid sub) ++ allIdsC ts =
          allIdsC (graftC cs pid sub) ++ allIdsC ts from rfl]
        have ih := graftC_ids cs pid sub hndcs hmem
        simp only [allIdsC, List.append_nil, ← Multiset.cons_coe, ← Multiset.coe_add,
          ← Multiset.singleton_add] at ih ⊢
        rw [ih]
        abel
      · have hcs : pid ∉ allIdsC cs := fun hc => hdisj hc hmem
        simp only [graftC, if_neg hp, allIdsC, graftC_not_mem cs pid sub hcs]
        have ih := graftC_ids ts pid sub hndts hmem
        simp only [allIdsC, List.append_nil, ← Multiset.cons_coe, ← Multiset.coe_add,
          ← Multiset.singleton_add] at ih ⊢
        rw [ih]
        abel

theorem nid_mem_allIds : ∀ (c : FTree) (cs : List FTree), c ∈ cs → c.nid ∈ allIdsC cs
  | c, .mk nid nm p cs₀ :: ts, h => by
    rcases List.mem_cons.mp h with rfl | h'
    · simp [allIdsC, FTree.nid]
    · simp only [allIdsC, List.mem_cons, List.mem_append]
      exact Or.inr (Or.inr (nid_mem_allIds c ts h'))

theorem infoC_none_of_not_mem {F : List FTree} {q : Nat} (h : q ∉ allIdsC F) :
    infoC F q = none := by
  cases hF : infoC F q with
  | none => rfl
  | some r =>
    exact absurd ((infoC_isSome_iff F q).mp (by rw [hF]; rfl)) h

theorem ancC_none_of_not_mem {F : List FTree} {q : Nat} (h : q ∉ allIdsC F) :
    ancC F q = none := by
  cases hF : ancC F q with
  | none => rfl
  | some r =>
    exact absurd ((ancC_isSome_iff F q).mp (by rw [hF]; rfl)) h

theorem infoC_append : ∀ (xs ys : List FTree) (q : Nat),
    infoC (xs ++ ys) q =
      (match infoC xs q with
        | some r => some r
        | none => infoC ys q)
  | [], ys, q => by simp [infoC]
  | .mk nid nm p cs :: xs, ys, q => by
    simp only [List.cons_append, infoC]
    by_cases hq : nid = q
    · simp only [if_pos hq]
    · rw [if_neg hq, if_neg hq]
      cases hcs : infoC cs q with
      | some r => rfl
      | none => exact infoC_append xs ys q

theorem ancC_append : ∀ (xs ys : List FTree) (q : Nat),
    ancC (xs ++ ys) q =
      (match ancC xs q with
        | some l => some l
        | none => ancC ys q)
  | [], ys, q => by simp [ancC]
  | .mk nid nm p cs :: xs, ys, q => by
    simp only [List.cons_append, ancC]
    by_cases hq : nid = q
    · simp only [if_pos hq]
    · rw [if_neg hq, if_neg hq]
      cases hcs : ancC cs q with
      | some r => rfl
      | none => exact ancC_append xs ys q

theorem kidIds_mem_allIds : ∀ (F : List FTree) (q : Nat) (nm : String)
    (kids : List (Nat × String)), infoC F q = some (nm, kids) →
    ∀ kv ∈ kids, kv.1 ∈ allIdsC F
  | [], q, nm, kids, h => by simp [infoC] at h
  | .mk nid nm₀ p cs :: ts, q, nm, kids, h => by
    intro kv hkv
    simp only [infoC] at h
    simp only [allIdsC, List.mem_cons, List.mem_append]
    by_cases hq : nid = q
    · rw [if_pos hq] at h
      simp only [Option.some.injEq, Prod.mk.injEq] at h
      obtain ⟨-, rfl⟩ := h
      obtain ⟨c, hc, rfl⟩ := List.mem_map.mp hkv
      exact Or.inr (Or.inl (nid_mem_allIds c cs hc))
    · rw [if_neg hq] at h
      cases hcs : infoC cs q with
      | some r =>
        rw [hcs] at h
        simp only [Option.some.injEq] at h
        subst h
        exact Or.inr (Or.inl (kidIds_mem_allIds cs q nm kids hcs kv hkv))
      | none =>
        rw [hcs] at h
        exact Or.inr (Or.inr (kidIds_mem_allIds ts q nm kids h kv hkv))

/-- When no child id can equal `i`, the detach filter is the identity. -/
theorem kids_filter_id {kids : List (Nat × String)} {i : Nat}
    (h : ∀ kv ∈ kids, kv.1 ≠ i) :
    kids.filter (fun kv => decide (kv.1 ≠ i)) = kids := by
  apply List.filter_eq_self.mpr
  intro kv hkv
  simp [h kv hkv]

theorem sub_nid_mem {sub : FTree} : sub.nid ∈ allIdsC [sub] := by
  cases sub
  simp [allIdsC, FTree.nid]

theorem extractC_perm {F : List FTree} {i : Nat} {sub : FTree} {F₂ : List FTree}
    (h : extractC F i = some (sub, F₂)) :
    List.Perm (allIdsC F) (allIdsC [sub] ++ allIdsC F₂) := by
  rw [← Multiset.coe_eq_coe, ← Multiset.coe_add]
  exact extractC_ids F i sub F₂ h

/-- The extracted id was a live id of the original forest. -/
theorem extractC_mem_i {F : List FTree} {i : Nat} {sub : FTree} {F₂ : List FTree}
    (h : extractC F i = some (sub, F₂)) : i ∈ allIdsC F := by
  have hnid := extractC_nid F i sub F₂ h
  have : i ∈ allIdsC [sub] := by
    rw [← hnid]
    exact sub_nid_mem
  exact (extractC_perm h).mem_iff.mpr (List.mem_append_left _ this)

/-- Under unique ids, extraction partitions the population: the subtree ids
and the remainder ids are individually duplicate-free and disjoint. -/
theorem extractC_parts {F : List FTree} {i : Nat} {sub : FTree} {F₂ : List FTree}
    (hnd : (allIdsC F).Nodup) (h : extractC F i = some (sub, F₂)) :
    (allIdsC [sub]).Nodup ∧ (allIdsC F₂).Nodup ∧
      (allIdsC [sub]).Disjoint (allIdsC F₂) :=
  List.nodup_append.mp (((extractC_perm h).nodup_iff).mp hnd)

/-- A survivor of the extraction was a live id and is not an id of the
extracted subtree. -/
theorem extractC_survivor {F : List FTree} {i : Nat} {sub : FTree} {F₂ : List FTree}
    (hnd : (allIdsC F).Nodup) (h : extractC F i = some (sub, F₂)) {q : Nat}
    (hq : q ∈ allIdsC F₂) : q ∈ allIdsC F ∧ q ∉ allIdsC [sub] ∧ q ≠ i := by
  obtain ⟨-, -, hdisj⟩ := extractC_parts hnd h
  have h1 : q ∈ allIdsC F := (extractC_perm h).mem_iff.mpr (List.mem_append_right _ hq)
  have h2 : q ∉ allIdsC [sub] := fun hc => hdisj hc hq
  refine ⟨h1, h2, fun he => h2 ?_⟩
  subst he
  rw [← extractC_nid F q sub F₂ h]
  exact sub_nid_mem

theorem roots_nid_ne {ts : List FTree} {i : Nat} (h : i ∉ allIdsC ts) :
    ∀ c ∈ ts, c.nid ≠ i := by
  intro c hc he
  exact h (he ▸ nid_mem_allIds c ts hc)

theorem filter_pairs_id {ts : List FTree} {i : Nat} (h : i ∉ allIdsC ts) :
    (ts.map fun c => (c.nid, c.name)).filter (fun kv => decide (kv.1 ≠ i)) =
      ts.map fun c => (c.nid, c.name) := by
  apply List.filter_eq_self.mpr
  intro kv hkv
  obtain ⟨c, hc, rfl⟩ := List.mem_map.mp hkv
  simp [roots_nid_ne h c hc]

/-- Mapping the (id, name) projection over a forest, cons form. -/
theorem map_pair_cons (n : Nat) (m : String) (pth : List String)
    (cs ts : List FTree) :
    (FTree.mk n m pth cs :: ts).map (fun c => (c.nid, c.name)) =
      (n, m) :: ts.map fun c => (c.nid, c.name) := rfl

/-- Under unique ids, extraction deletes exactly the `i` entry from the
(id, name) pairs of the forest's roots. -/
theorem extractC_pairs : ∀ (cs : List FTree) (i : Nat) (sub : FTree) (cs' : List FTree),
    (allIdsC cs).Nodup → extractC cs i = some (sub, cs') →
    cs'.map (fun c => (c.nid, c.name)) =
      (cs.map fun c => (c.nid, c.name)).filter fun kv => decide (kv.1 ≠ i)
  | [], i, sub, cs', _, h => by simp [extractC] at h
  | .mk nid nm p cs₀ :: ts, i, sub, cs', hnd, h => by
    simp only [allIdsC, List.nodup_cons, List.nodup_append, List.mem_append] at hnd
    obtain ⟨hnid, hnd₀, hndts, hdisj⟩ := hnd
    simp only [extractC] at h
    by_cases hni : nid = i
    · rw [if_pos hni] at h
      simp only [Option.some.injEq, Prod.mk.injEq] at h
      obtain ⟨rfl, rfl⟩ := h
      subst hni
      have hits : nid ∉ allIdsC ts := fun hc => hnid (Or.inr hc)
      rw [map_pair_cons, List.filter_cons, if_neg (by simp), filter_pairs_id hits]
    · rw [if_neg hni] at h
      cases hcs : extractC cs₀ i with
      | some r =>
        obtain ⟨sub₀, cs₀'⟩ := r
        rw [hcs] at h
        simp only [Option.some.injEq, Prod.mk.injEq] at h
        obtain ⟨rfl, rfl⟩ := h
        have hii : i ∈ allIdsC cs₀ := extractC_mem_i hcs
        have hits : i ∉ allIdsC ts := fun hc => hdisj hii hc
        rw [map_pair_cons, map_pair_cons, List.filter_cons, if_pos (by simp [hni]),
          filter_pairs_id hits]
      | none =>
        rw [hcs] at h
        cases hts : extractC ts i with
        | some r =>
          obtain ⟨sub', ts'⟩ := r
          rw [hts] at h
          simp only [Option.some.injEq, Prod.mk.injEq] at h
          obtain ⟨rfl, rfl⟩ := h
          rw [map_pair_cons, map_pair_cons, List.filter_cons, if_pos (by simp [hni]),
            extractC_pairs ts i sub' ts' hndts hts]
        | none => rw [hts] at h; exact absurd h (by simp)


/-- Depth-first lookup of the node with id `q`, in the shared traversal
order of `infoC`, `ancC` and `extractC`. -/
def findT : List FTree → Nat → Option FTree
  | [], _ => none
  | .mk nid nm p cs :: ts, q =>
    if nid = q then some (.mk nid nm p cs)
    else
      match findT cs q with
      | some r => some r
      | none => findT ts q

mutual

/-- The path invariant `_on_parent_changed` maintains: the stored `_path`
of every node is its parent path extended with its own name. -/
def pathsOkT : FTree → List String → Bool
  | .mk _ nm p cs, pp => decide (p = pp ++ [nm]) && pathsOkC cs (pp ++ [nm])

/-- `pathsOkT` over a child list, all against the same parent path. -/
def pathsOkC : List FTree → List String → Bool
  | [], _ => true
  | c :: cs, pp => pathsOkT c pp && pathsOkC cs pp

end

/-- The name of the live node with id `q`, if any. -/
def nameOfId (F : List FTree) (q : Nat) : Option String :=
  (infoC F q).map Prod.fst

/-- The names of the direct children of the node with id `pid`. -/
def childNames (F : List FTree) (pid : Nat) : List String :=
  (((infoC F pid).getD ("", [])).2).map Prod.snd

theorem findT_isSome_iff : ∀ (F : List FTree) (q : Nat),
    (findT F q).isSome ↔ q ∈ allIdsC F
  | [], q => by simp [findT, allIdsC]
  | .mk nid nm p cs :: ts, q => by
    simp only [findT, allIdsC, List.mem_cons, List.mem_append]
    by_cases hq : nid = q
    · subst hq
      simp
    · rw [if_neg hq]
      cases hcs : findT cs q with
      | some r =>
        have h1 : q ∈ allIdsC cs := (findT_isSome_iff cs q).mp (by rw [hcs]; rfl)
        have h2 : ¬ (q = nid) := fun h => hq h.symm
        simp [h1, h2]
      | none =>
        have h1 : q ∉ allIdsC cs := by
          intro hmem
          have := (findT_isSome_iff cs q).mpr hmem
          rw [hcs] at this
          exact absurd this (by simp)
        show (findT ts q).isSome = true ↔ _
        rw [findT_isSome_iff ts q]
        constructor
        · intro h
          exact Or.inr (Or.inr h)
        · rintro (h | h | h)
          · exact absurd (Eq.symm h) hq
          · exact absurd h h1
          · exact h

theorem findT_none_of_not_mem {F : List FTree} {q : Nat} (h : q ∉ allIdsC F) :
    findT F q = none := by
  cases hF : findT F q with
  | none => rfl
  | some r => exact absurd ((findT_isSome_iff F q).mp (by rw [hF]; rfl)) h

theorem findT_nid : ∀ (F : List FTree) (q : Nat) (t : FTree),
    findT F q = some t → t.nid = q
  | [], q, t => by simp [findT]
  | .mk nid nm p cs :: ts, q, t => by
    intro h
    simp only [findT] at h
    by_cases hq : nid = q
    · rw [if_pos hq] at h
      simp only [Option.some.injEq] at h
      subst h
      simp only [FTree.nid]
      exact hq
    · rw [if_neg hq] at h
      cases hcs : findT cs q with
      | some r =>
        simp only [hcs, Option.some.injEq] at h
        subst h
        exact findT_nid cs q r hcs
      | none =>
        simp only [hcs] at h
        exact findT_nid ts q t h

theorem infoC_eq_findT : ∀ (F : List FTree) (q : Nat),
    infoC F q =
      (findT F q).map fun t => (t.name, t.children.map fun c => (c.nid, c.name))
  | [], q => by simp [infoC, findT]
  | .mk nid nm p cs :: ts, q => by
    simp only [infoC, findT]
    by_cases hq : nid = q
    · rw [if_pos hq, if_pos hq]
      rfl
    · rw [if_neg hq, if_neg hq, infoC_eq_findT cs q]
      cases findT cs q with
      | some r => rfl
      | none => exact infoC_eq_findT ts q

theorem findT_ids_le : ∀ (F : List FTree) (q : Nat) (t : FTree),
    findT F q = some t → (allIdsC [t] : Multiset Nat) ≤ ↑(allIdsC F)
  | [], q, t => by simp [findT]
  | .mk nid nm p cs :: ts, q, t => by
    intro h
    simp only [findT] at h
    by_cases hq : nid = q
    · rw [if_pos hq] at h
      simp only [Option.some.injEq] at h
      subst h
      simp only [allIdsC, List.append_nil]
      rw [← Multiset.cons_coe, ← Multiset.cons_coe, ← Multiset.coe_add]
      exact Multiset.cons_le_cons _ (Multiset.le_add_right _ _)
    · rw [if_neg hq] at h
      cases hcs : findT cs q with
      | some r =>
        simp only [hcs, Option.some.injEq] at h
        subst h
        refine le_trans (findT_ids_le cs q r hcs) ?_
        simp only [allIdsC]
        rw [← Multiset.cons_coe, ← Multiset.coe_add]
        exact le_trans (Multiset.le_add_right _ _) (Multiset.le_cons_self _ _)
      | none =>
        simp only [hcs] at h
        refine le_trans (findT_ids_le ts q t h) ?_
        simp only [allIdsC]
        rw [← Multiset.cons_coe, ← Multiset.coe_add]
        exact le_trans (Multiset.le_add_left _ _) (Multiset.le_cons_self _ _)

theorem anc_disjoint_sub : ∀ (F : List FTree) (q : Nat) (l : List Nat) (t : FTree),
    (allIdsC F).Nodup → ancC F q = some l → findT F q = some t →
    ∀ a ∈ l, a ∉ allIdsC [t]
  | [], q, l, t => by simp [ancC]
  | .mk nid nm p cs :: ts, q, l, t => by
    intro hnd ha hf a hal
    simp only [allIdsC, List.nodup_cons, List.nodup_append, List.mem_append] at hnd
    obtain ⟨hnid, hndcs, hndts, hdisj⟩ := hnd
    simp only [ancC] at ha
    simp only [findT] at hf
    by_cases hq : nid = q
    · rw [if_pos hq] at ha
      simp only [Option.some.injEq] at ha
      subst ha
      exact absurd hal (List.not_mem_nil a)
    · rw [if_neg hq] at ha
      rw [if_neg hq] at hf
      cases hcs : ancC cs q with
      | some l₀ =>
        simp only [hcs, Option.some.injEq] at ha
        subst ha
        have hmem : q ∈ allIdsC cs := (ancC_isSome_iff cs q).mp (by rw [hcs]; rfl)
        have hfs : (findT cs q).isSome := (findT_isSome_iff cs q).mpr hmem
        cases hfc : findT cs q with
        | none => rw [hfc] at hfs; exact absurd hfs (by simp)
        | some t₀ =>
          simp only [hfc, Option.some.injEq] at hf
          subst hf
          rcases List.mem_cons.mp hal with rfl | hal₀
          · intro hc
            have hm : a ∈ (allIdsC [t₀] : Multiset Nat) := Multiset.mem_coe.mpr hc
            have hm₂ := Multiset.mem_of_le (findT_ids_le cs q t₀ hfc) hm
            exact hnid (Or.inl (Multiset.mem_coe.mp hm₂))
          · exact anc_disjoint_sub cs q l₀ t₀ hndcs hcs hfc a hal₀
      | none =>
        simp only [hcs] at ha
        have hmemn : q ∉ allIdsC cs := by
          intro hmem
          have := (ancC_isSome_iff cs q).mpr hmem
          rw [hcs] at this
          exact absurd this (by simp)
        have hfc : findT cs q = none := findT_none_of_not_mem hmemn
        simp only [hfc] at hf
        exact anc_disjoint_sub ts q l t hndts ha hf a hal

theorem findT_root : ∀ (cs : List FTree) (c : FTree),
    (allIdsC cs).Nodup → c ∈ cs → findT cs c.nid = some c
  | [], c, _, h => absurd h (List.not_mem_nil c)
  | .mk nid nm p cs₀ :: ts, c, hnd, h => by
    simp only [allIdsC, List.nodup_cons, List.nodup_append, List.mem_append] at hnd
    obtain ⟨hnid, hnd₀, hndts, hdisj⟩ := hnd
    simp only [findT]
    rcases List.mem_cons.mp h with rfl | hts
    · simp [FTree.nid]
    · have hcts : c.nid ∈ allIdsC ts := nid_mem_allIds c ts hts
      have hne : ¬ (nid = c.nid) := fun he => hnid (Or.inr (by rw [he]; exact hcts))
      rw [if_neg hne]
      have hfc : findT cs₀ c.nid = none := findT_none_of_not_mem (fun hc => hdisj hc hcts)
      simp only [hfc]
      exact findT_root ts c hndts hts

theorem anc_root : ∀ (cs : List FTree) (c : FTree),
    (allIdsC cs).Nodup → c ∈ cs → ancC cs c.nid = some []
  | [], c, _, h => absurd h (List.not_mem_nil c)
  | .mk nid nm p cs₀ :: ts, c, hnd, h => by
    simp only [allIdsC, List.nodup_cons, List.nodup_append, List.mem_append] at hnd
    obtain ⟨hnid, hnd₀, hndts, hdisj⟩ := hnd
    simp only [ancC]
    rcases List.mem_cons.mp h with rfl | hts
    · simp [FTree.nid]
    · have hcts : c.nid ∈ allIdsC ts := nid_mem_allIds c ts hts
      have hne : ¬ (nid = c.nid) := fun he => hnid (Or.inr (by rw [he]; exact hcts))
      rw [if_neg hne]
      have hfc : ancC cs₀ c.nid = none := ancC_none_of_not_mem (fun hc => hdisj hc hcts)
      simp only [hfc]
      exact anc_root ts c hndts hts

theorem findT_child : ∀ (F : List FTree) (q : Nat) (t c : FTree),
    (allIdsC F).Nodup → findT F q = some t → c ∈ t.children →
    findT F c.nid = some c
  | [], q, t, c => by simp [findT]
  | .mk nid nm p cs :: ts, q, t, c => by
    intro hnd hf hc
    simp only [allIdsC, List.nodup_cons, List.nodup_append, List.mem_append] at hnd
    obtain ⟨hnid, hndcs, hndts, hdisj⟩ := hnd
    simp only [findT] at hf ⊢
    by_cases hq : nid = q
    · rw [if_pos hq] at hf
      simp only [Option.some.injEq] at hf
      subst hf
      simp only [FTree.children] at hc
      have hcc : c.nid ∈ allIdsC cs := nid_mem_allIds c cs hc
      have hne : ¬ (nid = c.nid) := fun he => hnid (Or.inl (by rw [he]; exact hcc))
      rw [if_neg hne]
      simp only [findT_root cs c hndcs hc]
    · rw [if_neg hq] at hf
      cases hcs : findT cs q with
      | some t₀ =>
        simp only [hcs, Option.some.injEq] at hf
        subst hf
        have hrec := findT_child cs q t₀ c hndcs hcs hc
        have hcc : c.nid ∈ allIdsC cs := (findT_isSome_iff cs c.nid).mp (by rw [hrec]; rfl)
        have hne : ¬ (nid = c.nid) := fun he => hnid (Or.inl (by rw [he]; exact hcc))
        rw [if_neg hne]
        simp only [hrec]
      | none =>
        simp only [hcs] at hf
        have hrec := findT_child ts q t c hndts hf hc
        have hcc : c.nid ∈ allIdsC ts := (findT_isSome_iff ts c.nid).mp (by rw [hrec]; rfl)
        have hne : ¬ (nid = c.nid) := fun he => hnid (Or.inr (by rw [he]; exact hcc))
        rw [if_neg hne]
        have hfc : findT cs c.nid = none := findT_none_of_not_mem (fun hx => hdisj hx hcc)
        simp only [hfc]
        exact hrec


theorem extractC_isSome_of_mem : ∀ (F : List FTree) (i : Nat),
    i ∈ allIdsC F → (extractC F i).isSome
  | [], i => by simp [allIdsC]
  | .mk nid nm p cs :: ts, i => by
    intro h
    simp only [allIdsC, List.mem_cons, List.mem_append] at h
    simp only [extractC]
    by_cases hni : nid = i
    · rw [if_pos hni]
      rfl
    · rw [if_neg hni]
      rcases h with h | h | h
      · exact absurd h.symm hni
      · have hs := extractC_isSome_of_mem cs i h
        cases hcs : extractC cs i with
        | none => rw [hcs] at hs; exact absurd hs (by simp)
        | some r =>
          obtain ⟨sub, cs₂⟩ := r
          simp only [hcs]
          rfl
      · cases hcs : extractC cs i with
        | some r =>
          obtain ⟨sub, cs₂⟩ := r
          simp only [hcs]
          rfl
        | none =>
          simp only [hcs]
          have hs := extractC_isSome_of_mem ts i h
          cases hts : extractC ts i with
          | none => rw [hts] at hs; exact absurd hs (by simp)
          | some r =>
            obtain ⟨sub, ts₂⟩ := r
            simp only [hts]
            rfl

theorem extractC_findT : ∀ (F : List FTree) (i : Nat) (sub : FTree) (F₂ : List FTree),
    extractC F i = some (sub, F₂) → findT F i = some sub
  | [], i, sub, F₂ => by simp [extractC]
  | .mk nid nm p cs :: ts, i, sub, F₂ => by
    intro h
    simp only [extractC] at h
    simp only [findT]
    by_cases hni : nid = i
    · rw [if_pos hni] at h
      rw [if_pos hni]
      simp only [Option.some.injEq, Prod.mk.injEq] at h
      rw [h.1]
    · rw [if_neg hni] at h
      rw [if_neg hni]
      cases hcs : extractC cs i with
      | some r =>
        obtain ⟨sub₀, cs₂⟩ := r
        rw [hcs] at h
        simp only [Option.some.injEq, Prod.mk.injEq] at h
        obtain ⟨rfl, rfl⟩ := h
        simp only [extractC_findT cs i sub₀ cs₂ hcs]
      | none =>
        rw [hcs] at h
        have hmemn : i ∉ allIdsC cs := by
          intro hm
          have := extractC_isSome_of_mem cs i hm
          rw [hcs] at this
          exact absurd this (by simp)
        simp only [findT_none_of_not_mem hmemn]
        cases hts : extractC ts i with
        | some r =>
          obtain ⟨sub₀, ts₂⟩ := r
          rw [hts] at h
          simp only [Option.some.injEq, Prod.mk.injEq] at h
          obtain ⟨rfl, rfl⟩ := h
          exact extractC_findT ts i sub₀ ts₂ hts
        | none => rw [hts] at h; exact absurd h (by simp)

/-- The extracted subtree is the node `infoC` reports for its id. -/
theorem extractC_found_info {F : List FTree} {i : Nat} {sub : FTree} {F₂ : List FTree}
    (h : extractC F i = some (sub, F₂)) :
    infoC F i = some (sub.name, sub.children.map fun c => (c.nid, c.name)) := by
  rw [infoC_eq_findT, extractC_findT F i sub F₂ h]
  rfl

/-- Under unique ids no direct child of a node is the node itself or one of
its ancestors. -/
theorem kids_not_anc {F : List FTree} {pid : Nat} {pn : String}
    {kids : List (Nat × String)} (hnd : (allIdsC F).Nodup)
    (hinfo : infoC F pid = some (pn, kids)) :
    ∀ kv ∈ kids, kv.1 ≠ pid ∧ kv.1 ∉ (ancC F pid).getD [] := by
  intro kv hkv
  rw [infoC_eq_findT] at hinfo
  cases hft : findT F pid with
  | none => rw [hft] at hinfo; exact absurd hinfo (by simp)
  | some t =>
    rw [hft] at hinfo
    simp only [Option.map_some', Option.some.injEq, Prod.mk.injEq] at hinfo
    obtain ⟨-, hkids⟩ := hinfo
    rw [← hkids] at hkv
    obtain ⟨c, hcmem, rfl⟩ := List.mem_map.mp hkv
    have htn := findT_nid F pid t hft
    have hle := findT_ids_le F pid t hft
    have hndt : (allIdsC [t]).Nodup := by
      have := Multiset.nodup_of_le hle (by exact_mod_cast hnd)
      exact_mod_cast this
    cases t with
    | mk tn tm tp tcs =>
      simp only [FTree.nid] at htn
      subst htn
      simp only [FTree.children] at hcmem
      have hkvm : c.nid ∈ allIdsC tcs := nid_mem_allIds c tcs hcmem
      simp only [allIdsC, List.append_nil, List.nodup_cons] at hndt
      constructor
      · exact fun he => hndt.1 (by rw [← he]; exact hkvm)
      · cases han : ancC F tn with
        | none => simp [han]
        | some l =>
          intro hc
          simp only [han, Option.getD_some] at hc
          refine anc_disjoint_sub F tn l (FTree.mk tn tm tp tcs) hnd han hft c.nid hc ?_
          simp only [allIdsC, List.append_nil, List.mem_cons]
          exact Or.inr hkvm

/-- The ancestor chain of a direct child is the parent chain extended with
the parent itself. -/
theorem anc_of_kid : ∀ (F : List FTree) (pid cid : Nat) (pn cn : String)
    (kids : List (Nat × String)),
    (allIdsC F).Nodup → infoC F pid = some (pn, kids) → (cid, cn) ∈ kids →
    ∃ l, ancC F pid = some l ∧ ancC F cid = some (l ++ [pid])
  | [], pid, cid, pn, cn, kids => by simp [infoC]
  | .mk nid nm p cs :: ts, pid, cid, pn, cn, kids => by
    intro hnd hinfo hkid
    simp only [allIdsC, List.nodup_cons, List.nodup_append, List.mem_append] at hnd
    obtain ⟨hnid, hndcs, hndts, hdisj⟩ := hnd
    simp only [infoC] at hinfo
    simp only [ancC]
    by_cases hq : nid = pid
    · rw [if_pos hq] at hinfo
      rw [if_pos hq]
      simp only [Option.some.injEq, Prod.mk.injEq] at hinfo
      obtain ⟨-, hkids⟩ := hinfo
      refine ⟨[], rfl, ?_⟩
      rw [← hkids] at hkid
      obtain ⟨c, hcmem, hc⟩ := List.mem_map.mp hkid
      simp only [Prod.mk.injEq] at hc
      have hmemc : cid ∈ allIdsC cs := by
        rw [← hc.1]
        exact nid_mem_allIds c cs hcmem
      have hne : ¬ (nid = cid) := fun he => hnid (Or.inl (by rw [he]; exact hmemc))
      rw [if_neg hne]
      have har : ancC cs cid = some [] := by
        have := anc_root cs c hndcs hcmem
        rw [hc.1] at this
        exact this
      simp only [har]
      rw [hq]
      rfl
    · rw [if_neg hq] at hinfo
      rw [if_neg hq]
      cases hcs : infoC cs pid with
      | some r =>
        simp only [hcs, Option.some.injEq] at hinfo
        subst hinfo
        obtain ⟨l₀, h1, h2⟩ := anc_of_kid cs pid cid pn cn kids hndcs hcs hkid
        have hcmem : cid ∈ allIdsC cs := (ancC_isSome_iff cs cid).mp (by rw [h2]; rfl)
        have hnec : ¬ (nid = cid) := fun he => hnid (Or.inl (by rw [he]; exact hcmem))
        rw [if_neg hnec]
        simp only [h1, h2]
        exact ⟨nid :: l₀, rfl, by rw [List.cons_append]⟩
      | none =>
        simp only [hcs] at hinfo
        obtain ⟨l₀, h1, h2⟩ := anc_of_kid ts pid cid pn cn kids hndts hinfo hkid
        have hpn : pid ∉ allIdsC cs := by
          intro hm
          have := (infoC_isSome_iff cs pid).mpr hm
          rw [hcs] at this
          exact absurd this (by simp)
        have hcmem : cid ∈ allIdsC ts := (ancC_isSome_iff ts cid).mp (by rw [h2]; rfl)
        have hnec : ¬ (nid = cid) := fun he => hnid (Or.inr (by rw [he]; exact hcmem))
        rw [if_neg hnec]
        have hacs : ancC cs pid = none := ancC_none_of_not_mem hpn
        have hccs : ancC cs cid = none := ancC_none_of_not_mem (fun hm => hdisj hm hcmem)
        simp only [hacs, hccs]
        exact ⟨l₀, h1, h2⟩

/-- The name recorded in a parent child entry is the child node own name. -/
theorem kid_pair_name {F : List FTree} {pid : Nat} {pn : String}
    {kids : List (Nat × String)} (hnd : (allIdsC F).Nodup)
    (hinfo : infoC F pid = some (pn, kids)) :
    ∀ kv ∈ kids, nameOfId F kv.1 = some kv.2 := by
  intro kv hkv
  rw [infoC_eq_findT] at hinfo
  cases hft : findT F pid with
  | none => rw [hft] at hinfo; exact absurd hinfo (by simp)
  | some t =>
    rw [hft] at hinfo
    simp only [Option.map_some', Option.some.injEq, Prod.mk.injEq] at hinfo
    obtain ⟨-, hkids⟩ := hinfo
    rw [← hkids] at hkv
    obtain ⟨c, hcmem, rfl⟩ := List.mem_map.mp hkv
    have hfc := findT_child F pid t c hnd hft hcmem
    simp only [nameOfId, infoC_eq_findT, hfc]
    rfl

theorem roots_nids_le : ∀ (cs : List FTree),
    ((cs.map FTree.nid : List Nat) : Multiset Nat) ≤ ↑(allIdsC cs)
  | [] => by simp [allIdsC]
  | .mk nid nm p cs₀ :: ts => by
    have step : (FTree.mk nid nm p cs₀ :: ts).map FTree.nid = nid :: ts.map FTree.nid := rfl
    rw [step]
    simp only [allIdsC]
    rw [← Multiset.cons_coe, ← Multiset.cons_coe, ← Multiset.coe_add]
    exact Multiset.cons_le_cons _ (le_trans (roots_nids_le ts) (Multiset.le_add_left _ _))

/-- Under unique ids a node direct child ids are duplicate free. -/
theorem childIds_nodup {F : List FTree} {pid : Nat} (hnd : (allIdsC F).Nodup) :
    (childIds F pid).Nodup := by
  cases hinfo : infoC F pid with
  | none => simp [childIds, hinfo]
  | some r =>
    obtain ⟨pn, kids⟩ := r
    simp only [childIds, hinfo, Option.map_some', Option.getD_some]
    rw [infoC_eq_findT] at hinfo
    cases hft : findT F pid with
    | none => rw [hft] at hinfo; exact absurd hinfo (by simp)
    | some t =>
      rw [hft] at hinfo
      simp only [Option.map_some', Option.some.injEq, Prod.mk.injEq] at hinfo
      obtain ⟨-, hkids⟩ := hinfo
      rw [← hkids]
      have hle := findT_ids_le F pid t hft
      have hndt : (allIdsC [t]).Nodup := by
        have := Multiset.nodup_of_le hle (by exact_mod_cast hnd)
        exact_mod_cast this
      cases t with
      | mk tn tm tp tcs =>
        simp only [allIdsC, List.append_nil, List.nodup_cons] at hndt
        have hle₂ := roots_nids_le tcs
        have hndm : (tcs.map FTree.nid).Nodup := by
          have := Multiset.nodup_of_le hle₂ (by exact_mod_cast hndt.2)
          exact_mod_cast this
        have hcomp : ((FTree.mk tn tm tp tcs).children.map
            (fun c => (c.nid, c.name))).map Prod.fst = tcs.map FTree.nid := by
          rw [List.map_map]
          rfl
        rw [hcomp]
        exact hndm

theorem map_fst_filter (l : List (Nat × String)) (i : Nat) :
    (l.filter fun kv => decide (kv.1 ≠ i)).map Prod.fst =
      (l.map Prod.fst).filter fun k => decide (k ≠ i) := by
  induction l with
  | nil => rfl
  | cons kv l ih =>
    simp only [List.filter_cons, List.map_cons]
    by_cases h : kv.1 = i
    · rw [if_neg (by simp [h]), if_neg (by simp [h])]
      exact ih
    · rw [if_pos (by simp [h]), if_pos (by simp [h])]
      simp only [List.map_cons]
      rw [ih]

/-- Refreshing paths preserves the root level (id, name) pairs. -/
theorem refreshC_pairs : ∀ (cs : List FTree) (pp : List String),
    (refreshC cs pp).map (fun c => (c.nid, c.name)) =
      cs.map fun c => (c.nid, c.name)
  | [], _ => rfl
  | c :: cs, pp => by
    show ((refreshT c pp).nid, (refreshT c pp).name) ::
        (refreshC cs pp).map (fun c => (c.nid, c.name)) = _
    rw [refreshT_nid, refreshT_name, refreshC_pairs cs pp]
    rfl

/-- Refreshing paths does not change names, ids or the child structure
`infoC` reports. -/
theorem infoC_refreshC : ∀ (cs : List FTree) (pp : List String) (q : Nat),
    infoC (refreshC cs pp) q = infoC cs q
  | [], _, _ => rfl
  | .mk nid nm p cs₀ :: ts, pp, q => by
    simp only [refreshC, refreshT, infoC]
    by_cases hq : nid = q
    · rw [if_pos hq, if_pos hq, refreshC_pairs]
    · rw [if_neg hq, if_neg hq, infoC_refreshC cs₀ (pp ++ [nm]) q]
      cases infoC cs₀ q with
      | some r => rfl
      | none => exact infoC_refreshC ts pp q

mutual

/-- A freshly refreshed subtree satisfies the path invariant from the new
parent path. -/
theorem pathsOk_refreshT : ∀ (t : FTree) (pp : List String),
    pathsOkT (refreshT t pp) pp = true
  | .mk nid nm p cs, pp => by
    simp only [refreshT, pathsOkT]
    rw [pathsOk_refreshC cs (pp ++ [nm])]
    simp

theorem pathsOk_refreshC : ∀ (cs : List FTree) (pp : List String),
    pathsOkC (refreshC cs pp) pp = true
  | [], _ => rfl
  | c :: cs, pp => by
    simp only [refreshC, pathsOkC]
    rw [pathsOk_refreshT c pp, pathsOk_refreshC cs pp]
    rfl

end


/-- Extraction of subtree `i` updates every surviving node by filtering the
`i` entry (if present) out of its child list, and nothing else. -/
theorem extractC_info : ∀ (F : List FTree) (i : Nat) (sub : FTree) (F₂ : List FTree),
    (allIdsC F).Nodup → extractC F i = some (sub, F₂) →
    ∀ q ∈ allIdsC F₂, infoC F₂ q =
      (infoC F q).map fun r => (r.1, r.2.filter fun kv => decide (kv.1 ≠ i))
  | [], i, sub, F₂, _, h => by simp [extractC] at h
  | .mk nid nm p cs₀ :: ts, i, sub, F₂, hnd, h => by
    intro q hq
    simp only [allIdsC, List.nodup_cons, List.nodup_append, List.mem_append] at hnd
    obtain ⟨hnid, hndcs, hndts, hdisj⟩ := hnd
    simp only [extractC] at h
    by_cases hni : nid = i
    · rw [if_pos hni] at h
      simp only [Option.some.injEq, Prod.mk.injEq] at h
      obtain ⟨rfl, rfl⟩ := h
      subst hni
      have hqn : ¬ (nid = q) := fun he => hnid (Or.inr (by rw [he]; exact hq))
      have hqcs : q ∉ allIdsC cs₀ := fun hc => hdisj hc hq
      show infoC ts q = _
      simp only [infoC, if_neg hqn, infoC_none_of_not_mem hqcs]
      cases hts : infoC ts q with
      | none => rfl
      | some r =>
        obtain ⟨rn, rkids⟩ := r
        have hkids := kidIds_mem_allIds ts q rn rkids hts
        have hfid : rkids.filter (fun kv => decide (kv.1 ≠ nid)) = rkids :=
          kids_filter_id (fun kv hkv he =>
            hnid (Or.inr (by rw [← he]; exact hkids kv hkv)))
        show some (rn, rkids) =
          some (rn, rkids.filter fun kv => decide (kv.1 ≠ nid))
        rw [hfid]
    · rw [if_neg hni] at h
      cases hcs : extractC cs₀ i with
      | some r =>
        obtain ⟨sub₀, cs₂⟩ := r
        rw [hcs] at h
        simp only [Option.some.injEq, Prod.mk.injEq] at h
        obtain ⟨rfl, rfl⟩ := h
        have hii : i ∈ allIdsC cs₀ := extractC_mem_i hcs
        have hits : i ∉ allIdsC ts := fun hc => hdisj hii hc
        simp only [allIdsC, List.mem_cons, List.mem_append] at hq
        simp only [infoC]
        by_cases hqn : nid = q
        · rw [if_pos hqn, if_pos hqn]
          show some (nm, cs₂.map fun c => (c.nid, c.name)) =
            some (nm, (cs₀.map fun c => (c.nid, c.name)).filter
              fun kv => decide (kv.1 ≠ i))
          rw [extractC_pairs cs₀ i sub₀ cs₂ hndcs hcs]
        · rw [if_neg hqn, if_neg hqn]
          rcases hq with hq | hq | hq
          · exact absurd hq.symm hqn
          · have hrec := extractC_info cs₀ i sub₀ cs₂ hndcs hcs q hq
            have hqcs : q ∈ allIdsC cs₀ := (extractC_survivor hndcs hcs hq).1
            have hs : (infoC cs₀ q).isSome := (infoC_isSome_iff cs₀ q).mpr hqcs
            cases h0 : infoC cs₀ q with
            | none => rw [h0] at hs; exact absurd hs (by simp)
            | some r0 =>
              rw [h0] at hrec
              simp only [hrec, h0]
              rfl
          · have hqcs₂ : q ∉ allIdsC cs₂ := by
              intro hc
              exact hdisj (extractC_survivor hndcs hcs hc).1 hq
            have hqcs₀ : q ∉ allIdsC cs₀ := fun hc => hdisj hc hq
            simp only [infoC_none_of_not_mem hqcs₂, infoC_none_of_not_mem hqcs₀]
            cases hts2 : infoC ts q with
            | none => rfl
            | some r =>
              obtain ⟨rn, rkids⟩ := r
              have hkids := kidIds_mem_allIds ts q rn rkids hts2
              have hfid : rkids.filter (fun kv => decide (kv.1 ≠ i)) = rkids :=
                kids_filter_id (fun kv hkv he =>
                  hits (by rw [← he]; exact hkids kv hkv))
              show some (rn, rkids) =
                some (rn, rkids.filter fun kv => decide (kv.1 ≠ i))
              rw [hfid]
      | none =>
        rw [hcs] at h
        cases hts : extractC ts i with
        | some r =>
          obtain ⟨sub₀, ts₂⟩ := r
          rw [hts] at h
          simp only [Option.some.injEq, Prod.mk.injEq] at h
          obtain ⟨rfl, rfl⟩ := h
          have hii : i ∈ allIdsC ts := extractC_mem_i hts
          have hics : i ∉ allIdsC cs₀ := fun hc => hdisj hc hii
          simp only [allIdsC, List.mem_cons, List.mem_append] at hq
          simp only [infoC]
          by_cases hqn : nid = q
          · rw [if_pos hqn, if_pos hqn]
            show some (nm, cs₀.map fun c => (c.nid, c.name)) =
              some (nm, (cs₀.map fun c => (c.nid, c.name)).filter
                fun kv => decide (kv.1 ≠ i))
            rw [filter_pairs_id hics]
          · rw [if_neg hqn, if_neg hqn]
            cases h0 : infoC cs₀ q with
            | some r0 =>
              obtain ⟨rn, rkids⟩ := r0
              have hkids := kidIds_mem_allIds cs₀ q rn rkids h0
              have hfid : rkids.filter (fun kv => decide (kv.1 ≠ i)) = rkids :=
                kids_filter_id (fun kv hkv he =>
                  hics (by rw [← he]; exact hkids kv hkv))
              show some (rn, rkids) =
                some (rn, rkids.filter fun kv => decide (kv.1 ≠ i))
              rw [hfid]
            | none =>
              rcases hq with hq | hq | hq
              · exact absurd hq.symm hqn
              · exact absurd ((infoC_isSome_iff cs₀ q).mpr hq) (by simp [h0])
              · have hrec := extractC_info ts i sub₀ ts₂ hndts hts q hq
                have hqts : q ∈ allIdsC ts := (extractC_survivor hndts hts hq).1
                have hs : (infoC ts q).isSome := (infoC_isSome_iff ts q).mpr hqts
                cases h1 : infoC ts q with
                | none => rw [h1] at hs; exact absurd hs (by simp)
                | some r1 =>
                  rw [h1] at hrec
                  simp only [hrec, h1]
        | none => rw [hts] at h; exact absurd h (by simp)

/-- Extraction does not change the ancestor chain of any surviving node. -/
theorem extractC_anc : ∀ (F : List FTree) (i : Nat) (sub : FTree) (F₂ : List FTree),
    (allIdsC F).Nodup → extractC F i = some (sub, F₂) →
    ∀ q ∈ allIdsC F₂, ancC F₂ q = ancC F q
  | [], i, sub, F₂, _, h => by simp [extractC] at h
  | .mk nid nm p cs₀ :: ts, i, sub, F₂, hnd, h => by
    intro q hq
    simp only [allIdsC, List.nodup_cons, List.nodup_append, List.mem_append] at hnd
    obtain ⟨hnid, hndcs, hndts, hdisj⟩ := hnd
    simp only [extractC] at h
    by_cases hni : nid = i
    · rw [if_pos hni] at h
      simp only [Option.some.injEq, Prod.mk.injEq] at h
      obtain ⟨rfl, rfl⟩ := h
      subst hni
      have hqn : ¬ (nid = q) := fun he => hnid (Or.inr (by rw [he]; exact hq))
      have hqcs : q ∉ allIdsC cs₀ := fun hc => hdisj hc hq
      show ancC ts q = _
      simp only [ancC, if_neg hqn, ancC_none_of_not_mem hqcs]
    · rw [if_neg hni] at h
      cases hcs : extractC cs₀ i with
      | some r =>
        obtain ⟨sub₀, cs₂⟩ := r
        rw [hcs] at h
        simp only [Option.some.injEq, Prod.mk.injEq] at h
        obtain ⟨rfl, rfl⟩ := h
        simp only [allIdsC, List.mem_cons, List.mem_append] at hq
        simp only [ancC]
        by_cases hqn : nid = q
        · rw [if_pos hqn, if_pos hqn]
        · rw [if_neg hqn, if_neg hqn]
          rcases hq with hq | hq | hq
          · exact absurd hq.symm hqn
          · have hrec := extractC_anc cs₀ i sub₀ cs₂ hndcs hcs q hq
            have hqcs : q ∈ allIdsC cs₀ := (extractC_survivor hndcs hcs hq).1
            have hs : (ancC cs₀ q).isSome := (ancC_isSome_iff cs₀ q).mpr hqcs
            cases h0 : ancC cs₀ q with
            | none => rw [h0] at hs; exact absurd hs (by simp)
            | some l0 =>
              rw [h0] at hrec
              simp only [hrec, h0]
          · have hqcs₂ : q ∉ allIdsC cs₂ := by
              intro hc
              exact hdisj (extractC_survivor hndcs hcs hc).1 hq
            have hqcs₀ : q ∉ allIdsC cs₀ := fun hc => hdisj hc hq
            simp only [ancC_none_of_not_mem hqcs₂, ancC_none_of_not_mem hqcs₀]
      | none =>
        rw [hcs] at h
        cases hts : extractC ts i with
        | some r =>
          obtain ⟨sub₀, ts₂⟩ := r
          rw [hts] at h
          simp only [Option.some.injEq, Prod.mk.injEq] at h
          obtain ⟨rfl, rfl⟩ := h
          simp only [allIdsC, List.mem_cons, List.mem_append] at hq
          simp only [ancC]
          by_cases hqn : nid = q
          · rw [if_pos hqn, if_pos hqn]
          · rw [if_neg hqn, if_neg hqn]
            cases h0 : ancC cs₀ q with
            | some l0 => rfl
            | none =>
              rcases hq with hq | hq | hq
              · exact absurd hq.symm hqn
              · exact absurd ((ancC_isSome_iff cs₀ q).mpr hq) (by simp [h0])
              · have hrec := extractC_anc ts i sub₀ ts₂ hndts hts q hq
                have hqts : q ∈ allIdsC ts := (extractC_survivor hndts hts hq).1
                have hs : (ancC ts q).isSome := (ancC_isSome_iff ts q).mpr hqts
                cases h1 : ancC ts q with
                | none => rw [h1] at hs; exact absurd hs (by simp)
                | some l1 =>
                  rw [h1] at hrec
                  simp only [hrec, h1]
        | none => rw [hts] at h; exact absurd h (by simp)

/-- For a node inside the extracted subtree, the node data `infoC` reports
in the whole forest is what the isolated subtree reports. -/
theorem extractC_info_sub : ∀ (F : List FTree) (i : Nat) (sub : FTree) (F₂ : List FTree),
    (allIdsC F).Nodup → extractC F i = some (sub, F₂) →
    ∀ q ∈ allIdsC [sub], infoC F q = infoC [sub] q
  | [], i, sub, F₂, _, h => by simp [extractC] at h
  | .mk nid nm p cs₀ :: ts, i, sub, F₂, hnd, h => by
    intro q hq
    simp only [allIdsC, List.nodup_cons, List.nodup_append, List.mem_append] at hnd
    obtain ⟨hnid, hndcs, hndts, hdisj⟩ := hnd
    simp only [extractC] at h
    by_cases hni : nid = i
    · rw [if_pos hni] at h
      simp only [Option.some.injEq, Prod.mk.injEq] at h
      obtain ⟨rfl, rfl⟩ := h
      simp only [allIdsC, List.append_nil, List.mem_cons] at hq
      simp only [infoC]
      by_cases hqn : nid = q
      · rw [if_pos hqn, if_pos hqn]
      · rw [if_neg hqn, if_neg hqn]
        rcases hq with hq | hq
        · exact absurd hq.symm hqn
        · have hs : (infoC cs₀ q).isSome := (infoC_isSome_iff cs₀ q).mpr hq
          cases h0 : infoC cs₀ q with
          | none => rw [h0] at hs; exact absurd hs (by simp)
          | some r0 => rfl
    · rw [if_neg hni] at h
      cases hcs : extractC cs₀ i with
      | some r =>
        obtain ⟨sub₀, cs₂⟩ := r
        rw [hcs] at h
        simp only [Option.some.injEq, Prod.mk.injEq] at h
        obtain ⟨rfl, rfl⟩ := h
        have hqcs : q ∈ allIdsC cs₀ :=
          (extractC_perm hcs).mem_iff.mpr (List.mem_append_left _ hq)
        have hqn : ¬ (nid = q) := fun he => hnid (Or.inl (by rw [he]; exact hqcs))
        have hrec := extractC_info_sub cs₀ i sub₀ cs₂ hndcs hcs q hq
        have hs : (infoC [sub₀] q).isSome := (infoC_isSome_iff [sub₀] q).mpr hq
        simp only [infoC, if_neg hqn]
        cases h1 : infoC [sub₀] q with
        | none => rw [h1] at hs; exact absurd hs (by simp)
        | some r1 =>
          rw [h1] at hrec
          simp only [hrec]
      | none =>
        rw [hcs] at h
        cases hts : extractC ts i with
        | some r =>
          obtain ⟨sub₀, ts₂⟩ := r
          rw [hts] at h
          simp only [Option.some.injEq, Prod.mk.injEq] at h
          obtain ⟨rfl, rfl⟩ := h
          have hqts : q ∈ allIdsC ts :=
            (extractC_perm hts).mem_iff.mpr (List.mem_append_left _ hq)
          have hqn : ¬ (nid = q) := fun he => hnid (Or.inr (by rw [he]; exact hqts))
          have hqcs : q ∉ allIdsC cs₀ := fun hc => hdisj hc hqts
          simp only [infoC, if_neg hqn, infoC_none_of_not_mem hqcs]
          exact extractC_info_sub ts i sub₀ ts₂ hndts hts q hq
        | none => rw [hts] at h; exact absurd h (by simp)

/-- The root of the extracted subtree is an ancestor of every node strictly
inside it. -/
theorem extractC_anc_sub : ∀ (F : List FTree) (i : Nat) (sub : FTree) (F₂ : List FTree),
    (allIdsC F).Nodup → extractC F i = some (sub, F₂) →
    ∀ q ∈ allIdsC [sub], q ≠ sub.nid → sub.nid ∈ (ancC F q).getD []
  | [], i, sub, F₂, _, h => by simp [extractC] at h
  | .mk nid nm p cs₀ :: ts, i, sub, F₂, hnd, h => by
    intro q hq hqs
    simp only [allIdsC, List.nodup_cons, List.nodup_append, List.mem_append] at hnd
    obtain ⟨hnid, hndcs, hndts, hdisj⟩ := hnd
    simp only [extractC] at h
    by_cases hni : nid = i
    · rw [if_pos hni] at h
      simp only [Option.some.injEq, Prod.mk.injEq] at h
      obtain ⟨rfl, rfl⟩ := h
      simp only [FTree.nid] at hqs
      simp only [allIdsC, List.append_nil, List.mem_cons] at hq
      rcases hq with hq | hq
      · exact absurd hq hqs
      · have hqn : ¬ (nid = q) := fun he => hnid (Or.inl (by rw [he]; exact hq))
        have hs : (ancC cs₀ q).isSome := (ancC_isSome_iff cs₀ q).mpr hq
        simp only [ancC, if_neg hqn]
        cases h0 : ancC cs₀ q with
        | none => rw [h0] at hs; exact absurd hs (by simp)
        | some l0 =>
          simp [h0, FTree.nid]
    · rw [if_neg hni] at h
      cases hcs : extractC cs₀ i with
      | some r =>
        obtain ⟨sub₀, cs₂⟩ := r
        rw [hcs] at h
        simp only [Option.some.injEq, Prod.mk.injEq] at h
        obtain ⟨rfl, rfl⟩ := h
        have hqcs : q ∈ allIdsC cs₀ :=
          (extractC_perm hcs).mem_iff.mpr (List.mem_append_left _ hq)
        have hqn : ¬ (nid = q) := fun he => hnid (Or.inl (by rw [he]; exact hqcs))
        have hrec := extractC_anc_sub cs₀ i sub₀ cs₂ hndcs hcs q hq hqs
        have hs : (ancC cs₀ q).isSome := (ancC_isSome_iff cs₀ q).mpr hqcs
        simp only [ancC, if_neg hqn]
        cases h0 : ancC cs₀ q with
        | none => rw [h0] at hs; exact absurd hs (by simp)
        | some l0 =>
          simp only [h0, Option.getD_some] at hrec
          simp only [Option.getD_some, List.mem_cons]
          exact Or.inr hrec
      | none =>
        rw [hcs] at h
        cases hts : extractC ts i with
        | some r =>
          obtain ⟨sub₀, ts₂⟩ := r
          rw [hts] at h
          simp only [Option.some.injEq, Prod.mk.injEq] at h
          obtain ⟨rfl, rfl⟩ := h
          have hqts : q ∈ allIdsC ts :=
            (extractC_perm hts).mem_iff.mpr (List.mem_append_left _ hq)
          have hqn : ¬ (nid = q) := fun he => hnid (Or.inr (by rw [he]; exact hqts))
          have hqcs : q ∉ allIdsC cs₀ := fun hc => hdisj hc hqts
          simp only [ancC, if_neg hqn, ancC_none_of_not_mem hqcs]
          exact extractC_anc_sub ts i sub₀ ts₂ hndts hts q hq hqs
        | none => rw [hts] at h; exact absurd h (by simp)

/-- Grafting preserves the root level (id, name) pairs. -/
theorem graftC_pairs : ∀ (F : List FTree) (pid : Nat) (sub : FTree),
    (graftC F pid sub).map (fun c => (c.nid, c.name)) = F.map fun c => (c.nid, c.name)
  | [], _, _ => rfl
  | .mk nid nm p cs :: ts, pid, sub => by
    simp only [graftC]
    by_cases hp : nid = pid
    · rw [if_pos hp]
      rfl
    · rw [if_neg hp]
      rw [map_pair_cons, map_pair_cons, graftC_pairs ts pid sub]

/-- Grafting appends exactly one entry, for the grafted subtree root, to the
target node child list. -/
theorem graftC_info_pid : ∀ (F : List FTree) (pid : Nat) (sub : FTree),
    (allIdsC F).Nodup → pid ∈ allIdsC F →
    infoC (graftC F pid sub) pid =
      (infoC F pid).map fun r => (r.1, r.2 ++ [(sub.nid, sub.name)])
  | [], pid, sub => by simp [allIdsC]
  | .mk nid nm p cs :: ts, pid, sub => by
    intro hnd hmem
    simp only [allIdsC, List.nodup_cons, List.nodup_append, List.mem_append] at hnd
    obtain ⟨hnid, hndcs, hndts, hdisj⟩ := hnd
    simp only [allIdsC, List.mem_cons, List.mem_append] at hmem
    simp only [graftC]
    by_cases hp : nid = pid
    · rw [if_pos hp]
      simp only [infoC, if_pos hp]
      rw [List.map_append]
      simp only [List.map_cons, List.map_nil, refreshT_nid, refreshT_name]
      rfl
    · rw [if_neg hp]
      rcases hmem with hmem | hmem | hmem
      · exact absurd hmem.symm hp
      · have hpts : pid ∉ allIdsC ts := fun hc => hdisj hmem hc
        rw [graftC_not_mem ts pid sub hpts]
        simp only [infoC, if_neg hp]
        have hrec := graftC_info_pid cs pid sub hndcs hmem
        have hs : (infoC cs pid).isSome := (infoC_isSome_iff cs pid).mpr hmem
        cases h0 : infoC cs pid with
        | none => rw [h0] at hs; exact absurd hs (by simp)
        | some r0 =>
          rw [h0] at hrec
          simp only [hrec, h0]
          rfl
      · have hpcs : pid ∉ allIdsC cs := fun hc => hdisj hc hmem
        rw [graftC_not_mem cs pid sub hpcs]
        simp only [infoC, if_neg hp, infoC_none_of_not_mem hpcs]
        exact graftC_info_pid ts pid sub hndts hmem

/-- Grafting under `pid` leaves every other node outside the grafted
subtree untouched. -/
theorem graftC_info_other : ∀ (F : List FTree) (pid : Nat) (sub : FTree) (q : Nat),
    (allIdsC F).Nodup → pid ∈ allIdsC F → q ∉ allIdsC [sub] → q ≠ pid →
    infoC (graftC F pid sub) q = infoC F q
  | [], pid, sub, q => by simp [allIdsC]
  | .mk nid nm p cs :: ts, pid, sub, q => by
    intro hnd hmem hqs hqp
    simp only [allIdsC, List.nodup_cons, List.nodup_append, List.mem_append] at hnd
    obtain ⟨hnid, hndcs, hndts, hdisj⟩ := hnd
    simp only [allIdsC, List.mem_cons, List.mem_append] at hmem
    simp only [graftC]
    by_cases hp : nid = pid
    · rw [if_pos hp]
      have hqn : ¬ (nid = q) := fun he => hqp (by rw [← he]; exact hp)
      simp only [infoC, if_neg hqn]
      rw [infoC_append]
      have hrs : infoC [refreshT sub p] q = none := by
        refine infoC_none_of_not_mem ?_
        rw [show allIdsC [refreshT sub p] = allIdsC [sub] from allIds_refreshT sub p]
        exact hqs
      simp only [hrs]
      cases infoC cs q with
      | some r => rfl
      | none => rfl
    · rw [if_neg hp]
      rcases hmem with hmem | hmem | hmem
      · exact absurd hmem.symm hp
      · have hpts : pid ∉ allIdsC ts := fun hc => hdisj hmem hc
        rw [graftC_not_mem ts pid sub hpts]
        simp only [infoC]
        by_cases hqn : nid = q
        · rw [if_pos hqn, if_pos hqn, graftC_pairs]
        · rw [if_neg hqn, if_neg hqn]
          have hrec := graftC_info_other cs pid sub q hndcs hmem hqs hqp
          cases h0 : infoC cs q with
          | some r0 =>
            rw [h0] at hrec
            simp only [hrec, h0]
          | none =>
            rw [h0] at hrec
            simp only [hrec, h0]
      · have hpcs : pid ∉ allIdsC cs := fun hc => hdisj hc hmem
        rw [graftC_not_mem cs pid sub hpcs]
        simp only [infoC]
        by_cases hqn : nid = q
        · rw [if_pos hqn, if_pos hqn]
        · rw [if_neg hqn, if_neg hqn]
          cases h0 : infoC cs q with
          | some r0 => rfl
          | none => exact graftC_info_other ts pid sub q hndts hmem hqs hqp

/-- Grafting under `pid` does not change the ancestor chain of any node
outside the grafted subtree. -/
theorem graftC_anc_other : ∀ (F : List FTree) (pid : Nat) (sub : FTree) (q : Nat),
    (allIdsC F).Nodup → pid ∈ allIdsC F → q ∉ allIdsC [sub] →
    ancC (graftC F pid sub) q = ancC F q
  | [], pid, sub, q => by simp [allIdsC]
  | .mk nid nm p cs :: ts, pid, sub, q => by
    intro hnd hmem hqs
    simp only [allIdsC, List.nodup_cons, List.nodup_append, List.mem_append] at hnd
    obtain ⟨hnid, hndcs, hndts, hdisj⟩ := hnd
    simp only [allIdsC, List.mem_cons, List.mem_append] at hmem
    simp only [graftC]
    by_cases hp : nid = pid
    · rw [if_pos hp]
      simp only [ancC]
      by_cases hqn : nid = q
      · rw [if_pos hqn, if_pos hqn]
      · rw [if_neg hqn, if_neg hqn]
        rw [ancC_append]
        have hrs : ancC [refreshT sub p] q = none := by
          refine ancC_none_of_not_mem ?_
          rw [show allIdsC [refreshT sub p] = allIdsC [sub] from allIds_refreshT sub p]
          exact hqs
        simp only [hrs]
        cases ancC cs q with
        | some l => rfl
        | none => rfl
    · rw [if_neg hp]
      rcases hmem with hmem | hmem | hmem
      · exact absurd hmem.symm hp
      · have hpts : pid ∉ allIdsC ts := fun hc => hdisj hmem hc
        rw [graftC_not_mem ts pid sub hpts]
        simp only [ancC]
        by_cases hqn : nid = q
        · rw [if_pos hqn, if_pos hqn]
        · rw [if_neg hqn, if_neg hqn]
          have hrec := graftC_anc_other cs pid sub q hndcs hmem hqs
          cases h0 : ancC cs q with
          | some l0 =>
            rw [h0] at hrec
            simp only [hrec, h0]
          | none =>
            rw [h0] at hrec
            simp only [hrec, h0]
      · have hpcs : pid ∉ allIdsC cs := fun hc => hdisj hc hmem
        rw [graftC_not_mem cs pid sub hpcs]
        simp only [ancC]
        by_cases hqn : nid = q
        · rw [if_pos hqn, if_pos hqn]
        · rw [if_neg hqn, if_neg hqn]
          cases h0 : ancC cs q with
          | some l0 => rfl
          | none => exact graftC_anc_other ts pid sub q hndts hmem hqs

/-- For a node inside the grafted subtree, the data `infoC` reports after
grafting is what the isolated subtree reports. -/
theorem graftC_info_sub : ∀ (F : List FTree) (pid : Nat) (sub : FTree) (q : Nat),
    (allIdsC F).Nodup → pid ∈ allIdsC F → (allIdsC [sub]).Disjoint (allIdsC F) →
    q ∈ allIdsC [sub] → infoC (graftC F pid sub) q = infoC [sub] q
  | [], pid, sub, q => by simp [allIdsC]
  | .mk nid nm p cs :: ts, pid, sub, q => by
    intro hnd hmem hdisjS hq
    simp only [allIdsC, List.nodup_cons, List.nodup_append, List.mem_append] at hnd
    obtain ⟨hnid, hndcs, hndts, hdisj⟩ := hnd
    have hqF : q ∉ allIdsC (FTree.mk nid nm p cs :: ts) := fun hc => hdisjS hq hc
    simp only [allIdsC, List.mem_cons, List.mem_append] at hqF
    push_neg at hqF
    obtain ⟨hqn, hqcs, hqts⟩ := hqF
    have hqn₂ : ¬ (nid = q) := fun he => hqn he.symm
    simp only [allIdsC, List.mem_cons, List.mem_append] at hmem
    simp only [graftC]
    by_cases hp : nid = pid
    · rw [if_pos hp]
      simp only [infoC, if_neg hqn₂]
      rw [infoC_append]
      have h0 : infoC cs q = none := infoC_none_of_not_mem hqcs
      have hr : infoC [refreshT sub p] q = infoC [sub] q := by
        rw [show ([refreshT sub p] : List FTree) = refreshC [sub] p from rfl,
          infoC_refreshC]
      have hs : (infoC [sub] q).isSome := (infoC_isSome_iff [sub] q).mpr hq
      cases h1 : infoC [sub] q with
      | none => rw [h1] at hs; exact absurd hs (by simp)
      | some r1 =>
        rw [h1] at hr
        simp only [h0, hr, h1]
    · rw [if_neg hp]
      rcases hmem with hmem | hmem | hmem
      · exact absurd hmem.symm hp
      · have hpts : pid ∉ allIdsC ts := fun hc => hdisj hmem hc
        rw [graftC_not_mem ts pid sub hpts]
        simp only [infoC, if_neg hqn₂]
        have hdisjScs : (allIdsC [sub]).Disjoint (allIdsC cs) := by
          intro a ha hc
          refine hdisjS ha ?_
          simp only [allIdsC, List.mem_cons, List.mem_append]
          exact Or.inr (Or.inl hc)
        have hrec := graftC_info_sub cs pid sub q hndcs hmem hdisjScs hq
        have hs : (infoC [sub] q).isSome := (infoC_isSome_iff [sub] q).mpr hq
        cases h1 : infoC [sub] q with
        | none => rw [h1] at hs; exact absurd hs (by simp)
        | some r1 =>
          rw [h1] at hrec
          simp only [hrec, h1]
      · have hpcs : pid ∉ allIdsC cs := fun hc => hdisj hc hmem
        rw [graftC_not_mem cs pid sub hpcs]
        simp only [infoC, if_neg hqn₂, infoC_none_of_not_mem hqcs]
        have hdisjSts : (allIdsC [sub]).Disjoint (allIdsC ts) := by
          intro a ha hc
          refine hdisjS ha ?_
          simp only [allIdsC, List.mem_cons, List.mem_append]
          exact Or.inr (Or.inr hc)
        exact graftC_info_sub ts pid sub q hndts hmem hdisjSts hq

theorem findT_append : ∀ (xs ys : List FTree) (q : Nat),
    findT (xs ++ ys) q =
      (match findT xs q with
        | some r => some r
        | none => findT ys q)
  | [], ys, q => by simp [findT]
  | .mk nid nm p cs :: xs, ys, q => by
    simp only [List.cons_append, findT]
    by_cases hq : nid = q
    · simp only [if_pos hq]
    · rw [if_neg hq, if_neg hq]
      cases findT cs q with
      | some r => rfl
      | none => exact findT_append xs ys q

/-- The grafted subtree sits in the new forest as the refresh of the
extracted subtree from the stored path of the target node. -/
theorem findT_graft_self : ∀ (F : List FTree) (pid : Nat) (sub : FTree),
    (allIdsC F).Nodup → pid ∈ allIdsC F → sub.nid ∉ allIdsC F →
    ∃ pt, findT F pid = some pt ∧
      findT (graftC F pid sub) sub.nid = some (refreshT sub pt.path)
  | [], pid, sub => by simp [allIdsC]
  | .mk nid nm p cs :: ts, pid, sub => by
    intro hnd hmem hsn
    simp only [allIdsC, List.nodup_cons, List.nodup_append, List.mem_append] at hnd
    obtain ⟨hnid, hndcs, hndts, hdisj⟩ := hnd
    simp only [allIdsC, List.mem_cons, List.mem_append] at hmem
    simp only [allIdsC, List.mem_cons, List.mem_append] at hsn
    push_neg at hsn
    obtain ⟨hsn₁, hsn₂, hsn₃⟩ := hsn
    have hsnn : ¬ (nid = sub.nid) := fun he => hsn₁ he.symm
    simp only [graftC]
    by_cases hp : nid = pid
    · rw [if_pos hp]
      refine ⟨FTree.mk nid nm p cs, ?_, ?_⟩
      · simp only [findT, if_pos hp]
      · simp only [findT, if_neg hsnn, findT_append,
          findT_none_of_not_mem hsn₂]
        have hone : findT [refreshT sub p] sub.nid = some (refreshT sub p) := by
          cases sub with
          | mk sn sm sp scs => simp [refreshT, findT, FTree.nid]
        simp only [hone]
        rfl
    · rw [if_neg hp]
      rcases hmem with hmem | hmem | hmem
      · exact absurd hmem.symm hp
      · have hpts : pid ∉ allIdsC ts := fun hc => hdisj hmem hc
        rw [graftC_not_mem ts pid sub hpts]
        obtain ⟨pt, h1, h2⟩ := findT_graft_self cs pid sub hndcs hmem hsn₂
        refine ⟨pt, ?_, ?_⟩
        · simp only [findT, if_neg hp, h1]
        · simp only [findT, if_neg hsnn, h2]
      · have hpcs : pid ∉ allIdsC cs := fun hc => hdisj hc hmem
        rw [graftC_not_mem cs pid sub hpcs]
        obtain ⟨pt, h1, h2⟩ := findT_graft_self ts pid sub hndts hmem hsn₃
        refine ⟨pt, ?_, ?_⟩
        · simp only [findT, if_neg hp, findT_none_of_not_mem hpcs, h1]
        · simp only [findT, if_neg hsnn, findT_none_of_not_mem hsn₂, h2]


theorem childIds_some {F : List FTree} {pid : Nat} {pn : String}
    {kids : List (Nat × String)} (h : infoC F pid = some (pn, kids)) :
    childIds F pid = kids.map Prod.fst := by
  simp [childIds, h]

theorem childNames_some {F : List FTree} {pid : Nat} {pn : String}
    {kids : List (Nat × String)} (h : infoC F pid = some (pn, kids)) :
    childNames F pid = kids.map Prod.snd := by
  simp [childNames, h]

theorem infoC_append_left {xs : List FTree} {q : Nat}
    {r : String × List (Nat × String)} (ys : List FTree) (h : infoC xs q = some r) :
    infoC (xs ++ ys) q = some r := by
  rw [infoC_append]
  simp only [h]

theorem infoC_append_right {xs : List FTree} {q : Nat} (ys : List FTree)
    (h : infoC xs q = none) : infoC (xs ++ ys) q = infoC ys q := by
  rw [infoC_append]
  simp only [h]

theorem ancC_append_left {xs : List FTree} {q : Nat} {l : List Nat}
    (ys : List FTree) (h : ancC xs q = some l) : ancC (xs ++ ys) q = some l := by
  rw [ancC_append]
  simp only [h]

/-- A multiset-equal id population transfers duplicate-freeness and
membership. -/
theorem pop_nodup {G F : List FTree}
    (hpop : (allIdsC G : Multiset Nat) = ↑(allIdsC F))
    (hnd : (allIdsC F).Nodup) : (allIdsC G).Nodup := by
  have : (allIdsC G : Multiset Nat).Nodup := by
    rw [hpop]
    exact Multiset.coe_nodup.mpr hnd
  exact Multiset.coe_nodup.mp this

theorem pop_mem {G F : List FTree} {q : Nat}
    (hpop : (allIdsC G : Multiset Nat) = ↑(allIdsC F))
    (hq : q ∈ allIdsC F) : q ∈ allIdsC G := by
  have : q ∈ (allIdsC G : Multiset Nat) := by
    rw [hpop]
    exact Multiset.mem_coe.mpr hq
  exact Multiset.mem_coe.mp this

/-- The complete effect of a successful `add_child` on the quantities the
`children` setter argument depends on: the id population is preserved, the
child is appended at the end of the target child list, every node keeps its
name, and the target ancestors are untouched. -/
theorem addChild_ok_effects {F : List FTree} {pid cid : Nat} {F₁ : List FTree}
    (hnd : (allIdsC F).Nodup) (hpid : pid ∈ allIdsC F)
    (hok : addChild F pid cid = .ok F₁) :
    (allIdsC F₁ : Multiset Nat) = ↑(allIdsC F) ∧
    childIds F₁ pid = childIds F pid ++ [cid] ∧
    (∀ q, nameOfId F₁ q = nameOfId F q) ∧
    ancC F₁ pid = ancC F pid := by
  simp only [addChild] at hok
  by_cases hcyc : cyclicDep F pid cid = true
  · rw [if_pos hcyc] at hok
    exact absurd hok (by simp)
  · rw [if_neg hcyc] at hok
    have hccomp : ¬ (cid = pid) ∧ cid ∉ (ancC F pid).getD [] := by
      constructor <;> intro hc <;> exact hcyc (by simp [cyclicDep, hc])
    cases hci : infoC F cid with
    | none =>
      simp only [hci] at hok
      exact absurd hok (by simp)
    | some rc =>
      obtain ⟨cname, ckids⟩ := rc
      cases hpi : infoC F pid with
      | none => exact absurd ((infoC_isSome_iff F pid).mpr hpid) (by simp [hpi])
      | some rp =>
        obtain ⟨pn, pkids⟩ := rp
        simp only [hci, hpi] at hok
        by_cases hcol : cname ∈ pkids.map Prod.snd
        · rw [if_pos (by simp [hcol])] at hok
          exact absurd hok (by simp)
        · rw [if_neg (by simp [hcol])] at hok
          have hcmem : cid ∈ allIdsC F := (infoC_isSome_iff F cid).mp (by rw [hci]; rfl)
          have hes := extractC_isSome_of_mem F cid hcmem
          cases hex : extractC F cid with
          | none => rw [hex] at hes; exact absurd hes (by simp)
          | some r =>
            obtain ⟨sub, F₂⟩ := r
            rw [hex] at hok
            simp only [Except.ok.injEq] at hok
            subst hok
            have hsubnid : sub.nid = cid := extractC_nid F cid sub F₂ hex
            obtain ⟨hndsub, hndF₂, hdisjp⟩ := extractC_parts hnd hex
            have hpidF₂ : pid ∈ allIdsC F₂ := by
              by_cases hin : pid ∈ allIdsC [sub]
              · by_cases hroot : pid = sub.nid
                · exact absurd (hroot.trans hsubnid).symm hccomp.1
                · have := extractC_anc_sub F cid sub F₂ hnd hex pid hin hroot
                  rw [hsubnid] at this
                  exact absurd this hccomp.2
              · have hpm : pid ∈ allIdsC [sub] ++ allIdsC F₂ :=
                  (extractC_perm hex).mem_iff.mp hpid
                rcases List.mem_append.mp hpm with hm | hm
                · exact absurd hm hin
                · exact hm
            have hpns : pid ∉ allIdsC [sub] := fun hc => hdisjp hc hpidF₂
            refine ⟨?_, ?_, ?_, ?_⟩
            · rw [graftC_ids F₂ pid sub hndF₂ hpidF₂,
                extractC_ids F cid sub F₂ hex]
              exact add_comm _ _
            · have hinfoF₂ := extractC_info F cid sub F₂ hnd hex pid hpidF₂
              rw [hpi] at hinfoF₂
              have hgi := graftC_info_pid F₂ pid sub hndF₂ hpidF₂
              rw [hinfoF₂] at hgi
              have hnotk : ∀ kv ∈ pkids, kv.1 ≠ cid := by
                intro kv hkv he
                have hname := kid_pair_name hnd hpi kv hkv
                rw [he] at hname
                simp only [nameOfId, hci, Option.map_some', Option.some.injEq] at hname
                exact hcol (by rw [hname]; exact List.mem_map_of_mem Prod.snd hkv)
              have hfid := kids_filter_id hnotk
              simp only [Option.map_some', hfid] at hgi
              rw [childIds_some hgi, childIds_some hpi, List.map_append]
              simp [hsubnid]
            · intro q
              by_cases hqs : q ∈ allIdsC [sub]
              · have h1 := graftC_info_sub F₂ pid sub q hndF₂ hpidF₂ hdisjp hqs
                have h2 := extractC_info_sub F cid sub F₂ hnd hex q hqs
                simp only [nameOfId, h1, h2]
              · by_cases hqF₂ : q ∈ allIdsC F₂
                · by_cases hqp : q = pid
                  · subst hqp
                    have h1 := graftC_info_pid F₂ q sub hndF₂ hpidF₂
                    have h2 := extractC_info F cid sub F₂ hnd hex q hqF₂
                    simp only [nameOfId, h1, h2]
                    cases infoC F q <;> rfl
                  · have h1 := graftC_info_other F₂ pid sub q hndF₂ hpidF₂ hqs hqp
                    have h2 := extractC_info F cid sub F₂ hnd hex q hqF₂
                    simp only [nameOfId, h1, h2]
                    cases infoC F q <;> rfl
                · have hqF : q ∉ allIdsC F := by
                    intro hc
                    rcases List.mem_append.mp ((extractC_perm hex).mem_iff.mp hc) with
                      hm | hm
                    · exact hqs hm
                    · exact hqF₂ hm
                  have hqG : q ∉ allIdsC (graftC F₂ pid sub) := by
                    intro hc
                    have hmm : q ∈ (allIdsC (graftC F₂ pid sub) : Multiset Nat) :=
                      Multiset.mem_coe.mpr hc
                    rw [graftC_ids F₂ pid sub hndF₂ hpidF₂] at hmm
                    rcases Multiset.mem_add.mp hmm with hm | hm
                    · exact hqF₂ (Multiset.mem_coe.mp hm)
                    · exact hqs (Multiset.mem_coe.mp hm)
                  simp only [nameOfId, infoC_none_of_not_mem hqF,
                    infoC_none_of_not_mem hqG]
            · rw [graftC_anc_other F₂ pid sub pid hndF₂ hpidF₂ hpns,
                extractC_anc F cid sub F₂ hnd hex pid hpidF₂]


/-- The complete effect of removing a direct child: it succeeds, the child
entry disappears from the target child list, and population, names and the
target ancestors are untouched. -/
theorem removeChild_ok_effects {F : List FTree} {pid cid : Nat}
    (hnd : (allIdsC F).Nodup) (hpid : pid ∈ allIdsC F)
    (hcid : cid ∈ childIds F pid) :
    ∃ F₁, removeChild F pid cid = .ok F₁ ∧
      (allIdsC F₁ : Multiset Nat) = ↑(allIdsC F) ∧
      childIds F₁ pid = (childIds F pid).filter (fun k => decide (k ≠ cid)) ∧
      (∀ q, nameOfId F₁ q = nameOfId F q) ∧
      ancC F₁ pid = ancC F pid := by
  have hs : (infoC F pid).isSome := (infoC_isSome_iff F pid).mpr hpid
  cases hpi : infoC F pid with
  | none => rw [hpi] at hs; exact absurd hs (by simp)
  | some rp =>
    obtain ⟨pn, pkids⟩ := rp
    rw [childIds_some hpi] at hcid
    obtain ⟨kv, hkvmem₀, hkvfst⟩ := List.mem_map.mp hcid
    have hkveq : (cid, kv.2) = kv := by
      rw [← hkvfst]
    have hkvmem : (cid, kv.2) ∈ pkids := by
      rw [hkveq]
      exact hkvmem₀
    have hcmemF : cid ∈ allIdsC F :=
      kidIds_mem_allIds F pid pn pkids hpi (cid, kv.2) hkvmem
    have hes := extractC_isSome_of_mem F cid hcmemF
    cases hex : extractC F cid with
    | none => rw [hex] at hes; exact absurd hes (by simp)
    | some r =>
      obtain ⟨sub, F₂⟩ := r
      obtain ⟨hndsub, hndF₂, hdisjp⟩ := extractC_parts hnd hex
      obtain ⟨l, hal, hac⟩ := anc_of_kid F pid cid pn kv.2 pkids hnd hpi hkvmem
      have hfind := extractC_findT F cid sub F₂ hex
      have hpns : pid ∉ allIdsC [sub] :=
        anc_disjoint_sub F cid (l ++ [pid]) sub hnd hac hfind pid
          (List.mem_append_right _ (List.mem_singleton.mpr rfl))
      have hpidF₂ : pid ∈ allIdsC F₂ := by
        have hpm : pid ∈ allIdsC [sub] ++ allIdsC F₂ :=
          (extractC_perm hex).mem_iff.mp hpid
        rcases List.mem_append.mp hpm with hm | hm
        · exact absurd hm hpns
        · exact hm
      have hcond : decide (cid ∈ pkids.map Prod.fst) = true := by
        simp only [decide_eq_true_eq]
        exact hcid
      refine ⟨F₂ ++ [refreshT sub []], ?_, ?_, ?_, ?_, ?_⟩
      · simp only [removeChild, hpi]
        rw [if_pos hcond]
        simp only [hex]
      · rw [allIdsC_append,
          show allIdsC [refreshT sub []] = allIdsC [sub] from allIds_refreshT sub [],
          ← Multiset.coe_add, extractC_ids F cid sub F₂ hex]
        exact add_comm _ _
      · have hinfoF₂ := extractC_info F cid sub F₂ hnd hex pid hpidF₂
        rw [hpi] at hinfoF₂
        simp only [Option.map_some'] at hinfoF₂
        have happ := infoC_append_left [refreshT sub []] hinfoF₂
        rw [childIds_some happ, childIds_some hpi, map_fst_filter]
      · intro q
        by_cases hqs : q ∈ allIdsC [sub]
        · have hqF₂n : q ∉ allIdsC F₂ := fun hc => hdisjp hqs hc
          have h1 : infoC F₂ q = none := infoC_none_of_not_mem hqF₂n
          have h2 := extractC_info_sub F cid sub F₂ hnd hex q hqs
          have h3 : infoC [refreshT sub []] q = infoC [sub] q := by
            rw [show ([refreshT sub []] : List FTree) = refreshC [sub] [] from rfl,
              infoC_refreshC]
          simp only [nameOfId, infoC_append_right [refreshT sub []] h1, h2, h3]
        · by_cases hqF₂ : q ∈ allIdsC F₂
          · have h2 := extractC_info F cid sub F₂ hnd hex q hqF₂
            have hsq : (infoC F₂ q).isSome := (infoC_isSome_iff F₂ q).mpr hqF₂
            cases h0 : infoC F₂ q with
            | none => rw [h0] at hsq; exact absurd hsq (by simp)
            | some r0 =>
              rw [h0] at h2
              cases h3 : infoC F q with
              | none => rw [h3] at h2; exact absurd h2 (by simp)
              | some r1 =>
                rw [h3] at h2
                simp only [Option.map_some', Option.some.injEq] at h2
                subst h2
                simp only [nameOfId, infoC_append_left [refreshT sub []] h0, h3]
                rfl
          · have hqF : q ∉ allIdsC F := by
              intro hc
              rcases List.mem_append.mp ((extractC_perm hex).mem_iff.mp hc) with hm | hm
              · exact hqs hm
              · exact hqF₂ hm
            have h1 : infoC F₂ q = none := infoC_none_of_not_mem hqF₂
            have h3 : infoC [refreshT sub []] q = none := by
              rw [show ([refreshT sub []] : List FTree) = refreshC [sub] [] from rfl,
                infoC_refreshC]
              exact infoC_none_of_not_mem hqs
            simp only [nameOfId, infoC_append_right [refreshT sub []] h1, h3,
              infoC_none_of_not_mem hqF]
      · have ha2 := extractC_anc F cid sub F₂ hnd hex pid hpidF₂
        have hsa : (ancC F₂ pid).isSome := (ancC_isSome_iff F₂ pid).mpr hpidF₂
        cases h0 : ancC F₂ pid with
        | none => rw [h0] at hsa; exact absurd hsa (by simp)
        | some l0 =>
          rw [h0] at ha2
          rw [ancC_append_left [refreshT sub []] h0, ha2]

/-- When neither failure condition holds and both nodes are live,
`add_child` succeeds. -/
theorem addChild_ok_of_checks {F : List FTree} {pid cid : Nat}
    (hpid : pid ∈ allIdsC F) (hcid : cid ∈ allIdsC F)
    (hcyc : ¬ cyclicDep F pid cid = true)
    (hname : ∀ cn, nameOfId F cid = some cn → cn ∉ childNames F pid) :
    ∃ F₁, addChild F pid cid = .ok F₁ := by
  have hsc : (infoC F cid).isSome := (infoC_isSome_iff F cid).mpr hcid
  have hsp : (infoC F pid).isSome := (infoC_isSome_iff F pid).mpr hpid
  cases hci : infoC F cid with
  | none => rw [hci] at hsc; exact absurd hsc (by simp)
  | some rc =>
    obtain ⟨cname, ckids⟩ := rc
    cases hpi : infoC F pid with
    | none => rw [hpi] at hsp; exact absurd hsp (by simp)
    | some rp =>
      obtain ⟨pn, pkids⟩ := rp
      have hes := extractC_isSome_of_mem F cid hcid
      cases hex : extractC F cid with
      | none => rw [hex] at hes; exact absurd hes (by simp)
      | some r =>
        obtain ⟨sub, F₂⟩ := r
        refine ⟨graftC F₂ pid sub, ?_⟩
        have hnm : cname ∉ pkids.map Prod.snd := by
          have := hname cname (by simp [nameOfId, hci])
          rw [childNames_some hpi] at this
          exact this
        simp only [addChild, if_neg hcyc, hci, hpi, hex]
        rw [if_neg (by simp [hnm])]

/-- Invariants carried through the attach loop of the `children` setter,
with the per-step failure witness when the loop stops early. -/
theorem addAllPartial_effects : ∀ (ids : List Nat) (G : List FTree) (pid : Nat),
    (allIdsC G).Nodup → pid ∈ allIdsC G →
    (allIdsC (addAllPartial G pid ids).2 : Multiset Nat) = ↑(allIdsC G) ∧
    (∀ q, nameOfId (addAllPartial G pid ids).2 q = nameOfId G q) ∧
    ancC (addAllPartial G pid ids).2 pid = ancC G pid ∧
    ((addAllPartial G pid ids).1 = none →
      childIds (addAllPartial G pid ids).2 pid = childIds G pid ++ ids) ∧
    (∀ e, (addAllPartial G pid ids).1 = some e →
      ∃ G₀ c, c ∈ ids ∧ addChild G₀ pid c = .error e)
  | [], G, pid => by
    intro hnd hpid
    refine ⟨rfl, fun q => rfl, rfl, ?_, ?_⟩
    · intro h
      simp [addAllPartial]
    · intro e h
      simp [addAllPartial] at h
  | c :: cs, G, pid => by
    intro hnd hpid
    cases haddc : addChild G pid c with
    | ok G₁ =>
      obtain ⟨pop₁, child₁, names₁, anc₁⟩ := addChild_ok_effects hnd hpid haddc
      have hnd₁ := pop_nodup pop₁ hnd
      have hpid₁ := pop_mem pop₁ hpid
      obtain ⟨ihpop, ihnames, ihanc, ihchild, iherr⟩ :=
        addAllPartial_effects cs G₁ pid hnd₁ hpid₁
      have hred : addAllPartial G pid (c :: cs) = addAllPartial G₁ pid cs := by
        simp [addAllPartial, haddc]
      rw [hred]
      refine ⟨ihpop.trans pop₁, fun q => (ihnames q).trans (names₁ q),
        ihanc.trans anc₁, ?_, ?_⟩
      · intro h
        rw [ihchild h, child₁, List.append_assoc]
        rfl
      · intro e h
        obtain ⟨G₀, c₀, hmem, herr⟩ := iherr e h
        exact ⟨G₀, c₀, List.mem_cons.mpr (Or.inr hmem), herr⟩
    | error e₀ =>
      have hred : addAllPartial G pid (c :: cs) = (some e₀, G) := by
        simp [addAllPartial, haddc]
      rw [hred]
      refine ⟨rfl, fun q => rfl, rfl, ?_, ?_⟩
      · intro h
        simp at h
      · intro e h
        simp only [Option.some.injEq] at h
        subst h
        exact ⟨G, c, List.mem_cons.mpr (Or.inl rfl), haddc⟩

/-- The detach loop of the `children` setter: removing the snapshot of the
current children empties the child list and perturbs nothing else. -/
theorem removeAll_effects : ∀ (ids : List Nat) (G : List FTree) (pid : Nat),
    (allIdsC G).Nodup → pid ∈ allIdsC G → childIds G pid = ids →
    (allIdsC (removeAll G pid ids) : Multiset Nat) = ↑(allIdsC G) ∧
    (∀ q, nameOfId (removeAll G pid ids) q = nameOfId G q) ∧
    ancC (removeAll G pid ids) pid = ancC G pid ∧
    childIds (removeAll G pid ids) pid = []
  | [], G, pid => by
    intro hnd hpid hch
    exact ⟨rfl, fun q => rfl, rfl, hch⟩
  | c :: cs, G, pid => by
    intro hnd hpid hch
    have hcmem : c ∈ childIds G pid := by
      rw [hch]
      exact List.mem_cons_self _ _
    obtain ⟨G₁, hok, pop₁, child₁, names₁, anc₁⟩ := removeChild_ok_effects hnd hpid hcmem
    have hnd₁ := pop_nodup pop₁ hnd
    have hpid₁ := pop_mem pop₁ hpid
    have hchnd : (childIds G pid).Nodup := childIds_nodup hnd
    rw [hch] at hchnd child₁
    have hcs : childIds G₁ pid = cs := by
      rw [child₁]
      simp only [List.filter_cons]
      rw [if_neg (by simp)]
      refine List.filter_eq_self.mpr ?_
      intro a ha
      simp only [List.nodup_cons] at hchnd
      have hne : a ≠ c := fun he => hchnd.1 (he ▸ ha)
      simp [hne]
    obtain ⟨ihpop, ihnames, ihanc, ihchild⟩ := removeAll_effects cs G₁ pid hnd₁ hpid₁ hcs
    have hred : removeAll G pid (c :: cs) = removeAll G₁ pid cs := by
      simp [removeAll, hok]
    rw [hred]
    exact ⟨ihpop.trans pop₁, fun q => (ihnames q).trans (names₁ q),
      ihanc.trans anc₁, ihchild⟩


theorem nodup_map_eq {α β : Type} {f : α → β} : ∀ {l : List α},
    (l.map f).Nodup → ∀ {x y : α}, x ∈ l → y ∈ l → f x = f y → x = y
  | [], _, x, y, hx, _, _ => absurd hx (List.not_mem_nil x)
  | a :: l, h, x, y, hx, hy, he => by
    simp only [List.map_cons, List.nodup_cons] at h
    rcases List.mem_cons.mp hx with rfl | hx₀
    · rcases List.mem_cons.mp hy with rfl | hy₀
      · rfl
      · exact absurd (he ▸ List.mem_map_of_mem f hy₀) h.1
    · rcases List.mem_cons.mp hy with rfl | hy₀
      · exact absurd (he ▸ List.mem_map_of_mem f hx₀) h.1
      · exact nodup_map_eq h.2 hx₀ hy₀ he

/-- The rollback loop of the `children` setter cannot fail: re-attaching the
previous children of `pid` - whose sibling names were distinct - succeeds one
by one and rebuilds the original child list in order. -/
theorem addAll_prev_restores : ∀ (rest done : List Nat) (G F₀ : List FTree)
    (pid : Nat) (pn : String) (pkids : List (Nat × String)),
    (allIdsC F₀).Nodup → infoC F₀ pid = some (pn, pkids) →
    (pkids.map Prod.snd).Nodup →
    done ++ rest = pkids.map Prod.fst →
    (allIdsC G : Multiset Nat) = ↑(allIdsC F₀) →
    (∀ q, nameOfId G q = nameOfId F₀ q) →
    ancC G pid = ancC F₀ pid →
    childIds G pid = done →
    (addAllPartial G pid rest).1 = none ∧
    childIds (addAllPartial G pid rest).2 pid = done ++ rest
  | [], done, G, F₀, pid, pn, pkids => by
    intro hnd hpi hsnd hsplit hpop hnames hanc hchild
    refine ⟨rfl, ?_⟩
    simp [addAllPartial, hchild]
  | c :: cs, done, G, F₀, pid, pn, pkids => by
    intro hnd hpi hsnd hsplit hpop hnames hanc hchild
    have hpid₀ : pid ∈ allIdsC F₀ := (infoC_isSome_iff F₀ pid).mp (by rw [hpi]; rfl)
    have hndG := pop_nodup hpop hnd
    have hpidG := pop_mem hpop hpid₀
    have hcmem₁ : c ∈ pkids.map Prod.fst := by
      rw [← hsplit]
      exact List.mem_append_right _ (List.mem_cons_self _ _)
    obtain ⟨kv, hkvmem₀, hkvfst⟩ := List.mem_map.mp hcmem₁
    have hkveq : (c, kv.2) = kv := by
      rw [← hkvfst]
    have hkvmem : (c, kv.2) ∈ pkids := by
      rw [hkveq]
      exact hkvmem₀
    have hcF₀ : c ∈ allIdsC F₀ :=
      kidIds_mem_allIds F₀ pid pn pkids hpi (c, kv.2) hkvmem
    have hcG := pop_mem hpop hcF₀
    have kna := kids_not_anc hnd hpi (c, kv.2) hkvmem
    have hcyc : ¬ cyclicDep G pid c = true := by
      simp only [cyclicDep, hanc, Bool.or_eq_true, decide_eq_true_eq]
      push_neg
      exact ⟨kna.1, kna.2⟩
    have hnmG : nameOfId G c = some kv.2 :=
      (hnames c).trans (kid_pair_name hnd hpi (c, kv.2) hkvmem)
    have hnamecheck : ∀ cn, nameOfId G c = some cn → cn ∉ childNames G pid := by
      intro cn hcn hin
      rw [hnmG] at hcn
      simp only [Option.some.injEq] at hcn
      subst hcn
      have hsg : (infoC G pid).isSome := (infoC_isSome_iff G pid).mpr hpidG
      cases hpig : infoC G pid with
      | none => rw [hpig] at hsg; exact absurd hsg (by simp)
      | some rg =>
        obtain ⟨gn, gkids⟩ := rg
        rw [childNames_some hpig] at hin
        obtain ⟨gkv, hgkvmem, hgkvsnd⟩ := List.mem_map.mp hin
        have hgfst : gkv.1 ∈ done := by
          rw [← hchild, childIds_some hpig]
          exact List.mem_map_of_mem Prod.fst hgkvmem
        have h1 : nameOfId F₀ gkv.1 = some gkv.2 :=
          (hnames gkv.1).symm.trans (kid_pair_name hndG hpig gkv hgkvmem)
        have hg2 : gkv.1 ∈ pkids.map Prod.fst := by
          rw [← hsplit]
          exact List.mem_append_left _ hgfst
        obtain ⟨kv₀, hkv₀mem, hkv₀fst⟩ := List.mem_map.mp hg2
        have h2 : nameOfId F₀ kv₀.1 = some kv₀.2 := kid_pair_name hnd hpi kv₀ hkv₀mem
        rw [hkv₀fst] at h2
        have h3 : kv₀.2 = gkv.2 := by
          have h4 := h1.symm.trans h2
          simpa using h4.symm
        have h4 : kv₀ = (c, kv.2) :=
          nodup_map_eq hsnd hkv₀mem hkvmem (h3.trans hgkvsnd)
        have hcdone : c ∉ done := by
          have hnd₂ : (childIds F₀ pid).Nodup := childIds_nodup hnd
          rw [childIds_some hpi, ← hsplit] at hnd₂
          obtain ⟨-, -, hdisj₂⟩ := List.nodup_append.mp hnd₂
          exact fun hc => hdisj₂ hc (List.mem_cons_self _ _)
        apply hcdone
        have h5 : c = gkv.1 := by
          rw [← hkv₀fst, h4]
        rw [h5]
        exact hgfst
    obtain ⟨G₁, hok⟩ := addChild_ok_of_checks hpidG hcG hcyc hnamecheck
    obtain ⟨pop₁, child₁, names₁, anc₁⟩ := addChild_ok_effects hndG hpidG hok
    rw [hchild] at child₁
    have hsplit₂ : (done ++ [c]) ++ cs = pkids.map Prod.fst := by
      rw [List.append_assoc]
      exact hsplit
    obtain ⟨ih1, ih2⟩ := addAll_prev_restores cs (done ++ [c]) G₁ F₀ pid pn pkids
      hnd hpi hsnd hsplit₂ (pop₁.trans hpop)
      (fun q => (names₁ q).trans (hnames q)) (anc₁.trans hanc) child₁
    have hred : addAllPartial G pid (c :: cs) = addAllPartial G₁ pid cs := by
      simp [addAllPartial, hok]
    rw [hred]
    refine ⟨ih1, ?_⟩
    rw [ih2, List.append_assoc]
    rfl


theorem setChildrenFuel_succ (fuel : Nat) (F : List FTree) (pid : Nat)
    (newIds : Option (List Nat)) :
    setChildrenFuel (fuel + 1) F pid newIds =
      (match addAllPartial (removeAll F pid (childIds F pid)) pid (newIds.getD []) with
        | (none, F₂) => (none, F₂)
        | (some e, F₂) =>
          (some e, (setChildrenFuel fuel F₂ pid (some (childIds F pid))).2)) := rfl

/-- A world for the setter rollback: node 0 has children 1 "a" and 2 "b",
and a root node 3 also named "a".  Setting node 0 children to [3, 1]
attaches 3 and then collides on the name "a". -/
def demoC6 : List FTree :=
  [FTree.mk 0 "r" ["r"]
    [FTree.mk 1 "a" ["r", "a"] [], FTree.mk 2 "b" ["r", "b"] []],
   FTree.mk 3 "a" ["a"] []]

/-- C6: the `children` setter detaches all current children and attaches the
new ones in order; on success the target child list is exactly the new list,
and on any attachment failure the previous child list is restored exactly -
same members in the same order - and the reported error is the one the
failing `add_child` raised (strong exception safety).  The hypotheses are
the invariants the engine maintains: distinct live ids, a live target node,
and distinct sibling names. -/
theorem children_setter_strong_exception_safety
    (F : List FTree) (pid : Nat) (newIds : List Nat)
    (hnd : NodupIds F) (hpid : pid ∈ allIdsC F)
    (hnames : (childNames F pid).Nodup) :
    ((setChildren F pid (some newIds)).1 = none →
      childIds (setChildren F pid (some newIds)).2 pid = newIds) ∧
    (∀ e, (setChildren F pid (some newIds)).1 = some e →
      childIds (setChildren F pid (some newIds)).2 pid = childIds F pid ∧
      ∃ G c, c ∈ newIds ∧ addChild G pid c = Except.error e) := by
  have hndL : (allIdsC F).Nodup := hnd
  have hsp : (infoC F pid).isSome := (infoC_isSome_iff F pid).mpr hpid
  cases hpi : infoC F pid with
  | none => rw [hpi] at hsp; exact absurd hsp (by simp)
  | some rp =>
    obtain ⟨pn, pkids⟩ := rp
    rw [childNames_some hpi] at hnames
    obtain ⟨pop₁, names₁, anc₁, child₁⟩ :=
      removeAll_effects (childIds F pid) F pid hndL hpid rfl
    have hnd₁ := pop_nodup pop₁ hndL
    have hpid₁ := pop_mem pop₁ hpid
    obtain ⟨pop₂, names₂, anc₂, childok₂, err₂⟩ :=
      addAllPartial_effects newIds (removeAll F pid (childIds F pid)) pid hnd₁ hpid₁
    cases hap : addAllPartial (removeAll F pid (childIds F pid)) pid newIds with
    | mk res F₂ =>
      rw [hap] at pop₂ names₂ anc₂ childok₂ err₂
      cases res with
      | none =>
        have hsc : setChildren F pid (some newIds) = (none, F₂) := by
          show setChildrenFuel 2 F pid (some newIds) = (none, F₂)
          rw [show (2 : Nat) = 1 + 1 from rfl, setChildrenFuel_succ]
          simp only [Option.getD_some, hap]
        rw [hsc]
        constructor
        · intro h
          have hc := childok₂ rfl
          rw [child₁] at hc
          simpa using hc
        · intro e he
          simp at he
      | some e₀ =>
        have popF₂ : (allIdsC F₂ : Multiset Nat) = ↑(allIdsC F) := pop₂.trans pop₁
        have namesF₂ : ∀ q, nameOfId F₂ q = nameOfId F q :=
          fun q => (names₂ q).trans (names₁ q)
        have ancF₂ : ancC F₂ pid = ancC F pid := anc₂.trans anc₁
        have hnd₂ : (allIdsC F₂).Nodup := pop_nodup popF₂ hndL
        have hpid₂ : pid ∈ allIdsC F₂ := pop_mem popF₂ hpid
        obtain ⟨pop₃, names₃, anc₃, child₃⟩ :=
          removeAll_effects (childIds F₂ pid) F₂ pid hnd₂ hpid₂ rfl
        have popF₃ : (allIdsC (removeAll F₂ pid (childIds F₂ pid)) :
            Multiset Nat) = ↑(allIdsC F) := pop₃.trans popF₂
        have namesF₃ : ∀ q, nameOfId (removeAll F₂ pid (childIds F₂ pid)) q =
            nameOfId F q := fun q => (names₃ q).trans (namesF₂ q)
        have ancF₃ : ancC (removeAll F₂ pid (childIds F₂ pid)) pid = ancC F pid :=
          anc₃.trans ancF₂
        have hsplit : ([] : List Nat) ++ childIds F pid = pkids.map Prod.fst := by
          rw [List.nil_append, childIds_some hpi]
        obtain ⟨hr1, hr2⟩ := addAll_prev_restores (childIds F pid) []
          (removeAll F₂ pid (childIds F₂ pid)) F pid pn pkids
          hndL hpi hnames hsplit popF₃ namesF₃ ancF₃ child₃
        cases hap₂ : addAllPartial (removeAll F₂ pid (childIds F₂ pid)) pid
            (childIds F pid) with
        | mk res₂ F₄ =>
          rw [hap₂] at hr1 hr2
          have hres₂ : res₂ = none := hr1
          subst hres₂
          have hinner : setChildrenFuel 1 F₂ pid (some (childIds F pid)) =
              (none, F₄) := by
            rw [show (1 : Nat) = 0 + 1 from rfl, setChildrenFuel_succ]
            simp only [Option.getD_some, hap₂]
          have hsc : setChildren F pid (some newIds) = (some e₀, F₄) := by
            show setChildrenFuel 2 F pid (some newIds) = (some e₀, F₄)
            rw [show (2 : Nat) = 1 + 1 from rfl, setChildrenFuel_succ]
            simp only [Option.getD_some, hap]
            rw [hinner]
          rw [hsc]
          constructor
          · intro h
            simp at h
          · intro e he
            have hee : e₀ = e := by simpa using he
            subst hee
            have hrest : childIds F₄ pid = childIds F pid := by simpa using hr2
            exact ⟨hrest, err₂ e₀ rfl⟩

/-- C6 witness: on `demoC6`, setting node 0 children to [3, 1] fails with a
name collision, and the child list is restored to [1, 2]. -/
theorem children_setter_strong_exception_safety_witness :
    ((allIdsC demoC6).Nodup ∧ 0 ∈ allIdsC demoC6 ∧ (childNames demoC6 0).Nodup) ∧
    (((setChildren demoC6 0 (some [3, 1])).1 = none →
      childIds (setChildren demoC6 0 (some [3, 1])).2 0 = [3, 1]) ∧
    (∀ e, (setChildren demoC6 0 (some [3, 1])).1 = some e →
      childIds (setChildren demoC6 0 (some [3, 1])).2 0 = childIds demoC6 0 ∧
      ∃ G c, c ∈ [3, 1] ∧ addChild G 0 c = Except.error e)) :=
  ⟨⟨by simp only [demoC6, allIdsC]; decide,
    by simp only [demoC6, allIdsC]; decide,
    by simp only [childNames, demoC6, infoC]; decide⟩,
    children_setter_strong_exception_safety demoC6 0 [3, 1]
      (by show (allIdsC demoC6).Nodup; simp only [demoC6, allIdsC]; decide)
      (by simp only [demoC6, allIdsC]; decide)
      (by simp only [childNames, demoC6, infoC]; decide)⟩


/-- No node inside a well-formed subtree lists the subtree root among its
direct children. -/
theorem sub_kids_ne_root {sub : FTree} (hnds : (allIdsC [sub]).Nodup) {q : Nat}
    {n0 : String} {k0 : List (Nat × String)}
    (hinfo : infoC [sub] q = some (n0, k0)) :
    ∀ kv ∈ k0, kv.1 ≠ sub.nid := by
  intro kv hkv
  have hqmem : q ∈ allIdsC [sub] := (infoC_isSome_iff [sub] q).mp (by rw [hinfo]; rfl)
  by_cases hq : q = sub.nid
  · subst hq
    exact (kids_not_anc hnds hinfo kv hkv).1
  · cases sub with
    | mk sn sm sp scs =>
      simp only [FTree.nid] at hq ⊢
      simp only [allIdsC, List.append_nil, List.mem_cons] at hqmem
      rcases hqmem with h | h
      · exact absurd h hq
      · have hsq : (ancC scs q).isSome := (ancC_isSome_iff scs q).mpr h
        cases ha : ancC scs q with
        | none => rw [ha] at hsq; exact absurd hsq (by simp)
        | some l0 =>
          have hanc : ancC [FTree.mk sn sm sp scs] q = some (sn :: l0) := by
            simp only [ancC]
            rw [if_neg (fun he => hq he.symm)]
            simp only [ha]
          have hna := (kids_not_anc hnds hinfo kv hkv).2
          rw [hanc] at hna
          simp only [Option.getD_some, List.mem_cons] at hna
          push_neg at hna
          exact hna.1

/-- A world for `add_child`: a root 0 and a separate root 1 to attach. -/
def demoC7 : List FTree :=
  [FTree.mk 0 "r" ["r"] [], FTree.mk 1 "c" ["c"] []]

/-- C7: `add_child` raises exactly when the child is the target itself or
one of its ancestors (cyclic dependency) or an existing child carries the
same name (name collision); otherwise it succeeds, detaching the child from
any previous parent, appending it at the end of the target child list, and
recomputing its subtree paths from the new parent stored path. -/
theorem add_child_error_iff_and_effects
    (F : List FTree) (pid cid : Nat) (hnd : NodupIds F)
    (hpid : pid ∈ allIdsC F) (hcid : cid ∈ allIdsC F) :
    (addChild F pid cid = .error ChErr.cyclic ↔
      cid = pid ∨ cid ∈ (ancC F pid).getD []) ∧
    (addChild F pid cid = .error ChErr.nameCollision ↔
      (¬ (cid = pid ∨ cid ∈ (ancC F pid).getD []) ∧
        ∃ cn, nameOfId F cid = some cn ∧ cn ∈ childNames F pid)) ∧
    addChild F pid cid ≠ .error ChErr.notFound ∧
    (∀ F₁, addChild F pid cid = .ok F₁ →
      childIds F₁ pid = childIds F pid ++ [cid] ∧
      (allIdsC F₁ : Multiset Nat) = ↑(allIdsC F) ∧
      (∀ q, q ∈ allIdsC F → q ≠ pid →
        childIds F₁ q = (childIds F q).filter fun k => decide (k ≠ cid)) ∧
      ∃ sub F₂ pt, extractC F cid = some (sub, F₂) ∧ F₁ = graftC F₂ pid sub ∧
        findT F₂ pid = some pt ∧
        findT F₁ cid = some (refreshT sub pt.path) ∧
        pathsOkT (refreshT sub pt.path) pt.path = true) := by
  have hndL : (allIdsC F).Nodup := hnd
  have hsc : (infoC F cid).isSome := (infoC_isSome_iff F cid).mpr hcid
  have hspp : (infoC F pid).isSome := (infoC_isSome_iff F pid).mpr hpid
  cases hci : infoC F cid with
  | none => rw [hci] at hsc; exact absurd hsc (by simp)
  | some rc =>
  obtain ⟨cname, ckids⟩ := rc
  cases hpi : infoC F pid with
  | none => rw [hpi] at hspp; exact absurd hspp (by simp)
  | some rp =>
  obtain ⟨pn, pkids⟩ := rp
  by_cases hcyc : cyclicDep F pid cid = true
  · have hval : addChild F pid cid = .error ChErr.cyclic := by
      simp only [addChild, if_pos hcyc]
    have hcycP : cid = pid ∨ cid ∈ (ancC F pid).getD [] := by
      simpa [cyclicDep] using hcyc
    refine ⟨⟨fun _ => hcycP, fun _ => hval⟩, ⟨?_, ?_⟩, ?_, ?_⟩
    · intro h
      rw [hval] at h
      simp at h
    · rintro ⟨hn, -⟩
      exact absurd hcycP hn
    · rw [hval]
      simp
    · intro F₁ h
      rw [hval] at h
      simp at h
  · have hcycN : ¬ (cid = pid ∨ cid ∈ (ancC F pid).getD []) := by
      intro hor
      exact hcyc (by simpa [cyclicDep] using hor)
    by_cases hcol : cname ∈ pkids.map Prod.snd
    · have hval : addChild F pid cid = .error ChErr.nameCollision := by
        simp only [addChild, if_neg hcyc, hci, hpi]
        rw [if_pos (by simp [hcol])]
      refine ⟨⟨?_, ?_⟩,
        ⟨fun _ => ⟨hcycN, cname, by simp [nameOfId, hci],
          by rw [childNames_some hpi]; exact hcol⟩, fun _ => hval⟩, ?_, ?_⟩
      · intro h
        rw [hval] at h
        simp at h
      · intro h
        exact absurd h hcycN
      · rw [hval]
        simp
      · intro F₁ h
        rw [hval] at h
        simp at h
    · have hes := extractC_isSome_of_mem F cid hcid
      cases hex : extractC F cid with
      | none => rw [hex] at hes; exact absurd hes (by simp)
      | some r =>
      obtain ⟨sub, F₂⟩ := r
      have hval : addChild F pid cid = .ok (graftC F₂ pid sub) := by
        simp only [addChild, if_neg hcyc, hci, hpi, hex]
        rw [if_neg (by simp [hcol])]
      refine ⟨⟨?_, ?_⟩, ⟨?_, ?_⟩, ?_, ?_⟩
      · intro h
        rw [hval] at h
        simp at h
      · intro h
        exact absurd h hcycN
      · intro h
        rw [hval] at h
        simp at h
      · rintro ⟨-, cn, hcn, hin⟩
        simp only [nameOfId, hci, Option.map_some', Option.some.injEq] at hcn
        subst hcn
        rw [childNames_some hpi] at hin
        exact absurd hin hcol
      · rw [hval]
        simp
      · intro F₁ h
        rw [hval] at h
        simp only [Except.ok.injEq] at h
        subst h
        obtain ⟨pop, childp, names, anc⟩ := addChild_ok_effects hndL hpid hval
        obtain ⟨hndsub, hndF₂, hdisjp⟩ := extractC_parts hndL hex
        have hsubnid : sub.nid = cid := extractC_nid F cid sub F₂ hex
        have hpidF₂ : pid ∈ allIdsC F₂ := by
          by_cases hin : pid ∈ allIdsC [sub]
          · by_cases hroot : pid = sub.nid
            · exact absurd (Or.inl (hroot.trans hsubnid).symm) hcycN
            · have hsa := extractC_anc_sub F cid sub F₂ hndL hex pid hin hroot
              rw [hsubnid] at hsa
              exact absurd (Or.inr hsa) hcycN
          · have hpm : pid ∈ allIdsC [sub] ++ allIdsC F₂ :=
              (extractC_perm hex).mem_iff.mp hpid
            rcases List.mem_append.mp hpm with hm | hm
            · exact absurd hm hin
            · exact hm
        refine ⟨childp, pop, ?_, ?_⟩
        · intro q hq hqp
          by_cases hqs : q ∈ allIdsC [sub]
          · have h1 := graftC_info_sub F₂ pid sub q hndF₂ hpidF₂ hdisjp hqs
            have h2 := extractC_info_sub F cid sub F₂ hndL hex q hqs
            simp only [childIds, h1, h2]
            cases h3 : infoC [sub] q with
            | none => simp
            | some r0 =>
              obtain ⟨n0, k0⟩ := r0
              have hkne := sub_kids_ne_root hndsub h3
              simp only [Option.map_some', Option.getD_some]
              refine (List.filter_eq_self.mpr ?_).symm
              intro a ha
              obtain ⟨kv, hkv, rfl⟩ := List.mem_map.mp ha
              simp [hsubnid ▸ hkne kv hkv]
          · have hqF₂ : q ∈ allIdsC F₂ := by
              have hpm : q ∈ allIdsC [sub] ++ allIdsC F₂ :=
                (extractC_perm hex).mem_iff.mp hq
              rcases List.mem_append.mp hpm with hm | hm
              · exact absurd hm hqs
              · exact hm
            have h1 := graftC_info_other F₂ pid sub q hndF₂ hpidF₂ hqs hqp
            have h2 := extractC_info F cid sub F₂ hndL hex q hqF₂
            simp only [childIds, h1, h2]
            cases h3 : infoC F q with
            | none => simp
            | some r0 =>
              obtain ⟨n0, k0⟩ := r0
              simp only [Option.map_some', Option.getD_some]
              exact map_fst_filter k0 cid
        · have hsnm : sub.nid ∉ allIdsC F₂ := fun hc => hdisjp sub_nid_mem hc
          obtain ⟨pt, hft, hfg⟩ := findT_graft_self F₂ pid sub hndF₂ hpidF₂ hsnm
          refine ⟨sub, F₂, pt, rfl, rfl, hft, ?_, pathsOk_refreshT sub pt.path⟩
          rw [← hsubnid]
          exact hfg

/-- C7 witness: attaching root 1 under root 0 in `demoC7` (no cycle, no
collision) exercises the theorem at a concrete input. -/
theorem add_child_error_iff_and_effects_witness :
    ((allIdsC demoC7).Nodup ∧ 0 ∈ allIdsC demoC7 ∧ 1 ∈ allIdsC demoC7) ∧
    ((addChild demoC7 0 1 = .error ChErr.cyclic ↔
      1 = 0 ∨ 1 ∈ (ancC demoC7 0).getD []) ∧
    (addChild demoC7 0 1 = .error ChErr.nameCollision ↔
      (¬ (1 = 0 ∨ 1 ∈ (ancC demoC7 0).getD []) ∧
        ∃ cn, nameOfId demoC7 1 = some cn ∧ cn ∈ childNames demoC7 0)) ∧
    addChild demoC7 0 1 ≠ .error ChErr.notFound ∧
    (∀ F₁, addChild demoC7 0 1 = .ok F₁ →
      childIds F₁ 0 = childIds demoC7 0 ++ [1] ∧
      (allIdsC F₁ : Multiset Nat) = ↑(allIdsC demoC7) ∧
      (∀ q, q ∈ allIdsC demoC7 → q ≠ 0 →
        childIds F₁ q = (childIds demoC7 q).filter fun k => decide (k ≠ 1)) ∧
      ∃ sub F₂ pt, extractC demoC7 1 = some (sub, F₂) ∧ F₁ = graftC F₂ 0 sub ∧
        findT F₂ 0 = some pt ∧
        findT F₁ 1 = some (refreshT sub pt.path) ∧
        pathsOkT (refreshT sub pt.path) pt.path = true)) :=
  ⟨⟨by simp only [demoC7, allIdsC]; decide,
    by simp only [demoC7, allIdsC]; decide,
    by simp only [demoC7, allIdsC]; decide⟩,
    add_child_error_iff_and_effects demoC7 0 1
      (by show (allIdsC demoC7).Nodup; simp only [demoC7, allIdsC]; decide)
      (by simp only [demoC7, allIdsC]; decide)
      (by simp only [demoC7, allIdsC]; decide)⟩

end PyEngy
